import Mathlib

/-!
# GPU compiler driver (`xla/service/gpu/gpu_compiler.cc`)

A shallow embedding of the driver functions of the XLA GPU compiler:

* `GpuCompiler::CompileToTargetBinary` (sharded, parallel code generation),
* the thunk emission loops of `CompileModuleToLlvmIrImpl` and
  `CompileLmhloToExecutable`,
* `GetMlirAllocationInfo` (allocation table, output info and output shape of an
  lmhlo entry function),
* `RequireDeterminism` and the pipeline of `OptimizeHloPostLayoutAssignment`,
* the stages of `GpuCompiler::OptimizeHloModule` and its fixed-point phases.

External collaborators (LLVM, the concrete backend, the IR emitter) are
records of functions.  Calls that have an effect outside the function are
recorded in an event trace that is returned next to the result.
-/

namespace xla
namespace gpu

/-! ## Status and StatusOr -/

/-- Error codes of `tensorflow::error::Code`. -/
inductive Code where
  | OK | CANCELLED | UNKNOWN | INVALID_ARGUMENT | DEADLINE_EXCEEDED | NOT_FOUND
  | ALREADY_EXISTS | PERMISSION_DENIED | UNAUTHENTICATED | RESOURCE_EXHAUSTED
  | FAILED_PRECONDITION | ABORTED | OUT_OF_RANGE | UNIMPLEMENTED | INTERNAL
  | UNAVAILABLE | DATA_LOSS
  deriving DecidableEq, Repr

/-- A `Status`: an error code and a message. -/
structure Status where
  code : Code
  message : String
  deriving DecidableEq, Repr

/-- `StatusOr<T>`: a value, or the status of the failure. -/
abbrev StatusOr (α : Type) := Except Status α

deriving instance DecidableEq for Except

/-- `StatusOr<T>::status()`: OK when a value is held. -/
def StatusOr.status {α : Type} : StatusOr α → Status
  | .ok _ => { code := Code.OK, message := "" }
  | .error s => s

/-- Modelled from the spec: the `TF_RET_CHECK` macro (status_macros.h) is not
part of the sources at hand; a failed check makes the enclosing function
return an internal assertion-failure status carrying the streamed text. -/
def RetCheckFailure (msg : String) : Status :=
  { code := Code.INTERNAL, message := "RET_CHECK failure " ++ msg }

/-- Conversion of a C++ `int` to `unsigned` (32 bit, wrap-around). -/
def toUnsigned (x : Int) : Nat := (x % 4294967296).toNat

/-! ## LLVM modules and the backend -/

/-- Linkage kinds of `llvm::GlobalValue::LinkageTypes`. -/
inductive LinkageTypes where
  | ExternalLinkage | AvailableExternallyLinkage | LinkOnceAnyLinkage
  | LinkOnceODRLinkage | WeakAnyLinkage | WeakODRLinkage | AppendingLinkage
  | InternalLinkage | PrivateLinkage | ExternalWeakLinkage | CommonLinkage
  deriving DecidableEq, Repr

/-- What the driver reads of an `llvm::Function`. -/
structure Function where
  isDeclaration : Bool
  getLinkage : LinkageTypes
  deriving DecidableEq, Repr

/-- The pair `(ptx text, binary)` a backend compile produces. -/
abbrev BackendCompileResult := String × List UInt8

/-- Modelled from the spec: `tensorflow::thread::ThreadPool` is not part of the
sources at hand; a pool is a fixed number of worker threads, the number it was
constructed with. -/
structure ThreadPool where
  NumThreads : Int
  deriving DecidableEq, Repr

/-- The fields of `DebugOptions` that are read. -/
structure DebugOptions where
  xla_gpu_force_compilation_parallelism : Int
  xla_gpu_deterministic_reductions : Bool := false
  xla_gpu_deterministic_ops : Bool := false
  xla_gpu_use_cudnn_batchnorm : Bool := false
  deriving DecidableEq, Repr

/-- The part of `HloModuleConfig` that is read. -/
structure HloModuleConfig where
  debug_options : DebugOptions
  deriving DecidableEq, Repr

/-- The field of `Compiler::CompileOptions` that is read. -/
structure CompileOptions where
  thread_pool : Option ThreadPool
  deriving DecidableEq, Repr

/-- The collaborators of `GpuCompiler::CompileToTargetBinary` for one call, over
a type `Module` of LLVM modules: the LLVM entry points, the virtual methods of
the concrete compiler, and the dumping configuration. -/
structure Backend (Module : Type) where
  /-- `llvm_module->functions()`. -/
  functions : Module → List Function
  /-- `llvm::verifyModule`: `true` when the module is broken, and the text
  written to the error stream. -/
  verifyModule : Module → Bool × String
  /-- `llvm::SplitModule` with `PreserveLocals`: the modules handed to the
  callback, in callback order. -/
  SplitModule : Module → Nat → List Module
  /-- Printing a module and re-parsing the text in a fresh context. -/
  parseAssemblyString : Module → Module
  /-- The virtual `CompileTargetBinary(config, module, version, exec, relocatable, debug)`. -/
  CompileTargetBinary : Module → Bool → StatusOr BackendCompileResult
  /-- The virtual `LinkModules(stream_exec, modules)`. -/
  LinkModules : List (List UInt8) → StatusOr (List UInt8)
  /-- Whether `user_post_optimization_hook_` is set. -/
  user_post_optimization_hook_ : Bool
  /-- Value of `DumpingEnabledForHloModule` for this module and configuration. -/
  DumpingEnabledForHloModule : Bool
  /-- Whether `debug_module` is non-null. -/
  debug_module : Bool
  /-- Text appended by the module-name hint of the verifier message. -/
  FilenameFor : String

/-- Effects of `CompileToTargetBinary` that are visible outside of it. -/
inductive Event (Module : Type) where
  /-- Entry of the lambda `compile_single_module`. -/
  | compile_single_module (llvm_module : Module) (relocatable : Bool)
      (shard_number : Option Nat)
  | CompileTargetBinary (llvm_module : Module) (relocatable : Bool)
  /-- `llvm_ir::DumpIrIfEnabled`, with the shard number put in the file name. -/
  | DumpIrIfEnabled (llvm_module : Module) (shard_number : Option Nat)
  | LogError (msg : String)
  | user_post_optimization_hook (llvm_module : Module)
  /-- `DumpToFileInDirOrStdout` of the ptx, the shard number put in the file name. -/
  | DumpToFileInDirOrStdout (shard_number : Option Nat) (ptx : String)
  | SplitModule (llvm_module : Module) (n : Nat)
  | LinkModules (modules : List (List UInt8))
  deriving DecidableEq

def Event.isLinkModules {Module : Type} : Event Module → Bool
  | .LinkModules _ => true
  | _ => false

def Event.isSplitModule {Module : Type} : Event Module → Bool
  | .SplitModule _ _ => true
  | _ => false

/-- The event is an entry of `compile_single_module` without shard number and
with `relocatable = false`: the single-shot compile. -/
def Event.isSingleShot {Module : Type} : Event Module → Bool
  | .compile_single_module _ false none => true
  | _ => false

def dumpNotImplemented : String :=
  "Dumping is not implemented since the file name cannot be " ++
  "inferred. Please implement (potentially MLIR) module -> " ++
  "filename heuristic."

section CompileToTargetBinary

variable {Module : Type}

/-- The lambda `compile_single_module` of `CompileToTargetBinary`. -/
def compile_single_module (B : Backend Module) (llvm_module : Module)
    (relocatable : Bool) (shard_number : Option Nat) :
    StatusOr BackendCompileResult × List (Event Module) :=
  let entry := Event.compile_single_module llvm_module relocatable shard_number
  let broken := B.verifyModule llvm_module
  if broken.1 then
    (.error (RetCheckFailure
      ("!llvm::verifyModule(*llvm_module, &err_stream) " ++
       "Invalid LLVM IR before optimizations:\n" ++ broken.2 ++
       "\nThis probably indicates a bug in the HLO -> LLVM IR " ++
       "lowering. Rerun with --xla_dump_to to get the IR" ++
       (if B.debug_module then
          " and looks for files with name containing: *" ++ B.FilenameFor ++ "*"
        else "."))), [entry])
  else
    let result := B.CompileTargetBinary llvm_module relocatable
    let called := [entry, Event.CompileTargetBinary llvm_module relocatable]
    match result with
    | .error s => (.error s, called)
    | .ok r =>
      let should_dump := B.DumpingEnabledForHloModule
      let dump_ir :=
        if should_dump then
          if B.debug_module then [Event.DumpIrIfEnabled llvm_module shard_number]
          else [Event.LogError dumpNotImplemented]
        else []
      let hook :=
        if B.user_post_optimization_hook_ then
          [Event.user_post_optimization_hook llvm_module]
        else []
      let dump_ptx :=
        if should_dump then
          if B.debug_module then [Event.DumpToFileInDirOrStdout shard_number r.1]
          else [Event.LogError dumpNotImplemented]
        else []
      (.ok r, called ++ dump_ir ++ hook ++ dump_ptx)

/-- The pool in effect: the overriding pool when
`xla_gpu_force_compilation_parallelism` is not 0, else `options.thread_pool`. -/
def selectThreadPool (module_config : HloModuleConfig) (options : CompileOptions) :
    Option ThreadPool :=
  if module_config.debug_options.xla_gpu_force_compilation_parallelism ≠ 0 then
    some { NumThreads := module_config.debug_options.xla_gpu_force_compilation_parallelism }
  else options.thread_pool

/-- The loop counting the function definitions with external linkage in the
`int` counter `num_functions`; the conversion to `unsigned` is in `numShards`. -/
def countFunctions (fs : List Function) : Int :=
  fs.foldl (fun num_functions func =>
    if !func.isDeclaration && decide (func.getLinkage = LinkageTypes.ExternalLinkage) then
      num_functions + 1
    else num_functions) 0

/-- The shard count handed to `llvm::SplitModule`:
`std::max<unsigned>(1, std::min<unsigned>(NumThreads(), num_functions))`. -/
def numShards (thread_pool : ThreadPool) (num_functions : Int) : Nat :=
  max 1 (min (toUnsigned thread_pool.NumThreads) (toUnsigned num_functions))

/-- The closure scheduled for shard `i`: re-parse and compile as relocatable. -/
def shardWorker (B : Backend Module) (llvm_modules : List Module) (i : Nat) :
    Option (StatusOr BackendCompileResult × List (Event Module)) :=
  match llvm_modules[i]? with
  | none => none
  | some original_module =>
    some (compile_single_module B (B.parseAssemblyString original_module) true (some i))

/-- The workers run to completion in the order `order` (an interleaving chosen
by the pool); worker `i` stores its result in `compile_results[i]`. -/
def runWorkers (B : Backend Module) (llvm_modules : List Module) :
    List Nat → List (StatusOr BackendCompileResult) × List (Event Module) →
    List (StatusOr BackendCompileResult) × List (Event Module)
  | [], acc => acc
  | i :: order, (compile_results, trace) =>
    match shardWorker B llvm_modules i with
    | none => runWorkers B llvm_modules order (compile_results, trace)
    | some (r, t) =>
      runWorkers B llvm_modules order (compile_results.set i r, trace ++ t)

/-- The loop after the barrier: the first failure is returned; shards with an
empty binary are skipped. -/
def collectResults :
    List (StatusOr BackendCompileResult) → String → List (List UInt8) →
    StatusOr (String × List (List UInt8))
  | [], ptx_snippets, submodule_compile_results =>
    .ok (ptx_snippets, submodule_compile_results)
  | maybe_result :: rest, ptx_snippets, submodule_compile_results =>
    match maybe_result with
    | .error s => .error s
    | .ok result =>
      if result.2.isEmpty then
        collectResults rest ptx_snippets submodule_compile_results
      else
        collectResults rest (ptx_snippets ++ result.1 ++ "\n")
          (submodule_compile_results ++ [result.2])

/-- The function `GpuCompiler::CompileToTargetBinary`.  `order` is the order in
which the pool runs the scheduled closures. -/
def CompileToTargetBinary (B : Backend Module) (module_config : HloModuleConfig)
    (llvm_module : Module) (options : CompileOptions) (order : List Nat) :
    StatusOr BackendCompileResult × List (Event Module) :=
  match selectThreadPool module_config options with
  | none => compile_single_module B llvm_module false none
  | some thread_pool =>
    let probe := [Event.LinkModules ([] : List (List UInt8))]
    if (B.LinkModules []).status.code = Code.UNIMPLEMENTED then
      let r := compile_single_module B llvm_module false none
      (r.1, probe ++ r.2)
    else
      let num_functions := countFunctions (B.functions llvm_module)
      let n := numShards thread_pool num_functions
      let llvm_modules := B.SplitModule llvm_module n
      let split := [Event.SplitModule llvm_module n]
      let init : List (StatusOr BackendCompileResult) :=
        List.replicate llvm_modules.length (.error { code := Code.UNKNOWN, message := "" })
      let done := runWorkers B llvm_modules order (init, [])
      match collectResults done.1 "" [] with
      | .error s => (.error s, probe ++ split ++ done.2)
      | .ok (ptx_snippets, submodule_compile_results) =>
        let link := [Event.LinkModules submodule_compile_results]
        match B.LinkModules submodule_compile_results with
        | .error s => (.error s, probe ++ split ++ done.2 ++ link)
        | .ok backend_result =>
          (.ok (ptx_snippets, backend_result), probe ++ split ++ done.2 ++ link)

end CompileToTargetBinary

/-- The result stored for shard `i` by its worker, for every shard of the list. -/
def shardCompile {Module : Type} (B : Backend Module) (llvm_modules : List Module) :
    List (StatusOr BackendCompileResult) :=
  llvm_modules.mapIdx (fun i original_module =>
    (compile_single_module B (B.parseAssemblyString original_module) true (some i)).1)

/-- The externally-linkable function definitions of a module: the functions
that are not declarations and have `ExternalLinkage`. -/
def externalDefinitions (fs : List Function) : List Function :=
  fs.filter (fun func =>
    !func.isDeclaration && decide (func.getLinkage = LinkageTypes.ExternalLinkage))

/-! ## Thunk emission loops -/

/-- `Status::ok()`. -/
def Status.ok (s : Status) : Bool := decide (s.code = Code.OK)

/-- The result of a function that returns a value or an error status, or that
stops the process on a failed `CHECK`. -/
inductive Outcome (α : Type) where
  | ok (a : α)
  | error (s : Status)
  | abort
  deriving DecidableEq

/-- The calls made on the `IrEmitterUnnested`, over emitter states `E`,
instructions `I`, lmhlo operations `Op` and thunk objects `T` (a thunk is
identified by its address).  Each call returns the new emitter state. -/
structure IrEmitter (I Op E T : Type) where
  /-- `instruction->Visit(ir_emitter)`. -/
  Visit : I → E → Status × E
  Postprocess : E → I → Status × E
  /-- `ir_emitter->EmitOp(input)` with `input.op = &op`. -/
  EmitOp : E → Op → Status × E
  /-- Hands out the thunks emitted since the last call. -/
  ConsumeThunkSequence : E → List T × E
  /-- `instruction->ToString()`. -/
  ToString : I → String

/-- Modelled from the spec: `InsertOrDie` (map_util.h) is not part of the
sources at hand; the map is built incrementally, a new key is added and a key
that is already present stops the process (`none`).  The hash map is kept as
the list of its entries. -/
def InsertOrDie {K V : Type} [DecidableEq K] (m : List (K × V)) (key : K) (value : V) :
    Option (List (K × V)) :=
  if m.any (fun e => decide (e.1 = key)) then none else some (m ++ [(key, value)])

/-- The value stored under `key`. -/
def findValue {K V : Type} [DecidableEq K] (m : List (K × V)) (key : K) : Option V :=
  (m.find? (fun e => decide (e.1 = key))).map Prod.snd

/-- Locals of the emission block of `CompileModuleToLlvmIrImpl`. -/
structure EmitState (I E T : Type) where
  ir_emitter : E
  thunk_to_hlo : List (T × I)
  thunk_sequence : List T

/-- The arguments of the `ThunkSchedule` constructor. -/
structure ThunkSchedule (I T SA : Type) where
  thunks : List T
  stream_assignment : Option SA
  thunk_to_hlo : List (T × I)

section Lowering

variable {H HS SA BA I Op E T : Type}

/-- One iteration of the loop over `hlo_schedule->ThunkLaunchOrder()`. -/
def emitInstruction [DecidableEq T] (em : IrEmitter I Op E T) (st : EmitState I E T)
    (instruction : I) : Outcome (EmitState I E T) :=
  let visited := em.Visit instruction st.ir_emitter
  if !visited.1.ok then .error visited.1 else
  let processed := em.Postprocess visited.2 instruction
  if !processed.1.ok then .error processed.1 else
  let thunks := em.ConsumeThunkSequence processed.2
  if !decide (thunks.1.length ≤ 1) then
    .error (RetCheckFailure ("thunks->size() <= 1 " ++ em.ToString instruction))
  else
    match thunks.1 with
    | [] => .ok { st with ir_emitter := thunks.2 }
    | thunk :: _ =>
      match InsertOrDie st.thunk_to_hlo thunk instruction with
      | none => .abort
      | some inserted =>
        .ok { ir_emitter := thunks.2, thunk_to_hlo := inserted,
              thunk_sequence := st.thunk_sequence ++ [thunk] }

/-- The loop over `hlo_schedule->ThunkLaunchOrder()`. -/
def emitInstructions [DecidableEq T] (em : IrEmitter I Op E T) :
    List I → EmitState I E T → Outcome (EmitState I E T)
  | [], st => .ok st
  | instruction :: order, st =>
    match emitInstruction em st instruction with
    | .ok st1 => emitInstructions em order st1
    | .error s => .error s
    | .abort => .abort

/-- The collaborators of `CompileModuleToLlvmIrImpl` for one call. -/
structure LlvmIrEnv (H HS SA BA I Op E T : Type) where
  AssignStreams : H → SA
  /-- `GpuHloSchedule::Build(hlo_module, *stream_assignment, pointer_size)`. -/
  Build : H → SA → Int → StatusOr HS
  ThunkLaunchOrder : HS → List I
  /-- `BufferAssigner::Run` on the module and the ordering of the schedule. -/
  Run : H → HS → Int → StatusOr BA
  /-- `IrEmitterUnnested::Create`. -/
  Create : H → BA → StatusOr E
  emitter : IrEmitter I Op E T

/-- What `CompileModuleToLlvmIrImpl` stores through its output arguments. -/
structure LlvmIrResult (BA I E T SA : Type) where
  buffer_assignment : BA
  thunk_schedule : ThunkSchedule I T SA
  /-- The emitter state at the end; it holds the LLVM module and the constants. -/
  ir_emitter : E

/-- The function `CompileModuleToLlvmIrImpl`. -/
def CompileModuleToLlvmIrImpl [DecidableEq T] (env : LlvmIrEnv H HS SA BA I Op E T)
    (hlo_module : H) (pointer_size : Int) : Outcome (LlvmIrResult BA I E T SA) :=
  let stream_assignment := env.AssignStreams hlo_module
  match env.Build hlo_module stream_assignment pointer_size with
  | .error s => .error s
  | .ok hlo_schedule =>
    match env.Run hlo_module hlo_schedule pointer_size with
    | .error s => .error s
    | .ok buffer_assignment =>
      match env.Create hlo_module buffer_assignment with
      | .error s => .error s
      | .ok ir_emitter =>
        match emitInstructions env.emitter (env.ThunkLaunchOrder hlo_schedule)
            { ir_emitter := ir_emitter, thunk_to_hlo := [], thunk_sequence := [] } with
        | .error s => .error s
        | .abort => .abort
        | .ok st =>
          .ok { buffer_assignment := buffer_assignment,
                thunk_schedule :=
                  { thunks := st.thunk_sequence,
                    stream_assignment := some stream_assignment,
                    thunk_to_hlo := st.thunk_to_hlo },
                ir_emitter := st.ir_emitter }

/-- One iteration of the loop of `CompileLmhloToExecutable` over the operations
of the entry function body. -/
def emitOp (em : IrEmitter I Op E T) (st : E × List T) (op : Op) : Outcome (E × List T) :=
  let emitted := em.EmitOp st.1 op
  if !emitted.1.ok then .error emitted.1 else
  let thunks := em.ConsumeThunkSequence emitted.2
  if !decide (thunks.1.length ≤ 1) then
    .error (RetCheckFailure "thunks->size() <= 1")
  else
    match thunks.1 with
    | [] => .ok (thunks.2, st.2)
    | thunk :: _ => .ok (thunks.2, st.2 ++ [thunk])

/-- The loop of `CompileLmhloToExecutable` over the body without terminator,
and the `ThunkSchedule` built from the result. -/
def emitOps (em : IrEmitter I Op E T) : List Op → E × List T → Outcome (E × List T)
  | [], st => .ok st
  | op :: ops, st =>
    match emitOp em st op with
    | .ok st1 => emitOps em ops st1
    | .error s => .error s
    | .abort => .abort

/-- The thunks the visitor hands out at each node, when the nodes of `order`
are visited in turn starting from emitter state `e`. -/
def visitLog (em : IrEmitter I Op E T) : List I → E → List (I × List T)
  | [], _ => []
  | instruction :: order, e =>
    let thunks := em.ConsumeThunkSequence
      (em.Postprocess (em.Visit instruction e).2 instruction).2
    (instruction, thunks.1) :: visitLog em order thunks.2

/-- The thunks the emitter hands out at each operation of `ops`. -/
def emitLog (em : IrEmitter I Op E T) : List Op → E → List (Op × List T)
  | [], _ => []
  | op :: ops, e =>
    let thunks := em.ConsumeThunkSequence (em.EmitOp e op).2
    (op, thunks.1) :: emitLog em ops thunks.2

/-- The positions, counted from `n`, of the entries of a log with a thunk. -/
def producingPositions {A : Type} : List (A × List T) → Nat → List Nat
  | [], _ => []
  | (_, []) :: log, n => producingPositions log (n + 1)
  | (_, _ :: _) :: log, n => n :: producingPositions log (n + 1)

end Lowering

/-! ## Allocation info of an lmhlo entry function -/

/-- Modelled from the spec: the status constructors of `xla/util.h` are not
part of the sources at hand; `InvalidArgument(msg)` is the failure status with
code INVALID_ARGUMENT. -/
def InvalidArgument (msg : String) : Status :=
  { code := Code.INVALID_ARGUMENT, message := msg }

/-- Modelled from the spec: as `InvalidArgument`, with code UNIMPLEMENTED. -/
def Unimplemented (msg : String) : Status :=
  { code := Code.UNIMPLEMENTED, message := msg }

/-- Conversion of an `int64` to a C++ `int` (32 bit, wrap-around). -/
def toInt (x : Int) : Int := (x + 2147483648) % 4294967296 - 2147483648

/-- An XLA `Shape`: the default-constructed (invalid) shape, an array shape or
a tuple shape. -/
inductive Shape where
  | invalid
  | array (element_type : Nat) (dimensions : List Int)
  | tuple (tuple_shapes : List Shape)

/-- `ShapeUtil::MakeTupleShape`. -/
def MakeTupleShape (shapes : List Shape) : Shape := Shape.tuple shapes

/-- The kinds of `mlir::Attribute` that are told apart: an integer attribute
with its `getInt()` value, a dense integer elements attribute with the sign
extended values of its elements, and any attribute of another kind. -/
inductive Attribute where
  | IntegerAttr (value : Int)
  | DenseIntElementsAttr (values : List Int)
  | other (text : String)
  deriving DecidableEq, Repr

/-- What is read of the `mlir::Type` of an argument: whether it is a
`ShapedType`, its `getSizeInBits()`, and the result of `TypeToShape` on it. -/
structure MlirType where
  isShapedType : Bool
  getSizeInBits : Nat
  TypeToShape : Shape

/-- An argument of the function: its named attributes (`func.getArgAttrs(i)`)
and its type. -/
structure BlockArgument where
  attrs : List (String × Attribute)
  type : MlirType

/-- What is read of an `mlir::FuncOp`: its arguments in order. -/
structure FuncOp where
  arguments : List BlockArgument

/-- The call `func.getArgAttr(i, name)`: the attribute of that name, if any. -/
def BlockArgument.getArgAttr (arg : BlockArgument) (name : String) : Option Attribute :=
  findValue arg.attrs name

/-- Modelled from the spec: the class `BufferAllocation` is not part of the
sources at hand; an allocation has an index, a size in bytes, an optional
binding to an entry parameter (parameter number and shape index) with a
may-alias-output mark, and a may-live-out mark.  A new allocation is bound to
no parameter and is not marked. -/
structure BufferAllocation where
  index : Int
  size : Nat
  color : Nat
  is_entry_computation_parameter : Bool := false
  parameter_number : Int := 0
  param_shape_index : List Int := []
  is_parameter_aliased_with_output : Bool := false
  maybe_live_out : Bool := false
  deriving DecidableEq, Repr

/-- The method `BufferAllocation::set_entry_computation_parameter`. -/
def BufferAllocation.set_entry_computation_parameter (a : BufferAllocation)
    (parameter_number : Int) (param_shape_index : List Int)
    (parameter_aliased_with_output : Bool) : BufferAllocation :=
  { a with
    is_entry_computation_parameter := true
    parameter_number := parameter_number
    param_shape_index := param_shape_index
    is_parameter_aliased_with_output := parameter_aliased_with_output }

/-- The method `BufferAllocation::set_maybe_live_out`. -/
def BufferAllocation.set_maybe_live_out (a : BufferAllocation) (value : Bool) :
    BufferAllocation :=
  { a with maybe_live_out := value }

/-- Modelled from the spec: `GpuExecutable::OutputInfo` is not part of the
sources at hand; per output shape index it holds the allocation index and an
optional alias source (parameter number, parameter shape index). -/
structure OutputInfo where
  allocation_index : Int := 0
  alias_config : Option (Int × List Int) := none
  deriving DecidableEq, Repr

/-- The call `v.resize(n)` on a vector, with `d` the value of a new element. -/
def resize {α : Type} (l : List α) (n : Nat) (d : α) : List α :=
  if n ≤ l.length then l.take n else l ++ List.replicate (n - l.length) d

/-- The statement `if (i >= v.size()) v.resize(i + 1);`. -/
def growTo {α : Type} (l : List α) (i : Nat) (d : α) : List α :=
  if l.length ≤ i then resize l (i + 1) d else l

/-- One iteration of the first loop of `GetMlirAllocationInfo`.  An index that
is negative as an `int` is compared as an unsigned value: the vector is
resized to `index + 1` elements, which throws for an index below -1 and empties
the vector for the index -1, and the element `maybe_allocations[-1]` that is
then assigned does not exist; the index `INT_MAX` overflows in `index + 1`.  In
these cases no result is defined (`abort`). -/
def allocStep (maybe_allocations : List (Option BufferAllocation)) (arg : BlockArgument) :
    Outcome (List (Option BufferAllocation)) :=
  match arg.getArgAttr "lmhlo.alloc" with
  | some (.IntegerAttr value) =>
    let index := toInt value
    if index < -1 then .abort
    else if index = 2147483647 then .abort
    else
      let resized :=
        if index < 0 then resize maybe_allocations 0 none
        else growTo maybe_allocations index.toNat none
      if !arg.type.isShapedType then
        .error (RetCheckFailure "arg.getType().isa<mlir::ShapedType>()")
      else if index < 0 then .abort
      else
        let size := arg.type.getSizeInBits / 8
        .ok (resized.set index.toNat (some { index := index, size := size, color := 0 }))
  | _ => .error (RetCheckFailure "allocation_index_attr")

/-- The first loop of `GetMlirAllocationInfo`, over the arguments. -/
def allocLoop : List BlockArgument → List (Option BufferAllocation) →
    Outcome (List (Option BufferAllocation))
  | [], maybe_allocations => .ok maybe_allocations
  | arg :: args, maybe_allocations =>
    match allocStep maybe_allocations arg with
    | .ok next => allocLoop args next
    | .error s => .error s
    | .abort => .abort

/-- The second loop of `GetMlirAllocationInfo`: every index has to be used. -/
def collectAllocations : List (Option BufferAllocation) → List BufferAllocation →
    StatusOr (List BufferAllocation)
  | [], allocations => .ok allocations
  | some alloc :: rest, allocations => collectAllocations rest (allocations ++ [alloc])
  | none :: _, _ => .error (InvalidArgument "Allocation indices should range in [0, n)")

/-- The check of the attribute names, over all arguments. -/
def attrNamesOk (args : List BlockArgument) : Bool :=
  args.all (fun arg => arg.attrs.all (fun attr =>
    decide (attr.1 = "lmhlo.alloc") || decide (attr.1 = "lmhlo.params") ||
    decide (attr.1 = "lmhlo.output_index")))

/-- Locals of the last loop of `GetMlirAllocationInfo`.  The hash map
`output_info` is kept as the list of its entries in insertion order. -/
structure OutputState where
  allocations : List BufferAllocation
  output_info : List (List Int × OutputInfo)
  output_shapes : List Shape
  rank : Option Nat

/-- The access `(*output_info)[shape_index]` followed by the assignments
`update` to the entry: a missing entry is first made with default value. -/
def updateEntry (output_info : List (List Int × OutputInfo)) (shape_index : List Int)
    (update : OutputInfo → OutputInfo) : List (List Int × OutputInfo) :=
  if output_info.any (fun e => decide (e.1 = shape_index)) then
    output_info.map (fun e => if e.1 = shape_index then (e.1, update e.2) else e)
  else output_info ++ [(shape_index, update {})]

/-- The call `allocations->at(index)` followed by `update` on the element; an
index out of range throws, no result is defined (`none`). -/
def updateAt (allocations : List BufferAllocation) (index : Int)
    (update : BufferAllocation → BufferAllocation) : Option (List BufferAllocation) :=
  if index < 0 then none
  else
    match allocations[index.toNat]? with
    | none => none
    | some alloc => some (allocations.set index.toNat (update alloc))

/-- The statements of the last loop that place the shape of the argument in
`output_shapes`; a negative tuple position is compared as an unsigned value
and then used as a vector index that does not exist (`none`). -/
def placeShape (output_shapes : List Shape) (shape_index : List Int) (shape : Shape) :
    Option (List Shape) :=
  match shape_index with
  | [] => some (output_shapes ++ [shape])
  | position :: _ =>
    if position < 0 then none
    else some ((growTo output_shapes position.toNat Shape.invalid).set position.toNat shape)

/-- One iteration of the last loop of `GetMlirAllocationInfo`.  A `cast` to an
attribute kind that the attribute does not have gives no defined result
(`abort`). -/
def outputStep (st : OutputState) (arg : BlockArgument) : Outcome OutputState :=
  match arg.getArgAttr "lmhlo.alloc" with
  | some (.IntegerAttr index) =>
    let with_params : Option (List BufferAllocation) :=
      match arg.getArgAttr "lmhlo.params" with
      | none => some st.allocations
      | some (.IntegerAttr parameter_number) =>
        updateAt st.allocations index (fun alloc =>
          alloc.set_entry_computation_parameter parameter_number []
            (arg.getArgAttr "lmhlo.output_index").isSome)
      | some _ => none
    match with_params with
    | none => .abort
    | some allocations1 =>
      match arg.getArgAttr "lmhlo.output_index" with
      | none => .ok { st with allocations := allocations1 }
      | some output_index_attr =>
        match updateAt allocations1 index (fun alloc => alloc.set_maybe_live_out true) with
        | none => .abort
        | some allocations2 =>
          match output_index_attr with
          | .DenseIntElementsAttr shape_index =>
            if st.rank.isSome && !decide (st.rank = some shape_index.length) then
              .error (InvalidArgument "Expect output_index to have the same ranks")
            else
              let output_info := updateEntry st.output_info shape_index (fun o =>
                { o with
                  allocation_index := index
                  alias_config :=
                    match arg.getArgAttr "lmhlo.params" with
                    | some (.IntegerAttr parameter_number) => some (parameter_number, [])
                    | _ => o.alias_config })
              if shape_index.length > 1 then
                .error (Unimplemented "Expect array type or 1-level tuple type")
              else
                match placeShape st.output_shapes shape_index arg.type.TypeToShape with
                | none => .abort
                | some output_shapes =>
                  .ok { allocations := allocations2, output_info := output_info,
                        output_shapes := output_shapes, rank := some shape_index.length }
          | _ => .abort
  | _ => .abort

/-- The last loop of `GetMlirAllocationInfo`, over the arguments. -/
def outputLoop : List BlockArgument → OutputState → Outcome OutputState
  | [], st => .ok st
  | arg :: args, st =>
    match outputStep st arg with
    | .ok next => outputLoop args next
    | .error s => .error s
    | .abort => .abort

/-- What `GetMlirAllocationInfo` stores through its output arguments. -/
structure AllocationInfo where
  allocations : List BufferAllocation
  output_info : List (List Int × OutputInfo)
  output_shape : Shape

/-- The function `GetMlirAllocationInfo`, called with empty `allocations` and
`output_info` as its caller does. -/
def GetMlirAllocationInfo (func : FuncOp) : Outcome AllocationInfo :=
  match allocLoop func.arguments [] with
  | .error s => .error s
  | .abort => .abort
  | .ok maybe_allocations =>
    match collectAllocations maybe_allocations [] with
    | .error s => .error s
    | .ok allocations =>
      if !attrNamesOk func.arguments then
        .error (RetCheckFailure ("attr.first == \"lmhlo.alloc\" || " ++
          "attr.first == \"lmhlo.params\" || attr.first == \"lmhlo.output_index\""))
      else
        match outputLoop func.arguments
            { allocations := allocations, output_info := [], output_shapes := [],
              rank := none } with
        | .error s => .error s
        | .abort => .abort
        | .ok st =>
          .ok { allocations := st.allocations, output_info := st.output_info,
                output_shape := MakeTupleShape st.output_shapes }

/-- The statements `if (i >= v.size()) v.resize(i + 1); v[i] = x;` for each
pair `(i, x)` of a list, in order. -/
def assignAll {α : Type} (l : List α) (d : α) (us : List (Nat × α)) : List α :=
  us.foldl (fun acc u => (growTo acc u.1 d).set u.1 u.2) l

/-- The value of the last pair of the list that assigns to index `k`. -/
def lastAssigned {α : Type} : List (Nat × α) → Nat → Option α
  | [], _ => none
  | u :: us, k =>
    match lastAssigned us k with
    | some v => some v
    | none => if u.1 = k then some u.2 else none

/-- The assignment the first loop of `GetMlirAllocationInfo` makes for an
argument with an integer `lmhlo.alloc` attribute. -/
def allocAssignment (arg : BlockArgument) : Option (Nat × Option BufferAllocation) :=
  match arg.getArgAttr "lmhlo.alloc" with
  | some (.IntegerAttr value) =>
    some ((toInt value).toNat,
      some { index := toInt value, size := arg.type.getSizeInBits / 8, color := 0 })
  | _ => none

/-- What the last loop of `GetMlirAllocationInfo` does to the allocation of an
argument: the parameter binding when the argument carries `lmhlo.params`, the
may-live-out mark when it carries `lmhlo.output_index`. -/
def applyArg (arg : BlockArgument) (alloc : BufferAllocation) : BufferAllocation :=
  let bound :=
    match arg.getArgAttr "lmhlo.params" with
    | some (.IntegerAttr parameter_number) =>
      alloc.set_entry_computation_parameter parameter_number []
        (arg.getArgAttr "lmhlo.output_index").isSome
    | _ => alloc
  if (arg.getArgAttr "lmhlo.output_index").isSome then bound.set_maybe_live_out true
  else bound

/-- The entry of the output info map that an argument declares: its output
path as key, its allocation index, and its parameter as alias source when it
carries `lmhlo.params`. -/
def declaredOutput (arg : BlockArgument) : Option (List Int × OutputInfo) :=
  match arg.getArgAttr "lmhlo.output_index", arg.getArgAttr "lmhlo.alloc" with
  | some (.DenseIntElementsAttr path), some (.IntegerAttr index) =>
    some (path,
      { allocation_index := index
        alias_config :=
          match arg.getArgAttr "lmhlo.params" with
          | some (.IntegerAttr parameter_number) => some (parameter_number, [])
          | _ => none })
  | _, _ => none

/-- The marks of all arguments with allocation index `k`, applied in argument
order to an allocation. -/
def applyAll (args : List BlockArgument) (k : Int) (alloc : BufferAllocation) :
    BufferAllocation :=
  args.foldl (fun acc arg =>
    if arg.getArgAttr "lmhlo.alloc" = some (.IntegerAttr k) then applyArg arg acc else acc)
    alloc

/-- The output path an argument declares by its `lmhlo.output_index`. -/
def outputPath (arg : BlockArgument) : Option (List Int) :=
  match arg.getArgAttr "lmhlo.output_index" with
  | some (.DenseIntElementsAttr path) => some path
  | _ => none

/-- The assignment the last loop of `GetMlirAllocationInfo` makes to
`output_shapes` for an argument that declares a path of length 1. -/
def shapeAssignment (arg : BlockArgument) : Option (Nat × Shape) :=
  match outputPath arg with
  | some [position] => some (position.toNat, arg.type.TypeToShape)
  | _ => none

/-! ## The determinism flag and the post-layout-assignment pipeline -/

/-- The state of the process that outlives a call: the function-local static
`require_determinism` of `RequireDeterminism`, not yet initialised at start. -/
structure ProcessState where
  require_determinism : Option Bool := none
  deriving DecidableEq, Repr

/-- The function `RequireDeterminism`.  `ReadBoolFromEnvVar name default_val env
initial` is the status of `tensorflow::ReadBoolFromEnvVar` in the environment
`env` and the content of `*value` after the call, `initial` being its content
before; `TF_CHECK_OK` stops the process on a status that is not OK. -/
def RequireDeterminism {Env : Type}
    (ReadBoolFromEnvVar : String → Bool → Env → Bool → Status × Bool)
    (env : Env) (state : ProcessState) : Outcome (Bool × ProcessState) :=
  match state.require_determinism with
  | some require_determinism => .ok (require_determinism, state)
  | none =>
    let read := ReadBoolFromEnvVar "TF_DETERMINISTIC_OPS" false env false
    if !read.1.ok then .abort
    else .ok (read.2, { require_determinism := some read.2 })

/-- A sequence of calls of `RequireDeterminism`, call `i` made in the
environment `envs[i]`; the values returned and the final state. -/
def RequireDeterminismCalls {Env : Type}
    (ReadBoolFromEnvVar : String → Bool → Env → Bool → Status × Bool) :
    List Env → ProcessState → Outcome (List Bool × ProcessState)
  | [], state => .ok ([], state)
  | env :: envs, state =>
    match RequireDeterminism ReadBoolFromEnvVar env state with
    | .ok (value, next) =>
      match RequireDeterminismCalls ReadBoolFromEnvVar envs next with
      | .ok (values, final) => .ok (value :: values, final)
      | .error s => .error s
      | .abort => .abort
    | .error s => .error s
    | .abort => .abort

/-- A pass of a pipeline: the name of its class, whether it is wrapped in
`HloPassFix`, and its constructor arguments.  For a pass that is itself an
`HloPassPipeline`, its invariant checkers and its passes in the order they
were added, each as class name, `HloPassFix` mark and arguments. -/
structure HloPass where
  name : String
  fix : Bool := false
  args : List String := []
  invariant_checkers : List (String × Bool × List String) := []
  passes : List (String × Bool × List String) := []
  deriving DecidableEq, Repr

/-- An `HloPassPipeline`: its name, its invariant checkers and its passes in
the order they were added; `fix` when the object is an
`HloPassFix<HloPassPipeline>`. -/
structure HloPassPipeline where
  name : String
  invariant_checkers : List HloPass := []
  passes : List HloPass := []
  fix : Bool := false
  deriving DecidableEq, Repr

/-- The method `HloPassPipeline::AddPass`. -/
def HloPassPipeline.AddPass (pipeline : HloPassPipeline) (pass : HloPass) :
    HloPassPipeline :=
  { pipeline with passes := pipeline.passes ++ [pass] }

/-- Modelled from the spec: `HloPassPipeline::AddInvariantCheckerDebug` is not
part of the sources at hand; the structural verifier is run after every pass
in debug builds only. -/
def HloPassPipeline.AddInvariantCheckerDebug (pipeline : HloPassPipeline)
    (debug_build : Bool) (checker : HloPass) : HloPassPipeline :=
  if debug_build then
    { pipeline with invariant_checkers := pipeline.invariant_checkers ++ [checker] }
  else pipeline

/-- The pipeline that `GpuCompiler::OptimizeHloPostLayoutAssignment` builds,
`require_determinism` being the value of the call `RequireDeterminism()`. -/
def postLayoutAssignmentPipeline (require_determinism : Bool)
    (debug_options : DebugOptions) (debug_build : Bool) : HloPassPipeline :=
  let pipeline : HloPassPipeline := { name := "post-layout_assignment" }
  let pipeline := pipeline.AddInvariantCheckerDebug debug_build
    { name := "HloVerifier",
      args := ["layout_sensitive=true", "allow_mixed_precision=false",
               "LayoutAssignment::InstructionCanChangeLayout"] }
  let pipeline := pipeline.AddPass { name := "ReductionDegenerateDimRemover" }
  let pipeline := pipeline.AddPass { name := "ReductionLayoutNormalizer" }
  let pipeline := pipeline.AddPass { name := "ReductionDimensionGrouper" }
  let pipeline := pipeline.AddPass { name := "ReductionSplitter", fix := true }
  let pipeline := pipeline.AddPass
    { name := "AlgebraicSimplifier", fix := true,
      args := ["is_layout_sensitive=true", "replace_transpose_with_bitcast=false",
               "enable_conv_operand_swap=false"] }
  let pipeline :=
    if require_determinism || debug_options.xla_gpu_deterministic_reductions ||
        debug_options.xla_gpu_deterministic_ops then
      pipeline.AddPass { name := "GpuTreeReductionRewriter", fix := true }
    else pipeline
  let pipeline := pipeline.AddPass
    { name := "TransposeFolding",
      args := ["IsMatrixMultiplication", "TransposeFolding::NeverFoldTranspose"] }
  let pipeline := pipeline.AddPass { name := "GemmRewriter" }
  let pipeline := pipeline.AddPass
    { name := "GpuConvAlgorithmPicker", args := ["stream_exec", "device_allocator"] }
  let pipeline := pipeline.AddPass { name := "TupleSimplifier" }
  let pipeline := pipeline.AddPass { name := "HloCSE", args := ["is_layout_sensitive=true"] }
  pipeline

/-- The function `GpuCompiler::OptimizeHloPostLayoutAssignment`: the status it
returns, the module after the run and the state of the process.  `Run` is
`HloPassPipeline::Run` on the module. -/
def OptimizeHloPostLayoutAssignment {Env HloModule : Type}
    (ReadBoolFromEnvVar : String → Bool → Env → Bool → Status × Bool)
    (Run : HloPassPipeline → HloModule → StatusOr Bool × HloModule)
    (env : Env) (state : ProcessState) (config : HloModuleConfig) (debug_build : Bool)
    (hlo_module : HloModule) : Outcome (Status × HloModule × ProcessState) :=
  match RequireDeterminism ReadBoolFromEnvVar env state with
  | .error s => .error s
  | .abort => .abort
  | .ok (require_determinism, next) =>
    let pipeline :=
      postLayoutAssignmentPipeline require_determinism config.debug_options debug_build
    let run := Run pipeline hlo_module
    if !run.1.status.ok then .ok (run.1.status, run.2, next)
    else .ok ({ code := Code.OK, message := "" }, run.2, next)

/-- The pass `HloPassFix<GpuTreeReductionRewriter>`. -/
def treeReductionRewriter : HloPass := { name := "GpuTreeReductionRewriter", fix := true }

/-! ## The stages of `OptimizeHloModule` -/

/-- Modelled from the spec: `HloPassPipeline::AddInvariantChecker` is not part
of the sources at hand; the structural verifier is run before the first pass
and after every pass. -/
def HloPassPipeline.AddInvariantChecker (pipeline : HloPassPipeline)
    (checker : HloPass) : HloPassPipeline :=
  { pipeline with invariant_checkers := pipeline.invariant_checkers ++ [checker] }

/-- A pipeline as a pass of another pipeline: the calls
`AddPass<HloPassFix<HloPassPipeline>>(name)` on the outer pipeline and the
additions to the pipeline made through the reference it returns. -/
def HloPassPipeline.toPass (pipeline : HloPassPipeline) : HloPass :=
  { name := "HloPassPipeline",
    fix := pipeline.fix,
    args := [pipeline.name],
    invariant_checkers := pipeline.invariant_checkers.map (fun p => (p.name, p.fix, p.args)),
    passes := pipeline.passes.map (fun p => (p.name, p.fix, p.args)) }

/-- The pipeline `simplification` that `OptimizeHloModule` nests in its first
pipeline, wrapped in `HloPassFix`. -/
def simplificationPipeline (debug_build : Bool) : HloPassPipeline :=
  let pass : HloPassPipeline := { name := "simplification", fix := true }
  let pass := pass.AddInvariantCheckerDebug debug_build
    { name := "HloVerifier",
      args := ["layout_sensitive=false", "allow_mixed_precision=false"] }
  let pass := pass.AddPass { name := "ZeroSizedHloElimination" }
  let pass := pass.AddPass
    { name := "GatherExpander", args := ["GatherExpander::kEliminateSimpleGathers"] }
  let pass := pass.AddPass
    { name := "ScatterExpander", args := ["ScatterExpander::kEliminateSimpleScatters"] }
  let pass := pass.AddPass
    { name := "AlgebraicSimplifier",
      args := ["replace_transpose_with_bitcast=false", "enable_conv_operand_swap=false"] }
  let pass := pass.AddPass { name := "DotDecomposer" }
  let pass := pass.AddPass { name := "SortSimplifier" }
  let pass := pass.AddPass { name := "TupleSimplifier" }
  let pass := pass.AddPass { name := "WhileLoopConstantSinking" }
  let pass := pass.AddPass { name := "WhileLoopSimplifier" }
  let pass := pass.AddPass { name := "HloDCE" }
  let pass := pass.AddPass { name := "ReshapeMover" }
  let pass := pass.AddPass { name := "HloConstantFolding" }
  let pass := pass.AddPass { name := "ConditionalSimplifier" }
  pass

/-- The pipeline `optimization`, the first one of `OptimizeHloModule`. -/
def optimizationPipeline (debug_options : DebugOptions) (debug_build : Bool) :
    HloPassPipeline :=
  let pipeline : HloPassPipeline := { name := "optimization" }
  let pipeline := pipeline.AddInvariantChecker
    { name := "HloVerifier",
      args := ["layout_sensitive=false", "allow_mixed_precision=false"] }
  let pipeline := pipeline.AddPass
    { name := "AllGatherDecomposer", args := ["!NcclAllGatherThunk::CanImplement(&ag)"] }
  let pipeline := pipeline.AddPass { name := "AllToAllDecomposer" }
  let pipeline := pipeline.AddPass { name := "OperandUpcaster" }
  let pipeline := pipeline.AddPass { name := "RngExpander" }
  let pipeline := pipeline.AddPass
    { name := "RngBitGeneratorExpander", args := ["RandomAlgorithm::RNG_PHILOX"] }
  let pipeline := pipeline.AddPass { name := "ComparisonExpander" }
  let pipeline := pipeline.AddPass { name := "ZeroSizedHloElimination" }
  let pipeline := pipeline.AddPass { name := "GpuScatterExpander" }
  let pipeline := pipeline.AddPass { name := "QrExpander" }
  let pipeline := pipeline.AddPass { name := "DynamicIndexSplitter" }
  let pipeline := pipeline.AddPass { name := "CallInliner" }
  let pipeline := pipeline.AddPass { name := "DotDecomposer" }
  let pipeline := pipeline.AddPass { name := "Convolution4DExpander" }
  let pipeline := pipeline.AddPass { name := "StableSortExpander" }
  let pipeline := pipeline.AddPass { name := "HloElementTypeConverter", args := ["BF16", "F32"] }
  let pipeline :=
    if debug_options.xla_gpu_use_cudnn_batchnorm then
      let pipeline := pipeline.AddPass
        { name := "BatchNormExpander",
          args := ["rewrite_training_op=false", "rewrite_inference_op=true",
                   "rewrite_grad_op=false"] }
      pipeline.AddPass { name := "CudnnBatchNormRewriter" }
    else pipeline
  let pipeline := pipeline.AddPass
    { name := "BatchNormExpander",
      args := ["rewrite_training_op=true", "rewrite_inference_op=true",
               "rewrite_grad_op=true"] }
  let pipeline := pipeline.AddPass
    { name := "LogisticExpander", args := ["expansion_type=LogisticExpansionType::kExp"] }
  let pipeline := pipeline.AddPass { name := "ConditionalCanonicalizer" }
  let pipeline := pipeline.AddPass { name := "DynamicPadder" }
  let pipeline := pipeline.AddPass (simplificationPipeline debug_build).toPass
  let pipeline := pipeline.AddPass
    { name := "TransposeFolding", args := ["IsMatrixMultiplication"] }
  let pipeline := pipeline.AddPass { name := "HloCSE", args := ["is_layout_sensitive=false"] }
  let pipeline := pipeline.AddPass { name := "HloDCE" }
  let pipeline := pipeline.AddPass { name := "WhileLoopTripCountAnnotator" }
  pipeline

/-- The pipeline `layout assignment` of `OptimizeHloModule`. -/
def layoutAssignmentPipeline : HloPassPipeline :=
  let pipeline : HloPassPipeline := { name := "layout assignment" }
  let pipeline := pipeline.AddPass { name := "FlattenCallGraph" }
  let pipeline := pipeline.AddPass
    { name := "GpuLayoutAssignment",
      args := ["hlo_module->mutable_entry_computation_layout()",
               "LayoutAssignment::InstructionCanChangeLayout", "stream_exec"] }
  pipeline

/-- The pipeline `fusion` of `OptimizeHloModule`, an
`HloPassFix<HloPassPipeline>`. -/
def fusionPipeline (debug_build : Bool) : HloPassPipeline :=
  let fusion : HloPassPipeline := { name := "fusion", fix := true }
  let fusion := fusion.AddPass { name := "VariadicOpSplitter" }
  let fusion := fusion.AddInvariantCheckerDebug debug_build
    { name := "HloVerifier",
      args := ["layout_sensitive=true", "allow_mixed_precision=false",
               "LayoutAssignment::InstructionCanChangeLayout"] }
  let fusion := fusion.AddPass { name := "GpuInstructionFusion", args := ["may_duplicate=false"] }
  let fusion := fusion.AddPass { name := "GpuInstructionFusion", args := ["may_duplicate=true"] }
  let fusion := fusion.AddPass { name := "FusionMerger" }
  let fusion := fusion.AddPass { name := "GpuMultiOutputFusion" }
  let fusion := fusion.AddPass
    { name := "HloCSE", args := ["is_layout_sensitive=true", "only_fusion_computations=true"] }
  let fusion := fusion.AddPass { name := "HloDCE" }
  fusion

/-- The pipeline `horizontal_fusion` of `OptimizeHloModule`. -/
def horizontalFusionPipeline : HloPassPipeline :=
  let horizontal_fusion : HloPassPipeline := { name := "horizontal_fusion" }
  let horizontal_fusion := horizontal_fusion.AddPass { name := "GpuHorizontalLoopFusion" }
  let horizontal_fusion := horizontal_fusion.AddPass { name := "GpuHorizontalInputFusion" }
  let horizontal_fusion := horizontal_fusion.AddPass
    { name := "HloCSE", args := ["is_layout_sensitive=true", "only_fusion_computations=true"] }
  let horizontal_fusion := horizontal_fusion.AddPass { name := "HloDCE" }
  horizontal_fusion

/-- The pipeline `all_reduce_combiner` of `OptimizeHloModule`. -/
def allReduceCombinerPipeline : HloPassPipeline :=
  let pipeline : HloPassPipeline := { name := "all_reduce_combiner" }
  pipeline.AddPass
    { name := "AllReduceCombiner",
      args := ["combine_threshold_in_bytes=30 * 1024 * 1024", "combine_threshold_count=256"] }

/-- The pipeline `final_algebraic_simplifier` of `OptimizeHloModule`. -/
def finalAlgebraicSimplifierPipeline : HloPassPipeline :=
  let pipeline : HloPassPipeline := { name := "final_algebraic_simplifier" }
  pipeline.AddPass
    { name := "AlgebraicSimplifier",
      args := ["is_layout_sensitive=true", "enable_conv_operand_swap=false"] }

/-- The stages of `GpuCompiler::OptimizeHloModule`, in the order of the source
text: six runs of a pipeline and the two calls of
`OptimizeHloConvolutionCanonicalization` and `OptimizeHloPostLayoutAssignment`. -/
inductive Stage where
  | optimization
  | convolution_canonicalization
  | layout_assignment
  | post_layout_assignment
  | fusion
  | horizontal_fusion
  | all_reduce_combiner
  | final_algebraic_simplifier
  deriving DecidableEq, Repr

/-- The function `GpuCompiler::OptimizeHloModule`: the status it returns with
the module and the state of the process it leaves, and the stages that were
run, in the order they were run, each with the status it returned.  `Run` is
the virtual `Run` of a pipeline object on the module,
`OptimizeHloConvolutionCanonicalization` the virtual method of the concrete
compiler; the process stops when `OptimizeHloPostLayoutAssignment` does. -/
def OptimizeHloModule {Env HloModule : Type}
    (ReadBoolFromEnvVar : String → Bool → Env → Bool → Status × Bool)
    (Run : HloPassPipeline → HloModule → StatusOr Bool × HloModule)
    (OptimizeHloConvolutionCanonicalization : HloModule → Status × HloModule)
    (env : Env) (state : ProcessState) (config : HloModuleConfig) (debug_build : Bool)
    (hlo_module : HloModule) :
    Outcome (Status × HloModule × ProcessState) × List (Stage × Status) :=
  let optimization := Run (optimizationPipeline config.debug_options debug_build) hlo_module
  let trace := [(Stage.optimization, optimization.1.status)]
  if !optimization.1.status.ok then
    (.ok (optimization.1.status, optimization.2, state), trace)
  else
  let canonicalization := OptimizeHloConvolutionCanonicalization optimization.2
  let trace := trace ++ [(Stage.convolution_canonicalization, canonicalization.1)]
  if !canonicalization.1.ok then
    (.ok (canonicalization.1, canonicalization.2, state), trace)
  else
  let layout := Run layoutAssignmentPipeline canonicalization.2
  let trace := trace ++ [(Stage.layout_assignment, layout.1.status)]
  if !layout.1.status.ok then (.ok (layout.1.status, layout.2, state), trace)
  else
  match OptimizeHloPostLayoutAssignment ReadBoolFromEnvVar Run env state config debug_build
      layout.2 with
  | .abort => (.abort, trace)
  | .error s => (.error s, trace)
  | .ok (post_layout, hlo_module4, next) =>
  let trace := trace ++ [(Stage.post_layout_assignment, post_layout)]
  if !post_layout.ok then (.ok (post_layout, hlo_module4, next), trace)
  else
  let fusion := Run (fusionPipeline debug_build) hlo_module4
  let trace := trace ++ [(Stage.fusion, fusion.1.status)]
  if !fusion.1.status.ok then (.ok (fusion.1.status, fusion.2, next), trace)
  else
  let horizontal_fusion := Run horizontalFusionPipeline fusion.2
  let trace := trace ++ [(Stage.horizontal_fusion, horizontal_fusion.1.status)]
  if !horizontal_fusion.1.status.ok then
    (.ok (horizontal_fusion.1.status, horizontal_fusion.2, next), trace)
  else
  let combiner := Run allReduceCombinerPipeline horizontal_fusion.2
  let trace := trace ++ [(Stage.all_reduce_combiner, combiner.1.status)]
  if !combiner.1.status.ok then (.ok (combiner.1.status, combiner.2, next), trace)
  else
  let simplifier := Run finalAlgebraicSimplifierPipeline combiner.2
  let trace := trace ++ [(Stage.final_algebraic_simplifier, simplifier.1.status)]
  if !simplifier.1.status.ok then (.ok (simplifier.1.status, simplifier.2, next), trace)
  else (.ok ({ code := Code.OK, message := "" }, simplifier.2, next), trace)

/-- Stages run one after the other on a state, each on the state the stage
before it left, up to the first status that is not OK, which is the result;
OK when every stage returned OK.  A stage that stops the process ends the run. -/
def runStages {σ : Type} :
    List (Stage × (σ → Outcome (Status × σ))) → σ → Outcome (Status × σ) × List (Stage × Status)
  | [], s => (.ok ({ code := Code.OK, message := "" }, s), [])
  | (stage, f) :: rest, s =>
    match f s with
    | .abort => (.abort, [])
    | .error e => (.error e, [])
    | .ok (status, s1) =>
      if !status.ok then (.ok (status, s1), [(stage, status)])
      else ((runStages rest s1).1, (stage, status) :: (runStages rest s1).2)

/-- A run of a pipeline as a stage on the module and the state of the process. -/
def runStage {HloModule : Type} (Run : HloPassPipeline → HloModule → StatusOr Bool × HloModule)
    (pipeline : HloPassPipeline) (s : HloModule × ProcessState) :
    Outcome (Status × HloModule × ProcessState) :=
  .ok ((Run pipeline s.1).1.status, (Run pipeline s.1).2, s.2)

/-- The eight stages of `OptimizeHloModule` in the order of the claim, each
with the call that the source makes for it. -/
def optimizeStages {Env HloModule : Type}
    (ReadBoolFromEnvVar : String → Bool → Env → Bool → Status × Bool)
    (Run : HloPassPipeline → HloModule → StatusOr Bool × HloModule)
    (OptimizeHloConvolutionCanonicalization : HloModule → Status × HloModule)
    (env : Env) (config : HloModuleConfig) (debug_build : Bool) :
    List (Stage × (HloModule × ProcessState → Outcome (Status × HloModule × ProcessState))) :=
  [(Stage.optimization,
      runStage Run (optimizationPipeline config.debug_options debug_build)),
   (Stage.convolution_canonicalization, fun s =>
      .ok ((OptimizeHloConvolutionCanonicalization s.1).1,
           (OptimizeHloConvolutionCanonicalization s.1).2, s.2)),
   (Stage.layout_assignment, runStage Run layoutAssignmentPipeline),
   (Stage.post_layout_assignment, fun s =>
      OptimizeHloPostLayoutAssignment ReadBoolFromEnvVar Run env s.2 config debug_build s.1),
   (Stage.fusion, runStage Run (fusionPipeline debug_build)),
   (Stage.horizontal_fusion, runStage Run horizontalFusionPipeline),
   (Stage.all_reduce_combiner, runStage Run allReduceCombinerPipeline),
   (Stage.final_algebraic_simplifier, runStage Run finalAlgebraicSimplifierPipeline)]

/-- The names of the stages, in the fixed order. -/
def stageOrder : List Stage :=
  [Stage.optimization, Stage.convolution_canonicalization, Stage.layout_assignment,
   Stage.post_layout_assignment, Stage.fusion, Stage.horizontal_fusion,
   Stage.all_reduce_combiner, Stage.final_algebraic_simplifier]

/-! ## Fixed-point phases -/

/-- Modelled from the spec: `HloPassFix<Pass>::Run` (hlo_pass_fix.h) is not part
of the sources at hand; the wrapped pass is iterated to a fixed point, that is
until a run of it reports no change, and a failure of a run is returned at
once.  `Run` is one run of the wrapped pass, `changed` whether a run before
reported a change; the value returned is whether any run did.  `fuel` bounds
the number of runs: `none` when it is used up before the loop has ended. -/
def HloPassFix.Run {HloModule : Type} (Run : HloModule → StatusOr Bool × HloModule) :
    Nat → Bool → HloModule → Option (StatusOr Bool × HloModule)
  | 0, _, _ => none
  | fuel + 1, changed, hlo_module =>
    match Run hlo_module with
    | (.error s, next) => some (.error s, next)
    | (.ok true, next) => HloPassFix.Run Run fuel true next
    | (.ok false, next) => some (.ok changed, next)

/-- Modelled from the spec: the virtual `Run` of a pipeline object is not part
of the sources at hand.  `RunOnce pipeline` is one run of the passes of the
pipeline in sequence; a pipeline that is wrapped in `HloPassFix` iterates it
to a fixed point, another pipeline makes one run. -/
def HloPassPipeline.Run {HloModule : Type}
    (RunOnce : HloPassPipeline → HloModule → StatusOr Bool × HloModule)
    (pipeline : HloPassPipeline) (fuel : Nat) (hlo_module : HloModule) :
    Option (StatusOr Bool × HloModule) :=
  if pipeline.fix then HloPassFix.Run (RunOnce pipeline) fuel false hlo_module
  else some (RunOnce pipeline hlo_module)

/-! ## Concrete instances used to evaluate the definitions -/

/-- A function definition with external linkage. -/
def extDef : Function := { isDeclaration := false, getLinkage := .ExternalLinkage }

/-- A configuration with the given forced parallelism. -/
def configWith (k : Int) : HloModuleConfig :=
  { debug_options := { xla_gpu_force_compilation_parallelism := k } }

/-- A small backend over modules that are lists of functions: shard `i` of `n`
holds the functions at the positions congruent to `i`, a compile yields one
byte per function, linking concatenates. -/
def toyBackend : Backend (List Function) where
  functions := fun m => m
  verifyModule := fun _ => (false, "")
  SplitModule := fun m n =>
    (List.range n).map (fun i => (m.enum.filter (fun p => p.1 % n = i)).map Prod.snd)
  parseAssemblyString := fun m => m
  CompileTargetBinary := fun m _ => .ok ("ptx", m.map (fun _ => 7))
  LinkModules := fun ms => .ok ms.flatten
  user_post_optimization_hook_ := false
  DumpingEnabledForHloModule := false
  debug_module := false
  FilenameFor := ""

/-- As `toyBackend`, with a linker that rejects every non-empty input. -/
def toyBackendLinkFails : Backend (List Function) :=
  { toyBackend with
    LinkModules := fun ms =>
      if ms.isEmpty then .ok [] else .error { code := Code.INTERNAL, message := "link" } }

/-- As `toyBackend`, with a split that puts every function in shard 0. -/
def toyBackendClustered : Backend (List Function) :=
  { toyBackend with SplitModule := fun m n => m :: List.replicate (n - 1) [] }

/-- As `toyBackendClustered`, with a compile that fails on modules without function. -/
def toyBackendCompileFails : Backend (List Function) :=
  { toyBackendClustered with
    CompileTargetBinary := fun m _ =>
      if m.isEmpty then .error { code := Code.INTERNAL, message := "empty" }
      else .ok ("ptx", m.map (fun _ => 7)) }

/-- As `toyBackend`, without support for linking. -/
def toyBackendNoLink : Backend (List Function) :=
  { toyBackend with
    LinkModules := fun _ => .error { code := Code.UNIMPLEMENTED, message := "" } }

/-- A small emitter: an instruction is the number of thunks its visit emits,
the emitter state is the pending thunks and the next free address. -/
def toyEmitter : IrEmitter Nat Nat (List Nat × Nat) Nat where
  Visit := fun i e =>
    ({ code := Code.OK, message := "" }, (e.1 ++ (List.range i).map (fun k => e.2 + k), e.2 + i))
  Postprocess := fun e _ => ({ code := Code.OK, message := "" }, e)
  EmitOp := fun e i =>
    ({ code := Code.OK, message := "" }, (e.1 ++ (List.range i).map (fun k => e.2 + k), e.2 + i))
  ConsumeThunkSequence := fun e => (e.1, ([], e.2))
  ToString := fun _ => "instruction"

/-- A small environment over `toyEmitter`: the module is its launch order. -/
def toyEnv : LlvmIrEnv (List Nat) (List Nat) Unit Unit Nat Nat (List Nat × Nat) Nat where
  AssignStreams := fun _ => ()
  Build := fun h _ _ => .ok h
  ThunkLaunchOrder := fun hs => hs
  Run := fun _ _ _ => .ok ()
  Create := fun _ _ => .ok ([], 100)
  emitter := toyEmitter

/-- What `CompileModuleToLlvmIrImpl` yields on `toyEnv` for the launch order
`[1, 0, 1]`: two thunks, at the addresses 100 and 101. -/
def toyResult : LlvmIrResult Unit Nat (List Nat × Nat) Nat Unit :=
  { buffer_assignment := (),
    thunk_schedule :=
      { thunks := [100, 101], stream_assignment := some (),
        thunk_to_hlo := [(100, 1), (101, 1)] },
    ir_emitter := ([], 102) }

/-- A memref type of the given size in bits; its shape has one dimension. -/
def memrefType (bits : Nat) (n : Int) : MlirType :=
  { isShapedType := true, getSizeInBits := bits, TypeToShape := Shape.array 11 [n] }

/-- A type that is no `ShapedType`. -/
def scalarType : MlirType :=
  { isShapedType := false, getSizeInBits := 32, TypeToShape := Shape.invalid }

/-- The attribute `lmhlo.alloc = k`. -/
def allocAttr (k : Int) : String × Attribute := ("lmhlo.alloc", .IntegerAttr k)

/-- The attribute `lmhlo.params = k`. -/
def paramsAttr (k : Int) : String × Attribute := ("lmhlo.params", .IntegerAttr k)

/-- The attribute `lmhlo.output_index = dense<path>`. -/
def outputIndexAttr (path : List Int) : String × Attribute :=
  ("lmhlo.output_index", .DenseIntElementsAttr path)

/-- A function with a parameter in allocation 0 and an output of tuple
position 0 in allocation 1. -/
def toyFunc : FuncOp :=
  { arguments :=
      [{ attrs := [allocAttr 0, paramsAttr 0], type := memrefType 128 4 },
       { attrs := [allocAttr 1, outputIndexAttr [0]], type := memrefType 64 2 }] }

/-- A function that uses the allocation indices 0 and 2, not 1. -/
def toyFuncGap : FuncOp :=
  { arguments :=
      [{ attrs := [allocAttr 0], type := memrefType 128 4 },
       { attrs := [allocAttr 2], type := memrefType 64 2 }] }

/-- A function with one argument of allocation index 1 that has no shaped type. -/
def toyFuncScalar : FuncOp :=
  { arguments := [{ attrs := [allocAttr 1], type := scalarType }] }

/-- The allocation 0 that `GetMlirAllocationInfo` yields on `toyFunc`. -/
def toyAllocation0 : BufferAllocation :=
  { index := 0, size := 16, color := 0, is_entry_computation_parameter := true,
    parameter_number := 0 }

/-- What `GetMlirAllocationInfo` yields on `toyFunc`. -/
def toyFuncInfo : AllocationInfo :=
  { allocations :=
      [toyAllocation0, { index := 1, size := 8, color := 0, maybe_live_out := true }],
    output_info := [([0], { allocation_index := 1 })],
    output_shape := Shape.tuple [Shape.array 11 [2]] }

/-- A function in which a parameter and an output share allocation 0. -/
def toyFuncShared : FuncOp :=
  { arguments :=
      [{ attrs := [allocAttr 0, paramsAttr 0], type := memrefType 128 4 },
       { attrs := [allocAttr 0, outputIndexAttr []], type := memrefType 64 2 }] }

/-- What `GetMlirAllocationInfo` yields on `toyFuncShared`. -/
def toyFuncSharedInfo : AllocationInfo :=
  { allocations :=
      [{ index := 0, size := 8, color := 0, is_entry_computation_parameter := true,
         parameter_number := 0, maybe_live_out := true }],
    output_info := [([], { allocation_index := 0 })],
    output_shape := Shape.tuple [Shape.array 11 [2]] }

/-- A function with outputs at the tuple positions 2 and 0. -/
def toyFuncTuple : FuncOp :=
  { arguments :=
      [{ attrs := [allocAttr 0, outputIndexAttr [2]], type := memrefType 128 4 },
       { attrs := [allocAttr 1, outputIndexAttr [0], paramsAttr 3],
         type := memrefType 64 2 }] }

/-- What `GetMlirAllocationInfo` yields on `toyFuncTuple`. -/
def toyFuncTupleInfo : AllocationInfo :=
  { allocations :=
      [{ index := 0, size := 16, color := 0, maybe_live_out := true },
       { index := 1, size := 8, color := 0, is_entry_computation_parameter := true,
         parameter_number := 3, is_parameter_aliased_with_output := true,
         maybe_live_out := true }],
    output_info :=
      [([2], { allocation_index := 0 }),
       ([0], { allocation_index := 1, alias_config := some (3, []) })],
    output_shape :=
      Shape.tuple [Shape.array 11 [2], Shape.invalid, Shape.array 11 [4]] }

/-- Two arguments that declare output paths of the lengths 1 and 2, the first
with the allocation index `first`. -/
def toyFuncRanks (first : Int) : FuncOp :=
  { arguments :=
      [{ attrs := [allocAttr first, outputIndexAttr [0]], type := memrefType 128 4 },
       { attrs := [allocAttr 0, outputIndexAttr [0, 0]], type := memrefType 64 2 }] }

/-- An argument with the allocation index `first`, followed by an argument
that declares an output path of length 2. -/
def toyFuncDeep (first : Int) : FuncOp :=
  { arguments :=
      [{ attrs := [allocAttr first], type := memrefType 128 4 },
       { attrs := [allocAttr 0, outputIndexAttr [0, 1]], type := memrefType 64 2 }] }

/-- An argument with the allocation index `first`, followed by an argument
without `lmhlo.alloc` that carries an attribute of another name. -/
def toyFuncNoAlloc (first : Int) : FuncOp :=
  { arguments :=
      [{ attrs := [allocAttr first], type := memrefType 128 4 },
       { attrs := [("lmhlo.unknown", .other "unit")], type := memrefType 64 2 }] }

/-- A reader of boolean environment variables over environments that are
lists of name and value: an unset variable gives the default value, the values
`1`, `true`, `0` and `false` are understood, another value is an error. -/
def toyReadBool (name : String) (default_val : Bool) (env : List (String × String))
    (initial : Bool) : Status × Bool :=
  match findValue env name with
  | none => ({ code := Code.OK, message := "" }, default_val)
  | some text =>
    if text = "1" ∨ text = "true" then ({ code := Code.OK, message := "" }, true)
    else if text = "0" ∨ text = "false" then ({ code := Code.OK, message := "" }, false)
    else (InvalidArgument "Failed to parse the env-var as bool", initial)

/-- As `toyBackend`, with a split that keeps all functions but the last in
shard 0 and puts the last one in the last shard; a module of two or more
functions compiles to the text `a`, one without function to the text `b` and
an empty binary, one of one function to the text `c`. -/
def toyBackendSparse : Backend (List Function) :=
  { toyBackend with
    SplitModule := fun m n =>
      if n < 2 then [m]
      else m.take (m.length - 1) :: (List.replicate (n - 2) [] ++ [m.drop (m.length - 1)])
    CompileTargetBinary := fun m _ =>
      if m.isEmpty then .ok ("b", [])
      else if m.length = 1 then .ok ("c", [9])
      else .ok ("a", m.map (fun _ => 7)) }

/-- A function with two array outputs: both arguments declare the empty
output path. -/
def toyFuncArrays : FuncOp :=
  { arguments :=
      [{ attrs := [allocAttr 0, outputIndexAttr []], type := memrefType 128 4 },
       { attrs := [allocAttr 1], type := memrefType 32 1 },
       { attrs := [allocAttr 2, outputIndexAttr []], type := memrefType 64 2 }] }

/-- What `GetMlirAllocationInfo` yields on `toyFuncArrays`. -/
def toyFuncArraysInfo : AllocationInfo :=
  { allocations :=
      [{ index := 0, size := 16, color := 0, maybe_live_out := true },
       { index := 1, size := 4, color := 0 },
       { index := 2, size := 8, color := 0, maybe_live_out := true }],
    output_info := [([], { allocation_index := 2 })],
    output_shape := Shape.tuple [Shape.array 11 [4], Shape.array 11 [2]] }

/-- A run of a pipeline on a module that is the list of the names of the
pipelines run so far: the name is appended, and the run fails on a pipeline
that is an `HloPassFix<HloPassPipeline>`. -/
def toyRun (pipeline : HloPassPipeline) (hlo_module : List String) :
    StatusOr Bool × List String :=
  (if pipeline.fix then .error (InvalidArgument "no fixed point") else .ok true,
   hlo_module ++ [pipeline.name])

/-- A convolution canonicalization that records its call in the module. -/
def toyCanonicalization (hlo_module : List String) : Status × List String :=
  ({ code := Code.OK, message := "" }, hlo_module ++ ["convolution canonicalization"])

section CompileToTargetBinaryLemmas

variable {Module : Type}

theorem countFunctions_foldl (fs : List Function) (acc : Int) :
    fs.foldl (fun num_functions func =>
      if !func.isDeclaration && decide (func.getLinkage = LinkageTypes.ExternalLinkage) then
        num_functions + 1
      else num_functions) acc = acc + ((externalDefinitions fs).length : Int) := by
  induction fs generalizing acc with
  | nil => simp [externalDefinitions]
  | cons func fs ih =>
    simp only [List.foldl_cons, externalDefinitions, List.filter_cons]
    by_cases h : (!func.isDeclaration &&
        decide (func.getLinkage = LinkageTypes.ExternalLinkage)) = true
    · rw [if_pos h, if_pos h, ih]
      simp only [externalDefinitions, List.length_cons, Nat.cast_add, Nat.cast_one]
      omega
    · rw [if_neg h, if_neg h, ih]
      simp only [externalDefinitions]

theorem countFunctions_eq (fs : List Function) :
    countFunctions fs = ((externalDefinitions fs).length : Int) := by
  unfold countFunctions
  rw [countFunctions_foldl]
  simp

theorem toUnsigned_of_nat (n : Nat) (h : n < 4294967296) : toUnsigned (n : Int) = n := by
  unfold toUnsigned
  rw [Int.emod_eq_of_lt (by omega) (by omega)]
  simp

/-- The shape of the events of one call of `compile_single_module`. -/
theorem compile_single_module_events (B : Backend Module) (m : Module) (r : Bool)
    (sh : Option Nat) (e : Event Module) (he : e ∈ (compile_single_module B m r sh).2) :
    e = Event.compile_single_module m r sh ∨ e = Event.CompileTargetBinary m r ∨
    e = Event.DumpIrIfEnabled m sh ∨ e = Event.LogError dumpNotImplemented ∨
    e = Event.user_post_optimization_hook m ∨
    ∃ ptx, e = Event.DumpToFileInDirOrStdout sh ptx := by
  unfold compile_single_module at he
  simp only at he
  split at he
  · simp at he; simp [he]
  · split at he
    · simp at he; rcases he with he | he <;> simp [he]
    · simp only [List.mem_append, List.mem_cons, List.mem_singleton, List.not_mem_nil,
        or_false] at he
      rcases he with ((he | he) | he) | he
      · rcases he with he | he <;> simp [he]
      · split at he
        · split at he <;> simp at he <;> simp [he]
        · simp at he
      · split at he
        · simp at he; simp [he]
        · simp at he
      · split at he
        · split at he <;> simp at he <;> simp [he]
        · simp at he

theorem compile_single_module_not_split (B : Backend Module) (m : Module) (r : Bool)
    (sh : Option Nat) (e : Event Module) (he : e ∈ (compile_single_module B m r sh).2) :
    e.isSplitModule = false := by
  rcases compile_single_module_events B m r sh e he with h | h | h | h | h | ⟨ptx, h⟩ <;>
    subst h <;> rfl

theorem compile_single_module_not_link (B : Backend Module) (m : Module) (r : Bool)
    (sh : Option Nat) (e : Event Module) (he : e ∈ (compile_single_module B m r sh).2) :
    e.isLinkModules = false := by
  rcases compile_single_module_events B m r sh e he with h | h | h | h | h | ⟨ptx, h⟩ <;>
    subst h <;> rfl

theorem compile_single_module_not_single_shot (B : Backend Module) (m : Module)
    (i : Nat) (e : Event Module)
    (he : e ∈ (compile_single_module B m true (some i)).2) :
    e.isSingleShot = false := by
  rcases compile_single_module_events B m true (some i) e he with
    h | h | h | h | h | ⟨ptx, h⟩ <;> subst h <;> rfl

theorem filter_eq_nil_of_forall {α : Type} (p : α → Bool) (l : List α)
    (h : ∀ e ∈ l, p e = false) : l.filter p = [] := by
  rw [List.filter_eq_nil_iff]
  intro e he
  simp [h e he]

/-- The shard workers only add events of `compile_single_module` calls with a
shard number: a filter that rejects those sees the trace it started from. -/
theorem runWorkers_filter (B : Backend Module) (mods : List Module) (p : Event Module → Bool)
    (hp : ∀ m i e, e ∈ (compile_single_module B m true (some i)).2 → p e = false)
    (order : List Nat) (init : List (StatusOr BackendCompileResult))
    (tr : List (Event Module)) :
    (runWorkers B mods order (init, tr)).2.filter p = tr.filter p := by
  induction order generalizing init tr with
  | nil => rfl
  | cons i order ih =>
    unfold runWorkers
    cases hw : shardWorker B mods i with
    | none => simpa using ih init tr
    | some rt =>
      obtain ⟨r, t⟩ := rt
      simp only
      rw [ih, List.filter_append]
      have ht : t.filter p = [] := by
        apply filter_eq_nil_of_forall
        intro e he
        unfold shardWorker at hw
        split at hw
        · simp at hw
        · simp only [Option.some.injEq] at hw
          rename_i om _
          have ht2 : (compile_single_module B (B.parseAssemblyString om) true (some i)).2 = t := by
            rw [hw]
          rw [← ht2] at he
          exact hp _ _ e he
      rw [ht, List.append_nil]

/-- Entry `j` of the result vector after the workers of `order` have run. -/
theorem runWorkers_getElem? (B : Backend Module) (mods : List Module) (order : List Nat)
    (init : List (StatusOr BackendCompileResult)) (tr : List (Event Module)) (j : Nat) :
    (runWorkers B mods order (init, tr)).1[j]? =
      if j ∈ order then
        match shardWorker B mods j with
        | some rt => init[j]?.map (fun _ => rt.1)
        | none => init[j]?
      else init[j]? := by
  induction order generalizing init tr with
  | nil => simp [runWorkers]
  | cons i order ih =>
    unfold runWorkers
    cases hw : shardWorker B mods i with
    | none =>
      simp only
      rw [ih]
      by_cases hji : j = i
      · subst hji
        simp [hw]
      · simp [hji]
    | some rt =>
      obtain ⟨r, t⟩ := rt
      simp only
      rw [ih]
      by_cases hji : j = i
      · subst hji
        simp only [hw, List.mem_cons, true_or, if_true, List.getElem?_set, if_true]
        by_cases hjo : j ∈ order
        · simp only [hjo, if_true]
          cases h0 : init[j]? with
          | none =>
            have hlen : ¬ j < init.length := by
              intro hlt
              rw [List.getElem?_eq_getElem hlt] at h0
              cases h0
            simp [hlen]
          | some v =>
            have hlen : j < init.length := by
              by_contra hlt
              rw [List.getElem?_eq_none (by omega)] at h0
              cases h0
            simp [hlen]
        · simp only [hjo, if_false]
          cases h0 : init[j]? with
          | none =>
            have hlen : ¬ j < init.length := by
              intro hlt
              rw [List.getElem?_eq_getElem hlt] at h0
              cases h0
            simp [hlen]
          | some v =>
            have hlen : j < init.length := by
              by_contra hlt
              rw [List.getElem?_eq_none (by omega)] at h0
              cases h0
            simp [hlen]
      · have hij : ¬ i = j := fun h => hji h.symm
        simp only [List.mem_cons, hji, false_or, List.getElem?_set, hij, if_false]

/-- Once every worker has run, in whatever order, the result vector holds the
compile result of shard `i` at index `i`. -/
theorem runWorkers_eq_shardCompile (B : Backend Module) (mods : List Module)
    (order : List Nat) (horder : order.Perm (List.range mods.length))
    (d : StatusOr BackendCompileResult) (tr : List (Event Module)) :
    (runWorkers B mods order (List.replicate mods.length d, tr)).1 = shardCompile B mods := by
  apply List.ext_getElem?
  intro j
  rw [runWorkers_getElem?]
  unfold shardCompile
  rw [List.getElem?_mapIdx]
  by_cases hj : j < mods.length
  · have hmem : j ∈ order := (horder.mem_iff).2 (List.mem_range.2 hj)
    simp only [hmem, if_true, shardWorker, List.getElem?_eq_getElem hj,
      List.getElem?_replicate, hj, Option.map_some']
  · have hmem : ¬ j ∈ order := fun h => hj (List.mem_range.1 ((horder.mem_iff).1 h))
    simp only [hmem, if_false, List.getElem?_replicate, hj]
    rw [List.getElem?_eq_none (by omega)]
    rfl

/-- On the sharded path the module is split once, into `numShards` shards. -/
theorem sharded_split_events (B : Backend Module) (cfg : HloModuleConfig) (m : Module)
    (opts : CompileOptions) (order : List Nat) (pool : ThreadPool)
    (hpool : selectThreadPool cfg opts = some pool)
    (hlink : (B.LinkModules []).status.code ≠ Code.UNIMPLEMENTED) :
    (CompileToTargetBinary B cfg m opts order).2.filter Event.isSplitModule =
      [Event.SplitModule m (numShards pool (countFunctions (B.functions m)))] := by
  unfold CompileToTargetBinary
  rw [hpool]
  simp only [if_neg hlink]
  have hw := fun init => runWorkers_filter B
    (B.SplitModule m (numShards pool (countFunctions (B.functions m))))
    Event.isSplitModule (fun m i e he => compile_single_module_not_split B m true (some i) e he)
    order init []
  split
  · simp [List.filter_append, hw, List.filter_cons, Event.isSplitModule]
  · split <;> simp [List.filter_append, hw, List.filter_cons, Event.isSplitModule]

/-- On the sharded path no single-shot compile of the whole module happens. -/
theorem sharded_single_shot_events (B : Backend Module) (cfg : HloModuleConfig) (m : Module)
    (opts : CompileOptions) (order : List Nat) (pool : ThreadPool)
    (hpool : selectThreadPool cfg opts = some pool)
    (hlink : (B.LinkModules []).status.code ≠ Code.UNIMPLEMENTED) :
    (CompileToTargetBinary B cfg m opts order).2.filter Event.isSingleShot = [] := by
  unfold CompileToTargetBinary
  rw [hpool]
  simp only [if_neg hlink]
  have hw := fun init => runWorkers_filter B
    (B.SplitModule m (numShards pool (countFunctions (B.functions m))))
    Event.isSingleShot (fun m i e he => compile_single_module_not_single_shot B m i e he)
    order init []
  split
  · simp [List.filter_append, hw, List.filter_cons, Event.isSingleShot]
  · split <;> simp [List.filter_append, hw, List.filter_cons, Event.isSingleShot]

/-- The sharded path when a shard failed: the failure is the result and the
linker has only seen the probe. -/
theorem sharded_of_collect_error (B : Backend Module) (cfg : HloModuleConfig) (m : Module)
    (opts : CompileOptions) (order : List Nat) (pool : ThreadPool)
    (hpool : selectThreadPool cfg opts = some pool)
    (hlink : (B.LinkModules []).status.code ≠ Code.UNIMPLEMENTED)
    (horder : order.Perm (List.range
      (B.SplitModule m (numShards pool (countFunctions (B.functions m)))).length))
    (s : Status)
    (hc : collectResults (shardCompile B
      (B.SplitModule m (numShards pool (countFunctions (B.functions m))))) "" [] = .error s) :
    (CompileToTargetBinary B cfg m opts order).1 = .error s ∧
    (CompileToTargetBinary B cfg m opts order).2.filter Event.isLinkModules =
      [Event.LinkModules []] := by
  unfold CompileToTargetBinary
  rw [hpool]
  simp only [if_neg hlink]
  have hw := fun init => runWorkers_filter B
    (B.SplitModule m (numShards pool (countFunctions (B.functions m))))
    Event.isLinkModules (fun m i e he => compile_single_module_not_link B m true (some i) e he)
    order init []
  rw [runWorkers_eq_shardCompile B _ order horder, hc]
  simp [List.filter_append, hw, List.filter_cons, Event.isLinkModules]

/-- The sharded path when every shard compiled: the linker is run once on the
collected binaries and decides the result. -/
theorem sharded_of_collect_ok (B : Backend Module) (cfg : HloModuleConfig) (m : Module)
    (opts : CompileOptions) (order : List Nat) (pool : ThreadPool)
    (hpool : selectThreadPool cfg opts = some pool)
    (hlink : (B.LinkModules []).status.code ≠ Code.UNIMPLEMENTED)
    (horder : order.Perm (List.range
      (B.SplitModule m (numShards pool (countFunctions (B.functions m)))).length))
    (ptx : String) (subs : List (List UInt8))
    (hc : collectResults (shardCompile B
      (B.SplitModule m (numShards pool (countFunctions (B.functions m))))) "" [] =
        .ok (ptx, subs)) :
    (CompileToTargetBinary B cfg m opts order).1 =
      (B.LinkModules subs).map (fun backend_result => (ptx, backend_result)) ∧
    (CompileToTargetBinary B cfg m opts order).2.filter Event.isLinkModules =
      [Event.LinkModules [], Event.LinkModules subs] := by
  unfold CompileToTargetBinary
  rw [hpool]
  simp only [if_neg hlink]
  have hw := fun init => runWorkers_filter B
    (B.SplitModule m (numShards pool (countFunctions (B.functions m))))
    Event.isLinkModules (fun m i e he => compile_single_module_not_link B m true (some i) e he)
    order init []
  rw [runWorkers_eq_shardCompile B _ order horder, hc]
  simp only
  cases hl : B.LinkModules subs with
  | error e =>
    simp [List.filter_append, hw, List.filter_cons, Event.isLinkModules, Except.map]
  | ok b =>
    simp [List.filter_append, hw, List.filter_cons, Event.isLinkModules, Except.map]

/-- The number of shards for a pool size and a function count in `int` range. -/
theorem numShards_eq (pool : ThreadPool) (p f : Nat) (hp : pool.NumThreads = (p : Int))
    (hp2 : p < 2147483648) (hf : f < 2147483648) :
    numShards pool (f : Int) = max 1 (min p f) := by
  unfold numShards
  rw [hp, toUnsigned_of_nat p (by omega), toUnsigned_of_nat f (by omega)]

theorem join_foldl (l : List String) (acc : String) :
    l.foldl (fun r s => r ++ s) acc = acc ++ String.join l := by
  induction l generalizing acc with
  | nil => simp [String.join]
  | cons a l ih =>
    simp only [List.foldl_cons, String.join]
    rw [ih, ih ("" ++ a)]
    simp [String.append_assoc, String.join]

theorem join_cons (a : String) (l : List String) :
    String.join (a :: l) = a ++ String.join l := by
  show (a :: l).foldl (fun r s => r ++ s) "" = _
  rw [List.foldl_cons, join_foldl, String.empty_append]

/-- The loop after the barrier returns the status of the first failed shard. -/
theorem collectResults_first_error (l : List (StatusOr BackendCompileResult)) (i : Nat)
    (s : Status) (ptx : String) (subs : List (List UInt8))
    (hi : l[i]? = some (.error s))
    (hlt : ∀ j, j < i → ∃ r, l[j]? = some (.ok r)) :
    collectResults l ptx subs = .error s := by
  induction l generalizing i ptx subs with
  | nil => simp at hi
  | cons x l ih =>
    cases i with
    | zero =>
      simp only [List.getElem?_cons_zero, Option.some.injEq] at hi
      subst hi
      rfl
    | succ i =>
      obtain ⟨r, hr⟩ := hlt 0 (by omega)
      simp only [List.getElem?_cons_zero, Option.some.injEq] at hr
      subst hr
      simp only [List.getElem?_cons_succ] at hi
      have hlt2 : ∀ j, j < i → ∃ r, l[j]? = some (.ok r) := by
        intro j hj
        have := hlt (j + 1) (by omega)
        simpa using this
      unfold collectResults
      simp only
      split
      · exact ih i ptx subs hi hlt2
      · exact ih i _ _ hi hlt2

/-- When every shard compiled, the loop after the barrier keeps the shards
with a non-empty binary, in index order. -/
theorem collectResults_all_ok (vals : List BackendCompileResult) (ptx : String)
    (subs : List (List UInt8)) :
    collectResults (vals.map .ok) ptx subs =
      .ok (ptx ++ String.join ((vals.filter (fun r => !r.2.isEmpty)).map
              (fun r => r.1 ++ "\n")),
           subs ++ (vals.filter (fun r => !r.2.isEmpty)).map Prod.snd) := by
  induction vals generalizing ptx subs with
  | nil => simp [collectResults, String.join]
  | cons r vals ih =>
    simp only [List.map_cons]
    unfold collectResults
    simp only
    by_cases he : r.2.isEmpty = true
    · rw [if_pos he, ih]
      simp [List.filter_cons, he]
    · rw [if_neg he, ih]
      simp only [Bool.not_eq_true] at he
      simp [List.filter_cons, he, join_cons, String.append_assoc]

theorem filter_nonempty_eq_self (vals : List BackendCompileResult)
    (hne : ∀ r ∈ vals, r.2 ≠ []) : vals.filter (fun r => !r.2.isEmpty) = vals := by
  rw [List.filter_eq_self]
  intro r hr
  have := hne r hr
  cases h : r.2 with
  | nil => exact absurd h this
  | cons a l => rfl

theorem selectThreadPool_eq_none (cfg : HloModuleConfig) (opts : CompileOptions)
    (h : selectThreadPool cfg opts = none) :
    opts.thread_pool = none ∧
      cfg.debug_options.xla_gpu_force_compilation_parallelism = 0 := by
  unfold selectThreadPool at h
  split at h
  · cases h
  · rename_i h0
    exact ⟨h, by simpa using h0⟩

end CompileToTargetBinaryLemmas

/-! ## Claims on `CompileToTargetBinary` -/

section CompileToTargetBinaryClaims

variable {Module : Type}

/-- Claim C1, as stated, fails: with a pool of 4 threads and a module without
any externally-linkable function definition, one shard is requested from
`SplitModule`, not `min(4, 0) = 0`. -/
theorem CompileToTargetBinary_shard_count_no_function :
    (externalDefinitions (toyBackend.functions [])).length = 0 ∧
    (CompileToTargetBinary toyBackend (configWith 0) []
        { thread_pool := some { NumThreads := 4 } } [0]).2.filter Event.isSplitModule =
      [Event.SplitModule [] 1] ∧
    (1 : Nat) ≠ min 4 0 := by
  decide

/-- Claim C1 (amended): on the sharded path (a pool is in effect and linking
is supported), for every pool size `p >= 1` and every count `f` of
externally-linkable function definitions, both in `int` range, `SplitModule`
is called exactly once, for `min(p, f)` shards when `f >= 1` and for one shard
when `f = 0`. -/
theorem CompileToTargetBinary_shard_count (B : Backend Module) (cfg : HloModuleConfig)
    (m : Module) (opts : CompileOptions) (order : List Nat) (pool : ThreadPool) (p : Nat)
    (hpool : selectThreadPool cfg opts = some pool)
    (hlink : (B.LinkModules []).status.code ≠ Code.UNIMPLEMENTED)
    (hp : pool.NumThreads = (p : Int)) (hp1 : 1 ≤ p) (hp2 : p < 2147483648)
    (hf : (externalDefinitions (B.functions m)).length < 2147483648) :
    (CompileToTargetBinary B cfg m opts order).2.filter Event.isSplitModule =
      [Event.SplitModule m
        (if (externalDefinitions (B.functions m)).length = 0 then 1
         else min p (externalDefinitions (B.functions m)).length)] := by
  rw [sharded_split_events B cfg m opts order pool hpool hlink, countFunctions_eq,
    numShards_eq pool p _ hp hp2 hf]
  congr 2
  split <;> omega

theorem CompileToTargetBinary_shard_count_witness :
    (CompileToTargetBinary toyBackend (configWith 0) [extDef, extDef, extDef]
        { thread_pool := some { NumThreads := 2 } } [1, 0]).2.filter Event.isSplitModule =
      [Event.SplitModule [extDef, extDef, extDef]
        (if (externalDefinitions (toyBackend.functions [extDef, extDef, extDef])).length = 0
         then 1
         else min 2 (externalDefinitions (toyBackend.functions [extDef, extDef, extDef])).length)] :=
  CompileToTargetBinary_shard_count toyBackend (configWith 0) [extDef, extDef, extDef]
    { thread_pool := some { NumThreads := 2 } } [1, 0] { NumThreads := 2 } 2
    (by decide) (by decide) (by decide) (by decide) (by decide) (by decide)

/-- Claim C2: when no pool is in effect (`options.thread_pool` is null and the
forced parallelism is 0), or when `LinkModules` on the empty list reports
UNIMPLEMENTED, the result is the result of `compile_single_module` on the whole
module with `relocatable = false` and no shard number; the module is not
split, the linker is run on no binary (at most the probe on the empty list),
and all other effects are those of that one `compile_single_module` call. -/
theorem CompileToTargetBinary_single_shot (B : Backend Module) (cfg : HloModuleConfig)
    (m : Module) (opts : CompileOptions) (order : List Nat)
    (h : (opts.thread_pool = none ∧
          cfg.debug_options.xla_gpu_force_compilation_parallelism = 0) ∨
         (B.LinkModules []).status.code = Code.UNIMPLEMENTED) :
    (CompileToTargetBinary B cfg m opts order).1 =
      (compile_single_module B m false none).1 ∧
    (CompileToTargetBinary B cfg m opts order).2.filter Event.isSplitModule = [] ∧
    (∀ e ∈ (CompileToTargetBinary B cfg m opts order).2,
      e.isLinkModules = true → e = Event.LinkModules []) ∧
    (CompileToTargetBinary B cfg m opts order).2.filter (fun e => !e.isLinkModules) =
      (compile_single_module B m false none).2 := by
  have hs : (compile_single_module B m false none).2.filter Event.isSplitModule = [] :=
    filter_eq_nil_of_forall _ _ (compile_single_module_not_split B m false none)
  have hl : ∀ e ∈ (compile_single_module B m false none).2, e.isLinkModules = false :=
    compile_single_module_not_link B m false none
  have hk : (compile_single_module B m false none).2.filter (fun e => !e.isLinkModules) =
      (compile_single_module B m false none).2 := by
    rw [List.filter_eq_self]
    intro e he
    simp [hl e he]
  unfold CompileToTargetBinary
  cases hsel : selectThreadPool cfg opts with
  | none =>
    refine ⟨rfl, hs, ?_, hk⟩
    intro e he hlk
    simp only at he
    rw [hl e he] at hlk
    cases hlk
  | some pool =>
    have hU : (B.LinkModules []).status.code = Code.UNIMPLEMENTED := by
      rcases h with ⟨h1, h2⟩ | h
      · unfold selectThreadPool at hsel
        simp [h1, h2] at hsel
      · exact h
    simp only [if_pos hU]
    refine ⟨trivial, ?_, ?_, ?_⟩
    · simp [List.filter_cons, Event.isSplitModule, hs]
    · intro e he hlk
      simp only [List.singleton_append, List.mem_cons] at he
      rcases he with he | he
      · exact he
      · rw [hl e he] at hlk
        cases hlk
    · rw [List.singleton_append, List.filter_cons]
      simp only [Event.isLinkModules, Bool.not_true, Bool.false_eq_true, if_false]
      exact hk

theorem CompileToTargetBinary_single_shot_witness :
    (CompileToTargetBinary toyBackendNoLink (configWith 3) [extDef, extDef]
        { thread_pool := none } [0, 1]).1 =
      (compile_single_module toyBackendNoLink [extDef, extDef] false none).1 ∧
    (CompileToTargetBinary toyBackendNoLink (configWith 3) [extDef, extDef]
        { thread_pool := none } [0, 1]).2.filter Event.isSplitModule = [] ∧
    (∀ e ∈ (CompileToTargetBinary toyBackendNoLink (configWith 3) [extDef, extDef]
        { thread_pool := none } [0, 1]).2,
      e.isLinkModules = true → e = Event.LinkModules []) ∧
    (CompileToTargetBinary toyBackendNoLink (configWith 3) [extDef, extDef]
        { thread_pool := none } [0, 1]).2.filter (fun e => !e.isLinkModules) =
      (compile_single_module toyBackendNoLink [extDef, extDef] false none).2 :=
  CompileToTargetBinary_single_shot toyBackendNoLink (configWith 3) [extDef, extDef]
    { thread_pool := none } [0, 1] (Or.inr (by decide))

/-- Claim C3: on the sharded path, if shard `i` failed and every shard before
it compiled, the function returns the status of shard `i` as its error (so no
text and binary pair), and the linker has seen nothing but the probe on the
empty list. -/
theorem CompileToTargetBinary_first_shard_failure (B : Backend Module)
    (cfg : HloModuleConfig) (m : Module) (opts : CompileOptions) (order : List Nat)
    (pool : ThreadPool)
    (hpool : selectThreadPool cfg opts = some pool)
    (hlink : (B.LinkModules []).status.code ≠ Code.UNIMPLEMENTED)
    (horder : order.Perm (List.range
      (B.SplitModule m (numShards pool (countFunctions (B.functions m)))).length))
    (i : Nat) (s : Status)
    (hi : (shardCompile B
      (B.SplitModule m (numShards pool (countFunctions (B.functions m)))))[i]? =
        some (.error s))
    (hlt : ∀ j, j < i → ∃ r, (shardCompile B
      (B.SplitModule m (numShards pool (countFunctions (B.functions m)))))[j]? =
        some (.ok r)) :
    (CompileToTargetBinary B cfg m opts order).1 = .error s ∧
    (CompileToTargetBinary B cfg m opts order).2.filter Event.isLinkModules =
      [Event.LinkModules []] :=
  sharded_of_collect_error B cfg m opts order pool hpool hlink horder s
    (collectResults_first_error _ i s "" [] hi hlt)

theorem CompileToTargetBinary_first_shard_failure_witness :
    (CompileToTargetBinary toyBackendCompileFails (configWith 3) [extDef, extDef, extDef]
        { thread_pool := none } [2, 0, 1]).1 =
      .error { code := Code.INTERNAL, message := "empty" } ∧
    (CompileToTargetBinary toyBackendCompileFails (configWith 3) [extDef, extDef, extDef]
        { thread_pool := none } [2, 0, 1]).2.filter Event.isLinkModules =
      [Event.LinkModules []] :=
  CompileToTargetBinary_first_shard_failure toyBackendCompileFails
    (configWith 3) [extDef, extDef, extDef] { thread_pool := none } [2, 0, 1]
    { NumThreads := 3 } (by decide) (by decide) (by decide) 1
    { code := Code.INTERNAL, message := "empty" } (by decide)
    (fun j hj => ⟨("ptx", [7, 7, 7]), by
      have h0 : j = 0 := by omega
      subst h0
      decide⟩)

/-- Claim C4, as stated, fails: a shard that compiled to an empty binary is
left out.  Of two shards compiling to `("ptx", [7, 7])` and `("ptx", [])` the
returned text holds one line, not two, and the linker is handed one binary,
not two. -/
theorem CompileToTargetBinary_shard_order_empty_binary :
    shardCompile toyBackendClustered
        (toyBackendClustered.SplitModule [extDef, extDef] 2) =
      [.ok ("ptx", [7, 7]), .ok ("ptx", [])] ∧
    (CompileToTargetBinary toyBackendClustered (configWith 2) [extDef, extDef]
        { thread_pool := none } [0, 1]).1 = .ok ("ptx\n", [7, 7]) ∧
    (CompileToTargetBinary toyBackendClustered (configWith 2) [extDef, extDef]
        { thread_pool := none } [0, 1]).1 ≠ .ok ("ptx\n" ++ "ptx\n", [7, 7]) ∧
    (CompileToTargetBinary toyBackendClustered (configWith 2) [extDef, extDef]
        { thread_pool := none } [0, 1]).2.filter Event.isLinkModules =
      [Event.LinkModules [], Event.LinkModules [[7, 7]]] ∧
    (CompileToTargetBinary toyBackendClustered (configWith 2) [extDef, extDef]
        { thread_pool := none } [0, 1]).2.filter Event.isLinkModules ≠
      [Event.LinkModules [], Event.LinkModules [[7, 7], []]] := by
  decide

/-- Claim C4 (amended): on the sharded path, when every shard compiles
successfully to a non-empty binary, the returned text is the text of every
shard followed by a newline, concatenated in increasing shard index order, and
the list handed to `LinkModules` is the binary of every shard in that same
order; the result is the same for every order in which the workers run. -/
theorem CompileToTargetBinary_shard_order (B : Backend Module)
    (cfg : HloModuleConfig) (m : Module) (opts : CompileOptions) (order : List Nat)
    (pool : ThreadPool)
    (hpool : selectThreadPool cfg opts = some pool)
    (hlink : (B.LinkModules []).status.code ≠ Code.UNIMPLEMENTED)
    (horder : order.Perm (List.range
      (B.SplitModule m (numShards pool (countFunctions (B.functions m)))).length))
    (vals : List BackendCompileResult)
    (hvals : shardCompile B
      (B.SplitModule m (numShards pool (countFunctions (B.functions m)))) = vals.map .ok)
    (hne : ∀ r ∈ vals, r.2 ≠ []) :
    (CompileToTargetBinary B cfg m opts order).1 =
      (B.LinkModules (vals.map Prod.snd)).map (fun backend_result =>
        (String.join (vals.map (fun r => r.1 ++ "\n")), backend_result)) ∧
    (CompileToTargetBinary B cfg m opts order).2.filter Event.isLinkModules =
      [Event.LinkModules [], Event.LinkModules (vals.map Prod.snd)] ∧
    (∀ order2 : List Nat,
      order2.Perm (List.range
        (B.SplitModule m (numShards pool (countFunctions (B.functions m)))).length) →
      (CompileToTargetBinary B cfg m opts order2).1 =
        (CompileToTargetBinary B cfg m opts order).1) := by
  have hc : collectResults (shardCompile B
      (B.SplitModule m (numShards pool (countFunctions (B.functions m))))) "" [] =
      .ok (String.join (vals.map (fun r => r.1 ++ "\n")), vals.map Prod.snd) := by
    rw [hvals, collectResults_all_ok, filter_nonempty_eq_self vals hne]
    simp
  have h1 := sharded_of_collect_ok B cfg m opts order pool hpool hlink horder _ _ hc
  refine ⟨h1.1, h1.2, ?_⟩
  intro order2 horder2
  rw [h1.1, (sharded_of_collect_ok B cfg m opts order2 pool hpool hlink horder2 _ _ hc).1]

theorem CompileToTargetBinary_shard_order_witness :
    (CompileToTargetBinary toyBackend (configWith 2) [extDef, extDef]
        { thread_pool := none } [1, 0]).1 =
      (toyBackend.LinkModules ([("ptx", [7]), ("ptx", [7])].map Prod.snd)).map
        (fun backend_result =>
          (String.join ([("ptx", [7]), ("ptx", [7])].map
            (fun r : BackendCompileResult => r.1 ++ "\n")), backend_result)) ∧
    (CompileToTargetBinary toyBackend (configWith 2) [extDef, extDef]
        { thread_pool := none } [1, 0]).2.filter Event.isLinkModules =
      [Event.LinkModules [],
        Event.LinkModules ([("ptx", [7]), ("ptx", [7])].map Prod.snd)] ∧
    (∀ order2 : List Nat,
      order2.Perm (List.range
        (toyBackend.SplitModule [extDef, extDef] (numShards { NumThreads := 2 }
          (countFunctions (toyBackend.functions [extDef, extDef])))).length) →
      (CompileToTargetBinary toyBackend (configWith 2) [extDef, extDef]
          { thread_pool := none } order2).1 =
        (CompileToTargetBinary toyBackend (configWith 2) [extDef, extDef]
          { thread_pool := none } [1, 0]).1) :=
  CompileToTargetBinary_shard_order toyBackend (configWith 2) [extDef, extDef]
    { thread_pool := none } [1, 0] { NumThreads := 2 } (by decide) (by decide) (by decide)
    [("ptx", [7]), ("ptx", [7])] (by decide) (by decide)

/-- Claim C5: once the sharded path is taken and all shards compile, a failure
of `LinkModules` on the collected binaries is the error of the whole function,
and no single-shot compile of the whole module is made; a single-shot compile
is made only when no pool is in effect or the probe of `LinkModules` on the
empty list reports UNIMPLEMENTED. -/
theorem CompileToTargetBinary_link_failure (B : Backend Module)
    (cfg : HloModuleConfig) (m : Module) (opts : CompileOptions) (order : List Nat) :
    (∀ (pool : ThreadPool) (vals : List BackendCompileResult) (s : Status),
      selectThreadPool cfg opts = some pool →
      (B.LinkModules []).status.code ≠ Code.UNIMPLEMENTED →
      order.Perm (List.range
        (B.SplitModule m (numShards pool (countFunctions (B.functions m)))).length) →
      shardCompile B
        (B.SplitModule m (numShards pool (countFunctions (B.functions m)))) =
          vals.map .ok →
      B.LinkModules ((vals.filter (fun r => !r.2.isEmpty)).map Prod.snd) = .error s →
      (CompileToTargetBinary B cfg m opts order).1 = .error s ∧
      (CompileToTargetBinary B cfg m opts order).2.filter Event.isSingleShot = []) ∧
    ((CompileToTargetBinary B cfg m opts order).2.filter Event.isSingleShot ≠ [] →
      (opts.thread_pool = none ∧
        cfg.debug_options.xla_gpu_force_compilation_parallelism = 0) ∨
      (B.LinkModules []).status.code = Code.UNIMPLEMENTED) := by
  constructor
  · intro pool vals s hpool hlink horder hvals hfail
    have hc : collectResults (shardCompile B
        (B.SplitModule m (numShards pool (countFunctions (B.functions m))))) "" [] =
        .ok (String.join ((vals.filter (fun r => !r.2.isEmpty)).map (fun r => r.1 ++ "\n")),
          (vals.filter (fun r => !r.2.isEmpty)).map Prod.snd) := by
      rw [hvals, collectResults_all_ok]
      simp
    have h1 := sharded_of_collect_ok B cfg m opts order pool hpool hlink horder _ _ hc
    refine ⟨?_, sharded_single_shot_events B cfg m opts order pool hpool hlink⟩
    rw [h1.1, hfail]
    rfl
  · intro hne
    cases hsel : selectThreadPool cfg opts with
    | none => exact Or.inl (selectThreadPool_eq_none cfg opts hsel)
    | some pool =>
      by_cases hU : (B.LinkModules []).status.code = Code.UNIMPLEMENTED
      · exact Or.inr hU
      · exact absurd (sharded_single_shot_events B cfg m opts order pool hsel hU) hne

theorem CompileToTargetBinary_link_failure_witness :
    (CompileToTargetBinary toyBackendLinkFails (configWith 2) [extDef, extDef]
        { thread_pool := none } [1, 0]).1 =
      .error { code := Code.INTERNAL, message := "link" } ∧
    (CompileToTargetBinary toyBackendLinkFails (configWith 2) [extDef, extDef]
        { thread_pool := none } [1, 0]).2.filter Event.isSingleShot = [] :=
  (CompileToTargetBinary_link_failure toyBackendLinkFails (configWith 2) [extDef, extDef]
    { thread_pool := none } [1, 0]).1 { NumThreads := 2 } [("ptx", [7]), ("ptx", [7])]
    { code := Code.INTERNAL, message := "link" }
    (by decide) (by decide) (by decide) (by decide) (by decide)

/-- Claim C6, as stated, fails: on a module with one function and a pool of one
thread the sharded path is taken with exactly one shard and returns the text
`"ptx\n"`, while the single-shot path on the same module returns the text
`"ptx"`. -/
theorem CompileToTargetBinary_one_shard_differs :
    (CompileToTargetBinary toyBackend (configWith 0) [extDef]
        { thread_pool := some { NumThreads := 1 } } [0]).2.filter Event.isSplitModule =
      [Event.SplitModule [extDef] 1] ∧
    (CompileToTargetBinary toyBackend (configWith 0) [extDef]
        { thread_pool := some { NumThreads := 1 } } [0]).1 = .ok ("ptx\n", [7]) ∧
    (CompileToTargetBinary toyBackend (configWith 0) [extDef]
        { thread_pool := none } []).2.filter Event.isSingleShot =
      [Event.compile_single_module [extDef] false none] ∧
    (CompileToTargetBinary toyBackend (configWith 0) [extDef]
        { thread_pool := none } []).1 = .ok ("ptx", [7]) ∧
    (CompileToTargetBinary toyBackend (configWith 0) [extDef]
        { thread_pool := some { NumThreads := 1 } } [0]).1 ≠
      (CompileToTargetBinary toyBackend (configWith 0) [extDef]
        { thread_pool := none } []).1 := by
  decide

/-- Claim C6 (amended): on the sharded path with exactly one shard the function
returns what the re-parsed shard compiles to with `relocatable = true`: its
text followed by a newline, and its binary passed through `LinkModules` (a
failure of the compile or of the link is returned, an empty binary is left out
of text and link input).  Where that compile gives the text and the non-empty
binary of the single-shot compile of the whole module and `LinkModules`
returns that one binary unchanged, the result is the binary of the single-shot
path and its text followed by a newline. -/
theorem CompileToTargetBinary_one_shard (B : Backend Module)
    (cfg : HloModuleConfig) (m : Module) (opts : CompileOptions) (order : List Nat)
    (pool : ThreadPool) (shard : Module)
    (hpool : selectThreadPool cfg opts = some pool)
    (hlink : (B.LinkModules []).status.code ≠ Code.UNIMPLEMENTED)
    (hsplit : B.SplitModule m (numShards pool (countFunctions (B.functions m))) = [shard])
    (horder : order.Perm (List.range 1)) :
    (CompileToTargetBinary B cfg m opts order).1 =
      (match (compile_single_module B (B.parseAssemblyString shard) true (some 0)).1 with
       | .error s => .error s
       | .ok r =>
         if r.2.isEmpty then
           (B.LinkModules []).map (fun backend_result => ("", backend_result))
         else
           (B.LinkModules [r.2]).map (fun backend_result =>
             (r.1 ++ "\n", backend_result))) ∧
    (∀ (text : String) (bin : List UInt8),
      (compile_single_module B m false none).1 = .ok (text, bin) →
      (compile_single_module B (B.parseAssemblyString shard) true (some 0)).1 =
        .ok (text, bin) →
      bin ≠ [] → B.LinkModules [bin] = .ok bin →
      (CompileToTargetBinary B cfg m opts order).1 = .ok (text ++ "\n", bin)) := by
  have horder2 : order.Perm (List.range
      (B.SplitModule m (numShards pool (countFunctions (B.functions m)))).length) := by
    rw [hsplit]
    exact horder
  have hsc : shardCompile B
      (B.SplitModule m (numShards pool (countFunctions (B.functions m)))) =
      [(compile_single_module B (B.parseAssemblyString shard) true (some 0)).1] := by
    rw [hsplit]
    simp [shardCompile, List.mapIdx_cons]
  have main : (CompileToTargetBinary B cfg m opts order).1 =
      (match (compile_single_module B (B.parseAssemblyString shard) true (some 0)).1 with
       | .error s => .error s
       | .ok r =>
         if r.2.isEmpty then
           (B.LinkModules []).map (fun backend_result => ("", backend_result))
         else
           (B.LinkModules [r.2]).map (fun backend_result =>
             (r.1 ++ "\n", backend_result))) := by
    cases hc : (compile_single_module B (B.parseAssemblyString shard) true (some 0)).1 with
    | error s =>
      rw [hc] at hsc
      exact (sharded_of_collect_error B cfg m opts order pool hpool hlink horder2 s
        (by rw [hsc]; rfl)).1
    | ok r =>
      rw [hc] at hsc
      simp only
      by_cases he : r.2.isEmpty = true
      · rw [if_pos he]
        exact (sharded_of_collect_ok B cfg m opts order pool hpool hlink horder2 "" []
          (by rw [hsc]; simp [collectResults, he])).1
      · rw [if_neg he]
        exact (sharded_of_collect_ok B cfg m opts order pool hpool hlink horder2
          (r.1 ++ "\n") [r.2] (by rw [hsc]; simp [collectResults, he])).1
  refine ⟨main, ?_⟩
  intro text bin _ hshard hne hl
  rw [main, hshard]
  simp only
  have he : ¬ (bin.isEmpty = true) := by
    cases bin with
    | nil => exact absurd rfl hne
    | cons a l => simp
  rw [if_neg he, hl]
  rfl

theorem CompileToTargetBinary_one_shard_witness :
    (CompileToTargetBinary toyBackend (configWith 0) [extDef]
        { thread_pool := some { NumThreads := 1 } } [0]).1 =
      (match (compile_single_module toyBackend
          (toyBackend.parseAssemblyString [extDef]) true (some 0)).1 with
       | .error s => .error s
       | .ok r =>
         if r.2.isEmpty then
           (toyBackend.LinkModules []).map (fun backend_result => ("", backend_result))
         else
           (toyBackend.LinkModules [r.2]).map (fun backend_result =>
             (r.1 ++ "\n", backend_result))) ∧
    (∀ (text : String) (bin : List UInt8),
      (compile_single_module toyBackend [extDef] false none).1 = .ok (text, bin) →
      (compile_single_module toyBackend
          (toyBackend.parseAssemblyString [extDef]) true (some 0)).1 = .ok (text, bin) →
      bin ≠ [] → toyBackend.LinkModules [bin] = .ok bin →
      (CompileToTargetBinary toyBackend (configWith 0) [extDef]
        { thread_pool := some { NumThreads := 1 } } [0]).1 = .ok (text ++ "\n", bin)) :=
  CompileToTargetBinary_one_shard toyBackend (configWith 0) [extDef]
    { thread_pool := some { NumThreads := 1 } } [0] { NumThreads := 1 } [extDef]
    (by decide) (by decide) (by decide) (by decide)

/-- Claim C7: when `xla_gpu_force_compilation_parallelism` is a non-zero value
`k`, the pool in effect is the overriding pool made with `k` threads, whatever
`options.thread_pool` is; with `k = 4`, two externally-linkable function
definitions and linking supported, `SplitModule` is called once, for exactly 2
shards. -/
theorem CompileToTargetBinary_forced_parallelism (B : Backend Module)
    (cfg : HloModuleConfig) (m : Module) (opts : CompileOptions) (order : List Nat)
    (k : Int) (hk : k ≠ 0)
    (hcfg : cfg.debug_options.xla_gpu_force_compilation_parallelism = k) :
    selectThreadPool cfg opts = some { NumThreads := k } ∧
    (k = 4 → (externalDefinitions (B.functions m)).length = 2 →
      (B.LinkModules []).status.code ≠ Code.UNIMPLEMENTED →
      (CompileToTargetBinary B cfg m opts order).2.filter Event.isSplitModule =
        [Event.SplitModule m 2]) := by
  have hsel : selectThreadPool cfg opts = some { NumThreads := k } := by
    unfold selectThreadPool
    rw [hcfg, if_pos hk]
  refine ⟨hsel, ?_⟩
  intro h4 hf hlink
  rw [sharded_split_events B cfg m opts order _ hsel hlink, countFunctions_eq, hf,
    numShards_eq { NumThreads := k } 4 2 (by simp [h4]) (by omega) (by omega)]
  rfl

theorem CompileToTargetBinary_forced_parallelism_witness :
    selectThreadPool (configWith 4) { thread_pool := some { NumThreads := 16 } } =
      some { NumThreads := 4 } ∧
    (CompileToTargetBinary toyBackend (configWith 4) [extDef, extDef]
        { thread_pool := some { NumThreads := 16 } } [0, 1]).2.filter Event.isSplitModule =
      [Event.SplitModule [extDef, extDef] 2] :=
  ⟨(CompileToTargetBinary_forced_parallelism toyBackend (configWith 4) [extDef, extDef]
      { thread_pool := some { NumThreads := 16 } } [0, 1] 4 (by decide) rfl).1,
   (CompileToTargetBinary_forced_parallelism toyBackend (configWith 4) [extDef, extDef]
      { thread_pool := some { NumThreads := 16 } } [0, 1] 4 (by decide) rfl).2
      rfl (by decide) (by decide)⟩

end CompileToTargetBinaryClaims

/-! ## Lemmas on the thunk emission loops -/

section LoweringLemmas

variable {H HS SA BA I Op E T : Type}

theorem InsertOrDie_some {K V : Type} [DecidableEq K] (m : List (K × V)) (key : K)
    (value : V) (m1 : List (K × V)) (h : InsertOrDie m key value = some m1) :
    m1 = m ++ [(key, value)] ∧ key ∉ m.map Prod.fst := by
  unfold InsertOrDie at h
  split at h
  · cases h
  · rename_i hany
    simp only [Option.some.injEq] at h
    refine ⟨h.symm, ?_⟩
    intro hmem
    apply hany
    rw [List.any_eq_true]
    obtain ⟨e, he, hk⟩ := List.mem_map.1 hmem
    exact ⟨e, he, by simp [hk]⟩

/-- One successful iteration: at most one thunk was handed out, and it was
appended to the sequence and entered in the map under a new key. -/
theorem emitInstruction_ok [DecidableEq T] (em : IrEmitter I Op E T)
    (st st1 : EmitState I E T) (instruction : I)
    (h : emitInstruction em st instruction = .ok st1) :
    (em.ConsumeThunkSequence
      (em.Postprocess (em.Visit instruction st.ir_emitter).2 instruction).2).1.length ≤ 1 ∧
    st1.ir_emitter = (em.ConsumeThunkSequence
      (em.Postprocess (em.Visit instruction st.ir_emitter).2 instruction).2).2 ∧
    st1.thunk_sequence = st.thunk_sequence ++ ((em.ConsumeThunkSequence
      (em.Postprocess (em.Visit instruction st.ir_emitter).2 instruction).2).1.head?).toList ∧
    st1.thunk_to_hlo = st.thunk_to_hlo ++ (((em.ConsumeThunkSequence
      (em.Postprocess (em.Visit instruction st.ir_emitter).2 instruction).2).1.head?).map
        (fun t => (t, instruction))).toList ∧
    (∀ t, (em.ConsumeThunkSequence
      (em.Postprocess (em.Visit instruction st.ir_emitter).2 instruction).2).1.head? = some t →
      t ∉ st.thunk_to_hlo.map Prod.fst) := by
  unfold emitInstruction at h
  simp only at h
  split at h
  · cases h
  · split at h
    · cases h
    · split at h
      · cases h
      · rename_i hlen
        simp only [Bool.not_eq_true', decide_eq_false_iff_not, not_not] at hlen
        refine ⟨hlen, ?_⟩
        split at h
        · rename_i hnil
          simp only [Outcome.ok.injEq] at h
          subst h
          simp [hnil]
        · rename_i thunk rest hcons
          split at h
          · cases h
          · rename_i inserted hins
            simp only [Outcome.ok.injEq] at h
            subst h
            obtain ⟨h1, h2⟩ := InsertOrDie_some _ _ _ _ hins
            simp only [hcons, List.head?_cons, Option.toList_some, Option.map_some',
              Option.some.injEq, true_and]
            refine ⟨h1, ?_⟩
            intro t ht
            subst ht
            exact h2

theorem filterMap_cons_toList {α β : Type} (f : α → Option β) (a : α) (l : List α) :
    (a :: l).filterMap f = (f a).toList ++ l.filterMap f := by
  cases h : f a <;> simp [List.filterMap_cons, h]

/-- A successful run of the loop of `CompileModuleToLlvmIrImpl`, in terms of
the thunks the visitor handed out at each node. -/
theorem emitInstructions_ok [DecidableEq T] (em : IrEmitter I Op E T) (order : List I)
    (st0 st : EmitState I E T) (h : emitInstructions em order st0 = .ok st) :
    (∀ p ∈ visitLog em order st0.ir_emitter, p.2.length ≤ 1) ∧
    st.thunk_sequence = st0.thunk_sequence ++
      (visitLog em order st0.ir_emitter).filterMap (fun p => p.2.head?) ∧
    st.thunk_to_hlo = st0.thunk_to_hlo ++
      (visitLog em order st0.ir_emitter).filterMap
        (fun p => p.2.head?.map (fun t => (t, p.1))) ∧
    ((st0.thunk_to_hlo.map Prod.fst).Nodup → (st.thunk_to_hlo.map Prod.fst).Nodup) := by
  induction order generalizing st0 with
  | nil =>
    simp only [emitInstructions, Outcome.ok.injEq] at h
    subst h
    simp [visitLog]
  | cons instruction order ih =>
    unfold emitInstructions at h
    cases h1 : emitInstruction em st0 instruction with
    | error s => rw [h1] at h; cases h
    | abort => rw [h1] at h; cases h
    | ok st1 =>
      rw [h1] at h
      simp only at h
      obtain ⟨hlen, he, hseq, hmap, hnew⟩ := emitInstruction_ok em st0 st1 instruction h1
      obtain ⟨a1, a2, a3, a4⟩ := ih st1 h
      rw [he] at a1 a2 a3
      simp only [visitLog]
      refine ⟨?_, ?_, ?_, ?_⟩
      · intro p hp
        rcases List.mem_cons.1 hp with hp | hp
        · subst hp; exact hlen
        · exact a1 p hp
      · rw [a2, hseq, filterMap_cons_toList, List.append_assoc]
      · rw [a3, hmap, filterMap_cons_toList, List.append_assoc]
      · intro hnd
        apply a4
        rw [hmap, List.map_append, List.nodup_append]
        refine ⟨hnd, ?_, ?_⟩
        · cases hh : (em.ConsumeThunkSequence
            (em.Postprocess (em.Visit instruction st0.ir_emitter).2 instruction).2).1.head? <;>
            simp
        · intro a ha hb
          cases hh : (em.ConsumeThunkSequence
            (em.Postprocess (em.Visit instruction st0.ir_emitter).2 instruction).2).1.head? with
          | none => rw [hh] at hb; simp at hb
          | some t =>
            rw [hh] at hb
            simp only [Option.map_some', Option.toList_some, List.map_cons, List.map_nil,
              List.mem_singleton] at hb
            subst hb
            exact hnew a hh ha

theorem visitLog_map_fst (em : IrEmitter I Op E T) (order : List I) (e : E) :
    (visitLog em order e).map Prod.fst = order := by
  induction order generalizing e with
  | nil => rfl
  | cons instruction order ih => simp [visitLog, ih]

theorem emitLog_map_fst (em : IrEmitter I Op E T) (ops : List Op) (e : E) :
    (emitLog em ops e).map Prod.fst = ops := by
  induction ops generalizing e with
  | nil => rfl
  | cons op ops ih => simp [emitLog, ih]

theorem emitInstructions_append [DecidableEq T] (em : IrEmitter I Op E T)
    (pre rest : List I) (st0 : EmitState I E T) :
    emitInstructions em (pre ++ rest) st0 =
      match emitInstructions em pre st0 with
      | .ok st => emitInstructions em rest st
      | .error s => .error s
      | .abort => .abort := by
  induction pre generalizing st0 with
  | nil => rfl
  | cons i pre ih =>
    simp only [List.cons_append, emitInstructions]
    cases emitInstruction em st0 i with
    | ok st1 => exact ih st1
    | error s => rfl
    | abort => rfl

theorem emitOps_append (em : IrEmitter I Op E T) (pre rest : List Op) (st0 : E × List T) :
    emitOps em (pre ++ rest) st0 =
      match emitOps em pre st0 with
      | .ok st => emitOps em rest st
      | .error s => .error s
      | .abort => .abort := by
  induction pre generalizing st0 with
  | nil => rfl
  | cons i pre ih =>
    simp only [List.cons_append, emitOps]
    cases emitOp em st0 i with
    | ok st1 => exact ih st1
    | error s => rfl
    | abort => rfl

/-- One successful iteration of the loop of `CompileLmhloToExecutable`. -/
theorem emitOp_ok (em : IrEmitter I Op E T) (st st1 : E × List T) (op : Op)
    (h : emitOp em st op = .ok st1) :
    (em.ConsumeThunkSequence (em.EmitOp st.1 op).2).1.length ≤ 1 ∧
    st1.1 = (em.ConsumeThunkSequence (em.EmitOp st.1 op).2).2 ∧
    st1.2 = st.2 ++ ((em.ConsumeThunkSequence (em.EmitOp st.1 op).2).1.head?).toList := by
  unfold emitOp at h
  simp only at h
  split at h
  · cases h
  · split at h
    · cases h
    · rename_i hlen
      simp only [Bool.not_eq_true', decide_eq_false_iff_not, not_not] at hlen
      refine ⟨hlen, ?_⟩
      split at h
      · rename_i hnil
        simp only [Outcome.ok.injEq] at h
        subst h
        simp [hnil]
      · rename_i thunk rest hcons
        simp only [Outcome.ok.injEq] at h
        subst h
        simp [hcons]

/-- A successful run of the loop of `CompileLmhloToExecutable`. -/
theorem emitOps_ok (em : IrEmitter I Op E T) (ops : List Op) (st0 st : E × List T)
    (h : emitOps em ops st0 = .ok st) :
    (∀ p ∈ emitLog em ops st0.1, p.2.length ≤ 1) ∧
    st.2 = st0.2 ++ (emitLog em ops st0.1).filterMap (fun p => p.2.head?) := by
  induction ops generalizing st0 with
  | nil =>
    simp only [emitOps, Outcome.ok.injEq] at h
    subst h
    simp [emitLog]
  | cons op ops ih =>
    unfold emitOps at h
    cases h1 : emitOp em st0 op with
    | error s => rw [h1] at h; cases h
    | abort => rw [h1] at h; cases h
    | ok st1 =>
      rw [h1] at h
      simp only at h
      obtain ⟨hlen, he, hseq⟩ := emitOp_ok em st0 st1 op h1
      obtain ⟨a1, a2⟩ := ih st1 h
      rw [he] at a1 a2
      simp only [emitLog]
      refine ⟨?_, ?_⟩
      · intro p hp
        rcases List.mem_cons.1 hp with hp | hp
        · subst hp; exact hlen
        · exact a1 p hp
      · rw [a2, hseq, filterMap_cons_toList, List.append_assoc]

theorem producingPositions_ge {A : Type} (log : List (A × List T)) (n p : Nat)
    (hp : p ∈ producingPositions log n) : n ≤ p := by
  induction log generalizing n with
  | nil => simp [producingPositions] at hp
  | cons x log ih =>
    obtain ⟨a, ts⟩ := x
    cases ts with
    | nil =>
      simp only [producingPositions] at hp
      have := ih (n + 1) hp
      omega
    | cons t ts =>
      simp only [producingPositions, List.mem_cons] at hp
      rcases hp with hp | hp
      · omega
      · have := ih (n + 1) hp
        omega

theorem producingPositions_pairwise {A : Type} (log : List (A × List T)) (n : Nat) :
    (producingPositions log n).Pairwise (· < ·) := by
  induction log generalizing n with
  | nil => simp [producingPositions]
  | cons x log ih =>
    obtain ⟨a, ts⟩ := x
    cases ts with
    | nil =>
      simp only [producingPositions]
      exact ih (n + 1)
    | cons t ts =>
      simp only [producingPositions, List.pairwise_cons]
      refine ⟨?_, ih (n + 1)⟩
      intro p hp
      have := producingPositions_ge log (n + 1) p hp
      omega

theorem producingPositions_length {A : Type} (log : List (A × List T)) (n : Nat) :
    (producingPositions log n).length = (log.filterMap (fun p => p.2.head?)).length := by
  induction log generalizing n with
  | nil => simp [producingPositions]
  | cons x log ih =>
    obtain ⟨a, ts⟩ := x
    cases ts with
    | nil => simp [producingPositions, ih (n + 1)]
    | cons t ts => simp [producingPositions, ih (n + 1)]

/-- The position at index `k` is the place in the log of the `k`-th thunk. -/
theorem producingPositions_getElem? {A : Type} (log : List (A × List T)) (n k p : Nat)
    (hk : (producingPositions log n)[k]? = some p) :
    n ≤ p ∧ ∃ a t ts, log[p - n]? = some (a, t :: ts) ∧
      (log.filterMap (fun q => q.2.head?))[k]? = some t := by
  induction log generalizing n k with
  | nil => simp [producingPositions] at hk
  | cons x log ih =>
    obtain ⟨a, ts⟩ := x
    cases ts with
    | nil =>
      simp only [producingPositions] at hk
      obtain ⟨h1, a1, t1, ts1, h2, h3⟩ := ih (n + 1) k hk
      refine ⟨by omega, a1, t1, ts1, ?_, ?_⟩
      · have hpn : p - n = (p - (n + 1)) + 1 := by omega
        rw [hpn, List.getElem?_cons_succ]
        exact h2
      · simpa using h3
    | cons t ts =>
      simp only [producingPositions] at hk
      cases k with
      | zero =>
        simp only [List.getElem?_cons_zero, Option.some.injEq] at hk
        subst hk
        exact ⟨le_refl _, a, t, ts, by simp, by simp⟩
      | succ k =>
        simp only [List.getElem?_cons_succ] at hk
        obtain ⟨h1, a1, t1, ts1, h2, h3⟩ := ih (n + 1) k hk
        refine ⟨by omega, a1, t1, ts1, ?_, ?_⟩
        · have hpn : p - n = (p - (n + 1)) + 1 := by omega
          rw [hpn, List.getElem?_cons_succ]
          exact h2
        · simpa using h3

theorem producingPositions_complete {A : Type} (log : List (A × List T)) (n p : Nat)
    (hnp : n ≤ p) (a : A) (t : T) (ts : List T)
    (hp : log[p - n]? = some (a, t :: ts)) : p ∈ producingPositions log n := by
  induction log generalizing n with
  | nil => simp at hp
  | cons x log ih =>
    by_cases hpn : p = n
    · subst hpn
      simp only [Nat.sub_self, List.getElem?_cons_zero, Option.some.injEq] at hp
      subst hp
      simp [producingPositions]
    · have hpn2 : p - n = (p - (n + 1)) + 1 := by omega
      rw [hpn2, List.getElem?_cons_succ] at hp
      have hmem := ih (n + 1) (by omega) hp
      obtain ⟨a0, ts0⟩ := x
      cases ts0 with
      | nil => simpa [producingPositions] using hmem
      | cons t0 ts0 =>
        simp only [producingPositions, List.mem_cons]
        exact Or.inr hmem

theorem pairwise_lt_index_iff (l : List Nat) (hl : l.Pairwise (· < ·)) (a b pa pb : Nat)
    (ha : l[a]? = some pa) (hb : l[b]? = some pb) : a < b ↔ pa < pb := by
  have hlt : ∀ (x y px py : Nat), l[x]? = some px → l[y]? = some py → x < y → px < py := by
    intro x y px py hx hy hxy
    obtain ⟨hx1, hx2⟩ := List.getElem?_eq_some_iff.1 hx
    obtain ⟨hy1, hy2⟩ := List.getElem?_eq_some_iff.1 hy
    rw [← hx2, ← hy2]
    exact (List.pairwise_iff_getElem.1 hl) x y hx1 hy1 hxy
  constructor
  · exact hlt a b pa pb ha hb
  · intro hp
    by_contra hab
    rcases Nat.lt_or_ge b a with h | h
    · have := hlt b a pb pa hb ha h
      omega
    · have hab2 : a = b := by omega
      subst hab2
      rw [ha] at hb
      simp only [Option.some.injEq] at hb
      omega

theorem findValue_of_mem {K V : Type} [DecidableEq K] (m : List (K × V))
    (hnd : (m.map Prod.fst).Nodup) (key : K) (value : V) (hmem : (key, value) ∈ m) :
    findValue m key = some value := by
  induction m with
  | nil => simp at hmem
  | cons e m ih =>
    simp only [List.map_cons, List.nodup_cons] at hnd
    unfold findValue
    rcases List.mem_cons.1 hmem with h | h
    · subst h
      simp [List.find?_cons]
    · have hne : e.1 ≠ key := by
        intro he
        apply hnd.1
        rw [he]
        exact List.mem_map.2 ⟨(key, value), h, rfl⟩
      simp only [List.find?_cons, hne, decide_False]
      exact ih hnd.2 h

theorem map_fst_filterMap_head {A : Type} (log : List (A × List T)) :
    (log.filterMap (fun p => p.2.head?.map (fun t => (t, p.1)))).map Prod.fst =
      log.filterMap (fun p => p.2.head?) := by
  induction log with
  | nil => rfl
  | cons x log ih =>
    obtain ⟨a, ts⟩ := x
    cases ts with
    | nil => simpa using ih
    | cons t ts => simpa using ih

/-- A successful call of `CompileModuleToLlvmIrImpl`: every step before the
loop succeeded, the loop succeeded, and the schedule holds the loop result. -/
theorem CompileModuleToLlvmIrImpl_ok [DecidableEq T] (env : LlvmIrEnv H HS SA BA I Op E T)
    (hlo_module : H) (pointer_size : Int) (r : LlvmIrResult BA I E T SA)
    (h : CompileModuleToLlvmIrImpl env hlo_module pointer_size = .ok r) :
    ∃ hlo_schedule buffer_assignment e0 st,
      env.Build hlo_module (env.AssignStreams hlo_module) pointer_size = .ok hlo_schedule ∧
      env.Run hlo_module hlo_schedule pointer_size = .ok buffer_assignment ∧
      env.Create hlo_module buffer_assignment = .ok e0 ∧
      emitInstructions env.emitter (env.ThunkLaunchOrder hlo_schedule)
        { ir_emitter := e0, thunk_to_hlo := [], thunk_sequence := [] } = .ok st ∧
      r.thunk_schedule.thunks = st.thunk_sequence ∧
      r.thunk_schedule.thunk_to_hlo = st.thunk_to_hlo := by
  unfold CompileModuleToLlvmIrImpl at h
  simp only at h
  split at h
  · cases h
  · rename_i hs hb
    split at h
    · cases h
    · rename_i ba hr
      split at h
      · cases h
      · rename_i e0 hc
        split at h
        · cases h
        · cases h
        · rename_i st hloop
          simp only [Outcome.ok.injEq] at h
          subst h
          exact ⟨hs, ba, e0, st, hb, hr, hc, hloop, rfl, rfl⟩

/-- The check on the number of thunks fails the iteration. -/
theorem emitInstruction_too_many [DecidableEq T] (em : IrEmitter I Op E T)
    (st : EmitState I E T) (instruction : I)
    (hv : (em.Visit instruction st.ir_emitter).1.ok = true)
    (hp : (em.Postprocess (em.Visit instruction st.ir_emitter).2 instruction).1.ok = true)
    (hlen : 1 < (em.ConsumeThunkSequence
      (em.Postprocess (em.Visit instruction st.ir_emitter).2 instruction).2).1.length) :
    emitInstruction em st instruction =
      .error (RetCheckFailure ("thunks->size() <= 1 " ++ em.ToString instruction)) := by
  unfold emitInstruction
  simp only [hv, hp, Bool.not_true, Bool.false_eq_true, if_false]
  rw [if_pos]
  simp only [Bool.not_eq_true', decide_eq_false_iff_not]
  omega

theorem emitOp_too_many (em : IrEmitter I Op E T) (st : E × List T) (op : Op)
    (hv : (em.EmitOp st.1 op).1.ok = true)
    (hlen : 1 < (em.ConsumeThunkSequence (em.EmitOp st.1 op).2).1.length) :
    emitOp em st op = .error (RetCheckFailure "thunks->size() <= 1") := by
  unfold emitOp
  simp only [hv, Bool.not_true, Bool.false_eq_true, if_false]
  rw [if_pos]
  simp only [Bool.not_eq_true', decide_eq_false_iff_not]
  omega

end LoweringLemmas

/-! ## Claims on the thunk emission loops -/

section LoweringClaims

variable {H HS SA BA I Op E T : Type}

/-- Claim C8: in the lowering loops of `CompileModuleToLlvmIrImpl` and
`CompileLmhloToExecutable` at most one thunk is collected per visited node.  On
success every visit handed out 0 or 1 thunk and the thunk sequence is no
longer than the list of visited nodes; when the loop reaches a node at which
the visitor hands out more than one thunk, the function returns the error of
the failed check, so no thunk schedule is produced. -/
theorem lowering_at_most_one_thunk [DecidableEq T] (env : LlvmIrEnv H HS SA BA I Op E T)
    (hlo_module : H) (pointer_size : Int) :
    (∀ r, CompileModuleToLlvmIrImpl env hlo_module pointer_size = .ok r →
      ∃ hlo_schedule buffer_assignment e0,
        env.Build hlo_module (env.AssignStreams hlo_module) pointer_size = .ok hlo_schedule ∧
        env.Run hlo_module hlo_schedule pointer_size = .ok buffer_assignment ∧
        env.Create hlo_module buffer_assignment = .ok e0 ∧
        (∀ p ∈ visitLog env.emitter (env.ThunkLaunchOrder hlo_schedule) e0,
          p.2.length ≤ 1) ∧
        r.thunk_schedule.thunks.length ≤ (env.ThunkLaunchOrder hlo_schedule).length) ∧
    (∀ hlo_schedule buffer_assignment e0 pre instruction post st,
      env.Build hlo_module (env.AssignStreams hlo_module) pointer_size = .ok hlo_schedule →
      env.Run hlo_module hlo_schedule pointer_size = .ok buffer_assignment →
      env.Create hlo_module buffer_assignment = .ok e0 →
      env.ThunkLaunchOrder hlo_schedule = pre ++ instruction :: post →
      emitInstructions env.emitter pre
        { ir_emitter := e0, thunk_to_hlo := [], thunk_sequence := [] } = .ok st →
      (env.emitter.Visit instruction st.ir_emitter).1.ok = true →
      (env.emitter.Postprocess (env.emitter.Visit instruction st.ir_emitter).2
        instruction).1.ok = true →
      1 < (env.emitter.ConsumeThunkSequence (env.emitter.Postprocess
        (env.emitter.Visit instruction st.ir_emitter).2 instruction).2).1.length →
      CompileModuleToLlvmIrImpl env hlo_module pointer_size =
        .error (RetCheckFailure
          ("thunks->size() <= 1 " ++ env.emitter.ToString instruction))) ∧
    (∀ ops e0 st, emitOps env.emitter ops (e0, []) = .ok st →
      (∀ p ∈ emitLog env.emitter ops e0, p.2.length ≤ 1) ∧ st.2.length ≤ ops.length) ∧
    (∀ pre op post e0 st, emitOps env.emitter pre (e0, []) = .ok st →
      (env.emitter.EmitOp st.1 op).1.ok = true →
      1 < (env.emitter.ConsumeThunkSequence (env.emitter.EmitOp st.1 op).2).1.length →
      emitOps env.emitter (pre ++ op :: post) (e0, []) =
        .error (RetCheckFailure "thunks->size() <= 1")) := by
  refine ⟨?_, ?_, ?_, ?_⟩
  · intro r h
    obtain ⟨hs, ba, e0, st, hb, hr, hc, hloop, hseq, _⟩ :=
      CompileModuleToLlvmIrImpl_ok env hlo_module pointer_size r h
    obtain ⟨a1, a2, _, _⟩ := emitInstructions_ok _ _ _ _ hloop
    refine ⟨hs, ba, e0, hb, hr, hc, a1, ?_⟩
    rw [hseq, a2]
    simp only [List.nil_append]
    calc _ ≤ (visitLog env.emitter (env.ThunkLaunchOrder hs) e0).length :=
          List.length_filterMap_le _ _
      _ = ((visitLog env.emitter (env.ThunkLaunchOrder hs) e0).map Prod.fst).length := by
          rw [List.length_map]
      _ = _ := by rw [visitLog_map_fst]
  · intro hs ba e0 pre instruction post st hb hr hc horder hpre hv hp hlen
    unfold CompileModuleToLlvmIrImpl
    simp only [hb, hr, hc, horder]
    rw [emitInstructions_append, hpre]
    simp only [emitInstructions]
    rw [emitInstruction_too_many env.emitter st instruction hv hp hlen]
  · intro ops e0 st h
    obtain ⟨a1, a2⟩ := emitOps_ok _ _ _ _ h
    refine ⟨a1, ?_⟩
    rw [a2]
    simp only [List.nil_append]
    calc _ ≤ (emitLog env.emitter ops e0).length := List.length_filterMap_le _ _
      _ = ((emitLog env.emitter ops e0).map Prod.fst).length := by rw [List.length_map]
      _ = _ := by rw [emitLog_map_fst]
  · intro pre op post e0 st hpre hv hlen
    rw [emitOps_append, hpre]
    simp only [emitOps]
    rw [emitOp_too_many env.emitter st op hv hlen]

theorem lowering_at_most_one_thunk_witness :
    (∃ hlo_schedule buffer_assignment e0,
      toyEnv.Build [1, 0, 1] (toyEnv.AssignStreams [1, 0, 1]) 8 = .ok hlo_schedule ∧
      toyEnv.Run [1, 0, 1] hlo_schedule 8 = .ok buffer_assignment ∧
      toyEnv.Create [1, 0, 1] buffer_assignment = .ok e0 ∧
      (∀ p ∈ visitLog toyEnv.emitter (toyEnv.ThunkLaunchOrder hlo_schedule) e0,
        p.2.length ≤ 1) ∧
      toyResult.thunk_schedule.thunks.length ≤
        (toyEnv.ThunkLaunchOrder hlo_schedule).length) ∧
    CompileModuleToLlvmIrImpl toyEnv [1, 2, 1] 8 =
      .error (RetCheckFailure ("thunks->size() <= 1 " ++ toyEnv.emitter.ToString 2)) ∧
    emitOps toyEnv.emitter ([1] ++ 2 :: [1]) (([], 100), []) =
      .error (RetCheckFailure "thunks->size() <= 1") :=
  ⟨(lowering_at_most_one_thunk toyEnv [1, 0, 1] 8).1
      toyResult rfl,
   (lowering_at_most_one_thunk toyEnv [1, 2, 1] 8).2.1 [1, 2, 1] () ([], 100) [1] 2 [1]
      { ir_emitter := ([], 101), thunk_to_hlo := [(100, 1)], thunk_sequence := [100] }
      rfl rfl rfl rfl rfl rfl rfl (by decide),
   (lowering_at_most_one_thunk toyEnv [1, 2, 1] 8).2.2.2 [1] 2 [1] ([], 100)
      (([], 101), [100]) rfl rfl (by decide)⟩

/-- Claim C9: on success of `CompileModuleToLlvmIrImpl` the thunk sequence is
the launch order restricted to the instructions whose visit produced a thunk,
in the same relative order.  There is a strictly increasing list of positions
of the launch order, one per thunk, that holds exactly the positions whose
visit produced a thunk; thunk `k` is the thunk produced at position `k` of
that list and is mapped to the instruction at that position, so thunk `a`
precedes thunk `b` if and only if the instruction of `a` precedes that of `b`
in the launch order. -/
theorem CompileModuleToLlvmIrImpl_thunk_order [DecidableEq T]
    (env : LlvmIrEnv H HS SA BA I Op E T) (hlo_module : H) (pointer_size : Int)
    (r : LlvmIrResult BA I E T SA)
    (h : CompileModuleToLlvmIrImpl env hlo_module pointer_size = .ok r) :
    ∃ hlo_schedule buffer_assignment e0,
      env.Build hlo_module (env.AssignStreams hlo_module) pointer_size = .ok hlo_schedule ∧
      env.Run hlo_module hlo_schedule pointer_size = .ok buffer_assignment ∧
      env.Create hlo_module buffer_assignment = .ok e0 ∧
      ∃ pos : List Nat,
        pos.Pairwise (· < ·) ∧
        pos.length = r.thunk_schedule.thunks.length ∧
        (∀ p, p ∈ pos ↔ ∃ i t ts,
          (visitLog env.emitter (env.ThunkLaunchOrder hlo_schedule) e0)[p]? =
            some (i, t :: ts)) ∧
        (∀ k p : Nat, pos[k]? = some p → ∃ i t,
          (env.ThunkLaunchOrder hlo_schedule)[p]? = some i ∧
          (visitLog env.emitter (env.ThunkLaunchOrder hlo_schedule) e0)[p]? =
            some (i, [t]) ∧
          r.thunk_schedule.thunks[k]? = some t ∧
          findValue r.thunk_schedule.thunk_to_hlo t = some i) ∧
        (∀ a b pa pb : Nat, pos[a]? = some pa → pos[b]? = some pb →
          (a < b ↔ pa < pb)) := by
  obtain ⟨hs, ba, e0, st, hb, hr, hc, hloop, hseq, hmap⟩ :=
    CompileModuleToLlvmIrImpl_ok env hlo_module pointer_size r h
  obtain ⟨a1, a2, a3, a4⟩ := emitInstructions_ok _ _ _ _ hloop
  simp only [List.nil_append] at a2 a3
  have hnd : (st.thunk_to_hlo.map Prod.fst).Nodup := a4 (by simp)
  refine ⟨hs, ba, e0, hb, hr, hc,
    producingPositions (visitLog env.emitter (env.ThunkLaunchOrder hs) e0) 0,
    producingPositions_pairwise _ 0, ?_, ?_, ?_, ?_⟩
  · rw [producingPositions_length, hseq, a2]
  · intro p
    constructor
    · intro hp
      obtain ⟨k, hk⟩ := List.mem_iff_getElem?.1 hp
      obtain ⟨_, i, t, ts, hlog, _⟩ := producingPositions_getElem? _ 0 k p hk
      exact ⟨i, t, ts, by simpa using hlog⟩
    · rintro ⟨i, t, ts, hlog⟩
      exact producingPositions_complete _ 0 p (Nat.zero_le _) i t ts (by simpa using hlog)
  · intro k p hk
    obtain ⟨_, i, t, ts, hlog, hkth⟩ := producingPositions_getElem? _ 0 k p hk
    simp only [Nat.sub_zero] at hlog
    have hts : ts = [] := by
      have hlen := a1 _ (List.getElem?_mem hlog)
      cases ts with
      | nil => rfl
      | cons x xs => simp at hlen
    subst hts
    refine ⟨i, t, ?_, hlog, ?_, ?_⟩
    · have hm := visitLog_map_fst env.emitter (env.ThunkLaunchOrder hs) e0
      rw [← hm, List.getElem?_map, hlog]
      rfl
    · rw [hseq, a2]
      exact hkth
    · rw [hmap]
      apply findValue_of_mem _ hnd
      rw [a3, List.mem_filterMap]
      exact ⟨(i, [t]), List.getElem?_mem hlog, rfl⟩
  · intro a b pa pb ha hb2
    exact pairwise_lt_index_iff _ (producingPositions_pairwise _ 0) a b pa pb ha hb2

theorem CompileModuleToLlvmIrImpl_thunk_order_witness :
    ∃ hlo_schedule buffer_assignment e0,
      toyEnv.Build [1, 0, 1] (toyEnv.AssignStreams [1, 0, 1]) 8 = .ok hlo_schedule ∧
      toyEnv.Run [1, 0, 1] hlo_schedule 8 = .ok buffer_assignment ∧
      toyEnv.Create [1, 0, 1] buffer_assignment = .ok e0 ∧
      ∃ pos : List Nat,
        pos.Pairwise (· < ·) ∧
        pos.length = toyResult.thunk_schedule.thunks.length ∧
        (∀ p, p ∈ pos ↔ ∃ i t ts,
          (visitLog toyEnv.emitter (toyEnv.ThunkLaunchOrder hlo_schedule) e0)[p]? =
            some (i, t :: ts)) ∧
        (∀ k p : Nat, pos[k]? = some p → ∃ i t,
          (toyEnv.ThunkLaunchOrder hlo_schedule)[p]? = some i ∧
          (visitLog toyEnv.emitter (toyEnv.ThunkLaunchOrder hlo_schedule) e0)[p]? =
            some (i, [t]) ∧
          toyResult.thunk_schedule.thunks[k]? = some t ∧
          findValue toyResult.thunk_schedule.thunk_to_hlo t = some i) ∧
        (∀ a b pa pb : Nat, pos[a]? = some pa → pos[b]? = some pb →
          (a < b ↔ pa < pb)) :=
  CompileModuleToLlvmIrImpl_thunk_order toyEnv [1, 0, 1] 8 toyResult rfl

/-- Claim C10: on success of `CompileModuleToLlvmIrImpl` the thunk-to-instruction
map handed to the `ThunkSchedule` has exactly one entry per thunk of the thunk
sequence: its keys, in insertion order, are the thunk sequence, so its size is
the sequence length; no two thunks of the sequence are the same key; and a
thunk is mapped to an instruction exactly when the visit of that instruction
handed out that thunk. -/
theorem CompileModuleToLlvmIrImpl_thunk_to_hlo [DecidableEq T]
    (env : LlvmIrEnv H HS SA BA I Op E T) (hlo_module : H) (pointer_size : Int)
    (r : LlvmIrResult BA I E T SA)
    (h : CompileModuleToLlvmIrImpl env hlo_module pointer_size = .ok r) :
    ∃ hlo_schedule buffer_assignment e0,
      env.Build hlo_module (env.AssignStreams hlo_module) pointer_size = .ok hlo_schedule ∧
      env.Run hlo_module hlo_schedule pointer_size = .ok buffer_assignment ∧
      env.Create hlo_module buffer_assignment = .ok e0 ∧
      r.thunk_schedule.thunk_to_hlo.length = r.thunk_schedule.thunks.length ∧
      r.thunk_schedule.thunk_to_hlo.map Prod.fst = r.thunk_schedule.thunks ∧
      r.thunk_schedule.thunks.Nodup ∧
      (∀ t ∈ r.thunk_schedule.thunks, ∃ i,
        findValue r.thunk_schedule.thunk_to_hlo t = some i) ∧
      (∀ i t, findValue r.thunk_schedule.thunk_to_hlo t = some i ↔
        (i, [t]) ∈ visitLog env.emitter (env.ThunkLaunchOrder hlo_schedule) e0) := by
  obtain ⟨hs, ba, e0, st, hb, hr, hc, hloop, hseq, hmap⟩ :=
    CompileModuleToLlvmIrImpl_ok env hlo_module pointer_size r h
  obtain ⟨a1, a2, a3, a4⟩ := emitInstructions_ok _ _ _ _ hloop
  simp only [List.nil_append] at a2 a3
  have hnd : (st.thunk_to_hlo.map Prod.fst).Nodup := a4 (by simp)
  have hkeys : st.thunk_to_hlo.map Prod.fst = st.thunk_sequence := by
    rw [a3, a2, map_fst_filterMap_head]
  have hmem : ∀ i t, (t, i) ∈ st.thunk_to_hlo ↔
      (i, [t]) ∈ visitLog env.emitter (env.ThunkLaunchOrder hs) e0 := by
    intro i t
    rw [a3, List.mem_filterMap]
    constructor
    · rintro ⟨⟨i2, ts⟩, hin, heq⟩
      have hlen := a1 _ hin
      cases ts with
      | nil => simp at heq
      | cons x xs =>
        cases xs with
        | nil =>
          simp only [List.head?_cons, Option.map_some', Option.some.injEq,
            Prod.mk.injEq] at heq
          obtain ⟨h1, h2⟩ := heq
          subst h1 h2
          exact hin
        | cons y ys => simp at hlen
    · intro hin
      exact ⟨(i, [t]), hin, rfl⟩
  have hfind : ∀ i t, findValue st.thunk_to_hlo t = some i ↔ (t, i) ∈ st.thunk_to_hlo := by
    intro i t
    constructor
    · intro hf
      unfold findValue at hf
      cases hq : st.thunk_to_hlo.find? (fun e => decide (e.1 = t)) with
      | none => rw [hq] at hf; cases hf
      | some e =>
        rw [hq] at hf
        simp only [Option.map_some', Option.some.injEq] at hf
        have h1 := List.find?_some hq
        have h2 := List.mem_of_find?_eq_some hq
        simp only [decide_eq_true_eq] at h1
        obtain ⟨k, v⟩ := e
        simp only at h1 hf
        subst h1 hf
        exact h2
    · exact findValue_of_mem _ hnd t i
  refine ⟨hs, ba, e0, hb, hr, hc, ?_, ?_, ?_, ?_, ?_⟩
  · rw [hmap, hseq, ← hkeys, List.length_map]
  · rw [hmap, hseq, hkeys]
  · rw [hseq, ← hkeys]
    exact hnd
  · intro t ht
    rw [hseq, ← hkeys] at ht
    obtain ⟨e, he, hk⟩ := List.mem_map.1 ht
    obtain ⟨k, v⟩ := e
    simp only at hk
    subst hk
    exact ⟨v, by rw [hmap]; exact (hfind v k).2 he⟩
  · intro i t
    rw [hmap, hfind, hmem]

theorem CompileModuleToLlvmIrImpl_thunk_to_hlo_witness :
    ∃ hlo_schedule buffer_assignment e0,
      toyEnv.Build [1, 0, 1] (toyEnv.AssignStreams [1, 0, 1]) 8 = .ok hlo_schedule ∧
      toyEnv.Run [1, 0, 1] hlo_schedule 8 = .ok buffer_assignment ∧
      toyEnv.Create [1, 0, 1] buffer_assignment = .ok e0 ∧
      toyResult.thunk_schedule.thunk_to_hlo.length = toyResult.thunk_schedule.thunks.length ∧
      toyResult.thunk_schedule.thunk_to_hlo.map Prod.fst = toyResult.thunk_schedule.thunks ∧
      toyResult.thunk_schedule.thunks.Nodup ∧
      (∀ t ∈ toyResult.thunk_schedule.thunks, ∃ i,
        findValue toyResult.thunk_schedule.thunk_to_hlo t = some i) ∧
      (∀ i t, findValue toyResult.thunk_schedule.thunk_to_hlo t = some i ↔
        (i, [t]) ∈ visitLog toyEnv.emitter (toyEnv.ThunkLaunchOrder hlo_schedule) e0) :=
  CompileModuleToLlvmIrImpl_thunk_to_hlo toyEnv [1, 0, 1] 8 toyResult rfl

end LoweringClaims

/-! ## Lemmas on `GetMlirAllocationInfo` -/

section AllocationInfoLemmas

theorem resize_length {α : Type} (l : List α) (n : Nat) (d : α) :
    (resize l n d).length = n := by
  unfold resize
  split
  · rw [List.length_take]; omega
  · rw [List.length_append, List.length_replicate]; omega

theorem growTo_length {α : Type} (l : List α) (i : Nat) (d : α) :
    (growTo l i d).length = max l.length (i + 1) := by
  unfold growTo
  split
  · rw [resize_length]; omega
  · omega

theorem growTo_getElem? {α : Type} (l : List α) (i k : Nat) (d : α) :
    (growTo l i d)[k]? =
      if k < l.length then l[k]? else if k ≤ i then some d else none := by
  unfold growTo
  split
  · rename_i hle
    unfold resize
    rw [if_neg (by omega)]
    by_cases hk : k < l.length
    · rw [if_pos hk, List.getElem?_append_left hk]
    · rw [if_neg hk, List.getElem?_append_right (by omega), List.getElem?_replicate]
      by_cases hki : k ≤ i
      · rw [if_pos hki, if_pos (by omega)]
      · rw [if_neg hki, if_neg (by omega)]
  · rename_i hle
    by_cases hk : k < l.length
    · rw [if_pos hk]
    · rw [if_neg hk, if_neg (by omega)]
      exact List.getElem?_eq_none (by omega)

/-- Entry `k` after `if (i >= v.size()) v.resize(i + 1); v[i] = x;`. -/
theorem assign_getElem? {α : Type} (l : List α) (i k : Nat) (d v : α) :
    ((growTo l i d).set i v)[k]? =
      if k = i then some v
      else if k < l.length then l[k]? else if k < i then some d else none := by
  rw [List.getElem?_set, growTo_length, growTo_getElem?]
  by_cases hki : k = i
  · subst hki
    rw [if_pos rfl, if_pos rfl, if_pos (by omega)]
  · rw [if_neg (fun h => hki h.symm), if_neg hki]
    by_cases hk : k < l.length
    · rw [if_pos hk, if_pos hk]
    · rw [if_neg hk, if_neg hk]
      by_cases hlt : k < i
      · rw [if_pos hlt, if_pos (by omega)]
      · rw [if_neg hlt, if_neg (by omega)]

theorem assign_length {α : Type} (l : List α) (i : Nat) (d v : α) :
    ((growTo l i d).set i v).length = max l.length (i + 1) := by
  rw [List.length_set, growTo_length]

theorem assignAll_cons {α : Type} (l : List α) (d : α) (u : Nat × α) (us : List (Nat × α)) :
    assignAll l d (u :: us) = assignAll ((growTo l u.1 d).set u.1 u.2) d us := rfl

theorem assignAll_length_ge {α : Type} (l : List α) (d : α) (us : List (Nat × α)) :
    l.length ≤ (assignAll l d us).length := by
  induction us generalizing l with
  | nil => exact le_refl _
  | cons u us ih =>
    rw [assignAll_cons]
    have := ih ((growTo l u.1 d).set u.1 u.2)
    rw [assign_length] at this
    omega

/-- Every assigned index is below the final size. -/
theorem assignAll_index_lt {α : Type} (l : List α) (d : α) (us : List (Nat × α))
    (u : Nat × α) (hu : u ∈ us) : u.1 < (assignAll l d us).length := by
  induction us generalizing l with
  | nil => simp at hu
  | cons u0 us ih =>
    rw [assignAll_cons]
    rcases List.mem_cons.1 hu with h | h
    · subst h
      have := assignAll_length_ge ((growTo l u.1 d).set u.1 u.2) d us
      rw [assign_length] at this
      omega
    · exact ih _ h

/-- The final size is the initial size or one more than an assigned index. -/
theorem assignAll_length_attained {α : Type} (l : List α) (d : α) (us : List (Nat × α)) :
    (assignAll l d us).length = l.length ∨
      ∃ u ∈ us, (assignAll l d us).length = u.1 + 1 := by
  induction us generalizing l with
  | nil => exact Or.inl rfl
  | cons u0 us ih =>
    rw [assignAll_cons]
    rcases ih ((growTo l u0.1 d).set u0.1 u0.2) with h | ⟨u, hu, h⟩
    · rw [assign_length] at h
      by_cases hl : l.length ≤ u0.1
      · exact Or.inr ⟨u0, List.mem_cons_self _ _, by rw [h]; omega⟩
      · exact Or.inl (by rw [h]; omega)
    · exact Or.inr ⟨u, List.mem_cons_of_mem _ hu, h⟩

/-- Entry `k` after all assignments: the value of the last assignment to `k`,
else the initial entry, else the default value of `resize`. -/
theorem assignAll_getElem? {α : Type} (l : List α) (d : α) (us : List (Nat × α)) (k : Nat) :
    (assignAll l d us)[k]? =
      match lastAssigned us k with
      | some v => some v
      | none =>
        if k < l.length then l[k]?
        else if k < (assignAll l d us).length then some d else none := by
  induction us generalizing l with
  | nil =>
    simp only [assignAll, List.foldl_nil, lastAssigned]
    by_cases hk : k < l.length
    · rw [if_pos hk]
    · rw [if_neg hk, if_neg hk]
      exact List.getElem?_eq_none (by omega)
  | cons u us ih =>
    rw [assignAll_cons, ih]
    simp only [lastAssigned]
    cases hla : lastAssigned us k with
    | some v => rfl
    | none =>
      simp only
      have hge := assignAll_length_ge ((growTo l u.1 d).set u.1 u.2) d us
      rw [assign_length] at hge
      rw [assign_length, assign_getElem?]
      by_cases hku : u.1 = k
      · subst hku
        simp only [if_true]
        rw [if_pos (by omega)]
      · have hku2 : ¬ k = u.1 := fun h => hku h.symm
        simp only [hku, hku2, if_false]
        by_cases hk : k < l.length
        · simp only [hk, if_true]
          rw [if_pos (by omega)]
        · simp only [hk, if_false]
          by_cases hlt : k < u.1
          · simp only [hlt, if_true]
            rw [if_pos (by omega), if_pos (by omega)]
          · simp only [hlt, if_false]
            rw [if_neg (by omega)]

theorem lastAssigned_eq_none {α : Type} (us : List (Nat × α)) (k : Nat) :
    lastAssigned us k = none ↔ ∀ u ∈ us, u.1 ≠ k := by
  induction us with
  | nil => simp [lastAssigned]
  | cons u us ih =>
    simp only [lastAssigned, List.mem_cons, forall_eq_or_imp]
    cases hla : lastAssigned us k with
    | some v =>
      constructor
      · intro h
        cases h
      · rintro ⟨_, hall⟩
        rw [ih.2 hall] at hla
        cases hla
    | none =>
      simp only
      by_cases hu : u.1 = k
      · simp [hu]
      · simp only [hu, if_false, ne_eq, not_false_eq_true, true_and, true_iff]
        exact ih.1 hla

theorem lastAssigned_mem {α : Type} (us : List (Nat × α)) (k : Nat) (v : α)
    (h : lastAssigned us k = some v) : (k, v) ∈ us := by
  induction us with
  | nil => simp [lastAssigned] at h
  | cons u us ih =>
    simp only [lastAssigned] at h
    cases hla : lastAssigned us k with
    | some w =>
      rw [hla] at h
      simp only [Option.some.injEq] at h
      subst h
      exact List.mem_cons_of_mem _ (ih hla)
    | none =>
      rw [hla] at h
      simp only at h
      split at h
      · rename_i hu
        simp only [Option.some.injEq] at h
        subst h hu
        exact List.mem_cons_self _ _
      · cases h

/-- One successful iteration of the first loop. -/
theorem allocStep_ok (m m1 : List (Option BufferAllocation)) (arg : BlockArgument)
    (h : allocStep m arg = .ok m1) :
    ∃ value, arg.getArgAttr "lmhlo.alloc" = some (.IntegerAttr value) ∧
      0 ≤ toInt value ∧ toInt value < 2147483647 ∧ arg.type.isShapedType = true ∧
      m1 = (growTo m (toInt value).toNat none).set (toInt value).toNat
        (some { index := toInt value, size := arg.type.getSizeInBits / 8, color := 0 }) := by
  unfold allocStep at h
  split at h
  · rename_i value hattr
    simp only at h
    split at h
    · cases h
    · split at h
      · cases h
      · split at h
        · cases h
        · split at h
          · cases h
          · rename_i h1 h2 h3 h4
            simp only [Outcome.ok.injEq] at h
            have hlt : toInt value < 2147483647 := by
              have hb : toInt value < 2147483648 := by unfold toInt; omega
              omega
            refine ⟨value, hattr, by omega, hlt, by simpa using h3, h.symm⟩
  · cases h

theorem allocAssignment_of_attr (arg : BlockArgument) (value : Int)
    (h : arg.getArgAttr "lmhlo.alloc" = some (.IntegerAttr value)) :
    allocAssignment arg = some ((toInt value).toNat,
      some { index := toInt value, size := arg.type.getSizeInBits / 8, color := 0 }) := by
  unfold allocAssignment
  rw [h]

/-- A successful run of the first loop: the vector holds the assignments of
the arguments, and every argument passed the checks. -/
theorem allocLoop_ok (args : List BlockArgument) (m final : List (Option BufferAllocation))
    (h : allocLoop args m = .ok final) :
    final = assignAll m none (args.filterMap allocAssignment) ∧
    ∀ arg ∈ args, ∃ value, arg.getArgAttr "lmhlo.alloc" = some (.IntegerAttr value) ∧
      0 ≤ toInt value ∧ toInt value < 2147483647 ∧ arg.type.isShapedType = true := by
  induction args generalizing m with
  | nil =>
    simp only [allocLoop, Outcome.ok.injEq] at h
    subst h
    simp [assignAll]
  | cons arg args ih =>
    simp only [allocLoop] at h
    cases hs : allocStep m arg with
    | error e => rw [hs] at h; cases h
    | abort => rw [hs] at h; cases h
    | ok m1 =>
      rw [hs] at h
      simp only at h
      obtain ⟨value, hattr, h0, hmax, hshaped, hm1⟩ := allocStep_ok m m1 arg hs
      obtain ⟨hfinal, hall⟩ := ih m1 h
      refine ⟨?_, ?_⟩
      · rw [List.filterMap_cons, allocAssignment_of_attr arg value hattr, assignAll_cons,
          ← hm1]
        exact hfinal
      · intro a ha
        rcases List.mem_cons.1 ha with ha | ha
        · subst ha
          exact ⟨value, hattr, h0, hmax, hshaped⟩
        · exact hall a ha

/-- The first loop succeeds when every argument carries an integer
`lmhlo.alloc` in range and has a shaped type. -/
theorem allocLoop_succeeds (args : List BlockArgument) (m : List (Option BufferAllocation))
    (hall : ∀ arg ∈ args, ∃ value,
      arg.getArgAttr "lmhlo.alloc" = some (.IntegerAttr value) ∧
      0 ≤ toInt value ∧ toInt value < 2147483647 ∧ arg.type.isShapedType = true) :
    allocLoop args m = .ok (assignAll m none (args.filterMap allocAssignment)) := by
  induction args generalizing m with
  | nil => rfl
  | cons arg args ih =>
    obtain ⟨value, hattr, h0, hmax, hshaped⟩ := hall arg (List.mem_cons_self _ _)
    have hstep : allocStep m arg = .ok ((growTo m (toInt value).toNat none).set
        (toInt value).toNat
        (some { index := toInt value, size := arg.type.getSizeInBits / 8, color := 0 })) := by
      have hn1 : ¬ toInt value < -1 := by omega
      have hn2 : ¬ toInt value = 2147483647 := by omega
      have hn3 : ¬ toInt value < 0 := by omega
      unfold allocStep
      rw [hattr]
      simp only [hn1, hn2, hn3, hshaped, if_false, Bool.not_true, Bool.false_eq_true]
    simp only [allocLoop, hstep]
    rw [List.filterMap_cons, allocAssignment_of_attr arg value hattr, assignAll_cons]
    exact ih _ (fun a ha => hall a (List.mem_cons_of_mem _ ha))

/-- An unused index makes the second loop fail. -/
theorem collectAllocations_hole (l : List (Option BufferAllocation)) (k : Nat)
    (acc : List BufferAllocation) (h : l[k]? = some none) :
    collectAllocations l acc =
      .error (InvalidArgument "Allocation indices should range in [0, n)") := by
  induction l generalizing k acc with
  | nil => simp at h
  | cons x l ih =>
    cases x with
    | none => rfl
    | some a =>
      cases k with
      | zero => simp at h
      | succ k =>
        simp only [List.getElem?_cons_succ] at h
        simp only [collectAllocations]
        exact ih k _ h

/-- A successful second loop: every index was used. -/
theorem collectAllocations_ok (l : List (Option BufferAllocation))
    (acc r : List BufferAllocation) (h : collectAllocations l acc = .ok r) :
    ∃ vals, l = vals.map some ∧ r = acc ++ vals := by
  induction l generalizing acc with
  | nil =>
    simp only [collectAllocations, Except.ok.injEq] at h
    exact ⟨[], rfl, by simp [h]⟩
  | cons x l ih =>
    cases x with
    | none => simp [collectAllocations] at h
    | some a =>
      simp only [collectAllocations] at h
      obtain ⟨vals, h1, h2⟩ := ih _ h
      exact ⟨a :: vals, by simp [h1], by simp [h2]⟩

theorem collectAllocations_all_some (vals acc : List BufferAllocation) :
    collectAllocations (vals.map some) acc = .ok (acc ++ vals) := by
  induction vals generalizing acc with
  | nil => simp [collectAllocations]
  | cons a vals ih =>
    simp only [List.map_cons, collectAllocations]
    rw [ih]
    simp

/-- A successful `allocations->at(index)` with an update of the element. -/
theorem updateAt_some (l l1 : List BufferAllocation) (index : Int)
    (f : BufferAllocation → BufferAllocation) (h : updateAt l index f = some l1) :
    0 ≤ index ∧ index.toNat < l.length ∧ l1.length = l.length ∧
    ∀ k : Nat, l1[k]? = (l[k]?).map (fun al => if (k : Int) = index then f al else al) := by
  unfold updateAt at h
  split at h
  · cases h
  · rename_i hneg
    split at h
    · cases h
    · rename_i alloc hget
      simp only [Option.some.injEq] at h
      subst h
      obtain ⟨hlt, hval⟩ := List.getElem?_eq_some_iff.1 hget
      refine ⟨by omega, hlt, by simp, ?_⟩
      intro k
      rw [List.getElem?_set]
      by_cases hk : index.toNat = k
      · subst hk
        have hki : ((index.toNat : Nat) : Int) = index := by omega
        rw [if_pos rfl, if_pos hlt, hget]
        simp [hki]
      · have hki : ¬ ((k : Nat) : Int) = index := by omega
        rw [if_neg hk]
        cases hk2 : l[k]? with
        | none => rfl
        | some al => simp [hki]

theorem option_map_ite_self {α : Type} (o : Option α) (c : Prop) [Decidable c] :
    o.map (fun al => if c then al else al) = o := by
  cases o <;> simp

/-- One successful iteration of the last loop. -/
theorem outputStep_ok (st st1 : OutputState) (arg : BlockArgument)
    (h : outputStep st arg = .ok st1) :
    ∃ index, arg.getArgAttr "lmhlo.alloc" = some (.IntegerAttr index) ∧
      st1.allocations.length = st.allocations.length ∧
      (∀ k : Nat, st1.allocations[k]? =
        (st.allocations[k]?).map (fun al => if (k : Int) = index then applyArg arg al else al)) ∧
      (∀ pa, arg.getArgAttr "lmhlo.params" = some pa →
        (∃ p, pa = .IntegerAttr p) ∧ 0 ≤ index ∧ index.toNat < st.allocations.length) ∧
      (arg.getArgAttr "lmhlo.output_index" = none →
        st1.output_info = st.output_info ∧ st1.output_shapes = st.output_shapes ∧
        st1.rank = st.rank) ∧
      (∀ oa, arg.getArgAttr "lmhlo.output_index" = some oa →
        ∃ path, oa = .DenseIntElementsAttr path ∧
          0 ≤ index ∧ index.toNat < st.allocations.length ∧ path.length ≤ 1 ∧
          (st.rank = none ∨ st.rank = some path.length) ∧ st1.rank = some path.length ∧
          st1.output_info = updateEntry st.output_info path (fun o =>
            { o with
              allocation_index := index
              alias_config :=
                match arg.getArgAttr "lmhlo.params" with
                | some (.IntegerAttr parameter_number) => some (parameter_number, [])
                | _ => o.alias_config }) ∧
          placeShape st.output_shapes path arg.type.TypeToShape = some st1.output_shapes) := by
  unfold outputStep at h
  cases ha : arg.getArgAttr "lmhlo.alloc" with
  | none => rw [ha] at h; cases h
  | some a =>
    cases a with
    | DenseIntElementsAttr vs => rw [ha] at h; cases h
    | other t => rw [ha] at h; cases h
    | IntegerAttr index =>
      rw [ha] at h
      simp only at h
      refine ⟨index, rfl, ?_⟩
      -- the parameter binding
      have hpar : ∃ allocations1,
          (match arg.getArgAttr "lmhlo.params" with
            | none => some st.allocations
            | some (.IntegerAttr parameter_number) =>
              updateAt st.allocations index (fun alloc =>
                alloc.set_entry_computation_parameter parameter_number []
                  (arg.getArgAttr "lmhlo.output_index").isSome)
            | some _ => none) = some allocations1 := by
        cases hw : (match arg.getArgAttr "lmhlo.params" with
            | none => some st.allocations
            | some (.IntegerAttr parameter_number) =>
              updateAt st.allocations index (fun alloc =>
                alloc.set_entry_computation_parameter parameter_number []
                  (arg.getArgAttr "lmhlo.output_index").isSome)
            | some _ => none) with
        | none => rw [hw] at h; cases h
        | some a1 => exact ⟨a1, rfl⟩
      obtain ⟨allocations1, hw⟩ := hpar
      rw [hw] at h
      simp only at h
      -- facts on the allocations after the parameter binding
      have hA1 : allocations1.length = st.allocations.length ∧
          (∀ k : Nat, allocations1[k]? = (st.allocations[k]?).map (fun al =>
            if (k : Int) = index then
              (match arg.getArgAttr "lmhlo.params" with
                | some (.IntegerAttr parameter_number) =>
                  al.set_entry_computation_parameter parameter_number []
                    (arg.getArgAttr "lmhlo.output_index").isSome
                | _ => al)
            else al)) ∧
          (∀ pa, arg.getArgAttr "lmhlo.params" = some pa →
            (∃ p, pa = .IntegerAttr p) ∧ 0 ≤ index ∧ index.toNat < st.allocations.length) := by
        cases hp : arg.getArgAttr "lmhlo.params" with
        | none =>
          rw [hp] at hw
          simp only [Option.some.injEq] at hw
          subst hw
          refine ⟨rfl, ?_, ?_⟩
          · intro k
            simp only
            rw [option_map_ite_self]
          · intro pa hpa
            cases hpa
        | some pa =>
          cases pa with
          | DenseIntElementsAttr vs => rw [hp] at hw; cases hw
          | other t => rw [hp] at hw; cases hw
          | IntegerAttr p =>
            rw [hp] at hw
            simp only at hw
            obtain ⟨h0, hlt, hlen, hget⟩ := updateAt_some _ _ _ _ hw
            refine ⟨hlen, hget, ?_⟩
            intro pa hpa
            simp only [Option.some.injEq] at hpa
            subst hpa
            exact ⟨⟨p, rfl⟩, h0, hlt⟩
      obtain ⟨hlen1, hget1, hparams⟩ := hA1
      cases ho : arg.getArgAttr "lmhlo.output_index" with
      | none =>
        rw [ho] at h
        simp only [Outcome.ok.injEq] at h
        subst h
        refine ⟨hlen1, ?_, hparams, fun _ => ⟨rfl, rfl, rfl⟩, ?_⟩
        · intro k
          rw [hget1 k]
          cases st.allocations[k]? with
          | none => rfl
          | some al =>
            simp only [Option.map_some', Option.some.injEq]
            by_cases hk : (k : Int) = index
            · simp only [hk, if_true, applyArg, ho, Option.isSome_none, Bool.false_eq_true,
                if_false]
            · simp only [hk, if_false]
        · intro oa hoa
          cases hoa
      | some oa =>
        rw [ho] at h
        simp only at h
        cases hu : updateAt allocations1 index (fun alloc => alloc.set_maybe_live_out true) with
        | none => rw [hu] at h; cases h
        | some allocations2 =>
          rw [hu] at h
          simp only at h
          obtain ⟨h0, hlt, hlen2, hget2⟩ := updateAt_some _ _ _ _ hu
          cases oa with
          | IntegerAttr v => cases h
          | other t => cases h
          | DenseIntElementsAttr path =>
            simp only at h
            split at h
            · cases h
            · rename_i hrank
              split at h
              · cases h
              · rename_i hlenp
                cases hpl : placeShape st.output_shapes path arg.type.TypeToShape with
                | none => rw [hpl] at h; cases h
                | some shapes =>
                  rw [hpl] at h
                  simp only [Outcome.ok.injEq] at h
                  subst h
                  refine ⟨by simp only; omega, ?_, hparams, ?_, ?_⟩
                  · intro k
                    simp only
                    rw [hget2 k, hget1 k]
                    cases st.allocations[k]? with
                    | none => rfl
                    | some al =>
                      simp only [Option.map_some', Option.some.injEq]
                      by_cases hk : (k : Int) = index
                      · simp only [hk, if_true, applyArg, ho, Option.isSome_some]
                      · simp only [hk, if_false]
                  · intro hnone
                    cases hnone
                  · intro oa hoa
                    simp only [Option.some.injEq] at hoa
                    subst hoa
                    refine ⟨path, rfl, h0, by omega, by omega, ?_, rfl, rfl, hpl⟩
                    cases hr : st.rank with
                    | none => exact Or.inl rfl
                    | some r =>
                      rw [hr] at hrank
                      simp only [Option.isSome_some, Bool.true_and, Bool.not_eq_true',
                        decide_eq_false_iff_not, not_not] at hrank
                      exact Or.inr hrank

theorem outputLoop_cons_ok (arg : BlockArgument) (args : List BlockArgument)
    (st st2 : OutputState) (h : outputLoop (arg :: args) st = .ok st2) :
    ∃ st1, outputStep st arg = .ok st1 ∧ outputLoop args st1 = .ok st2 := by
  simp only [outputLoop] at h
  cases hs : outputStep st arg with
  | error e => rw [hs] at h; cases h
  | abort => rw [hs] at h; cases h
  | ok st1 =>
    rw [hs] at h
    exact ⟨st1, rfl, h⟩

/-- The allocations after a successful run of the last loop. -/
theorem outputLoop_allocations (args : List BlockArgument) (st st2 : OutputState)
    (h : outputLoop args st = .ok st2) :
    st2.allocations.length = st.allocations.length ∧
    ∀ k : Nat, st2.allocations[k]? = (st.allocations[k]?).map (applyAll args (k : Int)) := by
  induction args generalizing st with
  | nil =>
    simp only [outputLoop, Outcome.ok.injEq] at h
    subst h
    refine ⟨rfl, fun k => ?_⟩
    cases st.allocations[k]? <;> simp [applyAll]
  | cons arg args ih =>
    obtain ⟨st1, hs, hl⟩ := outputLoop_cons_ok arg args st st2 h
    obtain ⟨index, ha, hlen, hget, _, _, _⟩ := outputStep_ok st st1 arg hs
    obtain ⟨hlen2, hget2⟩ := ih st1 hl
    refine ⟨by omega, fun k => ?_⟩
    rw [hget2 k, hget k]
    cases st.allocations[k]? with
    | none => rfl
    | some al =>
      simp only [Option.map_some', Option.some.injEq, applyAll, List.foldl_cons, ha,
        Attribute.IntegerAttr.injEq]
      by_cases hk : (k : Int) = index
      · rw [if_pos hk, if_pos hk.symm]
      · rw [if_neg hk, if_neg (fun h => hk h.symm)]

/-- What a successful run of the last loop tells about every argument. -/
theorem outputLoop_args (args : List BlockArgument) (st st2 : OutputState)
    (h : outputLoop args st = .ok st2) :
    (∀ r, st.rank = some r → st2.rank = some r) ∧
    ∀ arg ∈ args, ∃ index, arg.getArgAttr "lmhlo.alloc" = some (.IntegerAttr index) ∧
      (∀ pa, arg.getArgAttr "lmhlo.params" = some pa →
        (∃ p, pa = .IntegerAttr p) ∧ 0 ≤ index ∧ index.toNat < st.allocations.length) ∧
      (∀ oa, arg.getArgAttr "lmhlo.output_index" = some oa →
        ∃ path, oa = .DenseIntElementsAttr path ∧
          0 ≤ index ∧ index.toNat < st.allocations.length ∧ path.length ≤ 1 ∧
          st2.rank = some path.length) := by
  induction args generalizing st with
  | nil =>
    simp only [outputLoop, Outcome.ok.injEq] at h
    subst h
    exact ⟨fun r hr => hr, fun arg harg => by simp at harg⟩
  | cons arg args ih =>
    obtain ⟨st1, hs, hl⟩ := outputLoop_cons_ok arg args st st2 h
    obtain ⟨index, ha, hlen, _, hpar, hnone, hout⟩ := outputStep_ok st st1 arg hs
    obtain ⟨hrank, hall⟩ := ih st1 hl
    have hrank1 : ∀ r, st.rank = some r → st1.rank = some r := by
      intro r hr
      cases ho : arg.getArgAttr "lmhlo.output_index" with
      | none => rw [(hnone ho).2.2]; exact hr
      | some oa =>
        obtain ⟨path, _, _, _, _, hr1, hr2, _, _⟩ := hout oa ho
        rcases hr1 with hr1 | hr1
        · rw [hr1] at hr; cases hr
        · rw [hr1] at hr
          rw [hr2]
          exact hr
    refine ⟨fun r hr => hrank r (hrank1 r hr), ?_⟩
    intro a ha2
    rcases List.mem_cons.1 ha2 with ha2 | ha2
    · subst ha2
      refine ⟨index, ha, hpar, ?_⟩
      intro oa ho
      obtain ⟨path, hp1, h0, hlt, hlenp, _, hr2, _, _⟩ := hout oa ho
      exact ⟨path, hp1, h0, hlt, hlenp, hrank _ hr2⟩
    · obtain ⟨i2, hi2, hp2, ho2⟩ := hall a ha2
      refine ⟨i2, hi2, ?_, ?_⟩
      · intro pa hpa
        obtain ⟨x, y, z⟩ := hp2 pa hpa
        exact ⟨x, y, by omega⟩
      · intro oa hoa
        obtain ⟨path, x1, x2, x3, x4, x5⟩ := ho2 oa hoa
        exact ⟨path, x1, x2, by omega, x4, x5⟩

/-- A successful call of `GetMlirAllocationInfo`: all three loops and the
check of the attribute names succeeded. -/
theorem GetMlirAllocationInfo_ok (func : FuncOp) (r : AllocationInfo)
    (h : GetMlirAllocationInfo func = .ok r) :
    ∃ allocations st,
      allocLoop func.arguments [] = .ok (allocations.map some) ∧
      attrNamesOk func.arguments = true ∧
      outputLoop func.arguments
        { allocations := allocations, output_info := [], output_shapes := [],
          rank := none } = .ok st ∧
      r.allocations = st.allocations ∧ r.output_info = st.output_info ∧
      r.output_shape = MakeTupleShape st.output_shapes := by
  unfold GetMlirAllocationInfo at h
  cases h1 : allocLoop func.arguments [] with
  | error e => rw [h1] at h; cases h
  | abort => rw [h1] at h; cases h
  | ok maybe =>
    rw [h1] at h
    simp only at h
    cases h2 : collectAllocations maybe [] with
    | error e => rw [h2] at h; cases h
    | ok allocations =>
      rw [h2] at h
      simp only at h
      obtain ⟨vals, hv1, hv2⟩ := collectAllocations_ok maybe [] allocations h2
      simp only [List.nil_append] at hv2
      subst hv2
      split at h
      · cases h
      · rename_i hnames
        cases h3 : outputLoop func.arguments
            { allocations := allocations, output_info := [], output_shapes := [],
              rank := none } with
        | error e => rw [h3] at h; cases h
        | abort => rw [h3] at h; cases h
        | ok st =>
          rw [h3] at h
          simp only [Outcome.ok.injEq] at h
          subst h
          exact ⟨allocations, st, by rw [hv1], by simpa using hnames, h3, rfl, rfl, rfl⟩

/-- The allocations handed to the last loop: allocation `k` was made for an
argument whose index is `k` as an `int`, and carries no mark yet. -/
theorem allocLoop_entry (args : List BlockArgument) (allocations : List BufferAllocation)
    (h : allocLoop args [] = .ok (allocations.map some)) (k : Nat) (al : BufferAllocation)
    (hk : allocations[k]? = some al) :
    ∃ arg ∈ args, ∃ value, arg.getArgAttr "lmhlo.alloc" = some (.IntegerAttr value) ∧
      0 ≤ toInt value ∧ (toInt value).toNat = k ∧
      al = { index := toInt value, size := arg.type.getSizeInBits / 8, color := 0 } := by
  obtain ⟨hfinal, hall⟩ := allocLoop_ok args [] _ h
  have hget : (allocations.map some)[k]? = some (some al) := by
    rw [List.getElem?_map, hk]
    rfl
  rw [hfinal, assignAll_getElem?] at hget
  cases hla : lastAssigned (args.filterMap allocAssignment) k with
  | none =>
    rw [hla] at hget
    simp only [List.length_nil, Nat.not_lt_zero, if_false] at hget
    split at hget
    · cases hget
    · cases hget
  | some v =>
    rw [hla] at hget
    simp only [Option.some.injEq] at hget
    subst hget
    have hmem := lastAssigned_mem _ _ _ hla
    obtain ⟨arg, harg, hasg⟩ := List.mem_filterMap.1 hmem
    obtain ⟨value, hattr, h0, _, _⟩ := hall arg harg
    rw [allocAssignment_of_attr arg value hattr] at hasg
    simp only [Option.some.injEq, Prod.mk.injEq] at hasg
    exact ⟨arg, harg, value, hattr, h0, hasg.1, hasg.2.symm⟩

theorem toInt_of_range (v : Int) (h0 : 0 ≤ v) (h1 : v < 2147483648) : toInt v = v := by
  unfold toInt
  omega

theorem applyArg_fields (arg : BlockArgument) (al : BufferAllocation) :
    (applyArg arg al).index = al.index ∧ (applyArg arg al).size = al.size ∧
    (applyArg arg al).color = al.color := by
  unfold applyArg
  simp only
  split <;> split <;> simp [BufferAllocation.set_entry_computation_parameter,
    BufferAllocation.set_maybe_live_out]

theorem applyAll_fields (args : List BlockArgument) (k : Int) (al : BufferAllocation) :
    (applyAll args k al).index = al.index ∧ (applyAll args k al).size = al.size ∧
    (applyAll args k al).color = al.color := by
  induction args generalizing al with
  | nil => exact ⟨rfl, rfl, rfl⟩
  | cons arg args ih =>
    simp only [applyAll, List.foldl_cons]
    split
    · obtain ⟨h1, h2, h3⟩ := ih (applyArg arg al)
      obtain ⟨g1, g2, g3⟩ := applyArg_fields arg al
      simp only [applyAll] at h1 h2 h3
      exact ⟨by rw [h1, g1], by rw [h2, g2], by rw [h3, g3]⟩
    · exact ih al

theorem applyAll_none (args : List BlockArgument) (k : Int) (al : BufferAllocation)
    (h : ∀ a ∈ args, a.getArgAttr "lmhlo.alloc" ≠ some (.IntegerAttr k)) :
    applyAll args k al = al := by
  induction args generalizing al with
  | nil => rfl
  | cons b rest ih =>
    simp only [applyAll, List.foldl_cons]
    rw [if_neg (h b (List.mem_cons_self _ _))]
    exact ih al (fun a ha => h a (List.mem_cons_of_mem _ ha))

/-- With pairwise distinct allocation indices, the marks of allocation `k`
are those of the one argument with allocation index `k`. -/
theorem applyAll_unique (args : List BlockArgument) (k : Int) (al : BufferAllocation)
    (hnd : (args.map (fun arg => arg.getArgAttr "lmhlo.alloc")).Nodup)
    (a : BlockArgument) (ha : a ∈ args)
    (hk : a.getArgAttr "lmhlo.alloc" = some (.IntegerAttr k)) :
    applyAll args k al = applyArg a al := by
  induction args generalizing al with
  | nil => simp at ha
  | cons b rest ih =>
    simp only [List.map_cons, List.nodup_cons] at hnd
    obtain ⟨hb, hrest⟩ := hnd
    simp only [applyAll, List.foldl_cons]
    rcases List.mem_cons.1 ha with hab | hab
    · subst hab
      rw [if_pos hk]
      apply applyAll_none
      intro c hc hck
      apply hb
      rw [hk, ← hck]
      exact List.mem_map.2 ⟨c, hc, rfl⟩
    · have hbk : b.getArgAttr "lmhlo.alloc" ≠ some (.IntegerAttr k) := by
        intro hbk
        apply hb
        rw [hbk, ← hk]
        exact List.mem_map.2 ⟨a, hab, rfl⟩
      rw [if_neg hbk]
      exact ih al hrest hab

theorem applyArg_of_params (arg : BlockArgument) (al : BufferAllocation) (p : Int)
    (hp : arg.getArgAttr "lmhlo.params" = some (.IntegerAttr p)) :
    (applyArg arg al).is_entry_computation_parameter = true ∧
    (applyArg arg al).parameter_number = p ∧
    (applyArg arg al).param_shape_index = [] ∧
    (applyArg arg al).is_parameter_aliased_with_output =
      (arg.getArgAttr "lmhlo.output_index").isSome := by
  unfold applyArg
  rw [hp]
  simp only
  split <;> simp [BufferAllocation.set_entry_computation_parameter,
    BufferAllocation.set_maybe_live_out]

theorem applyArg_no_params (arg : BlockArgument) (al : BufferAllocation)
    (hp : arg.getArgAttr "lmhlo.params" = none) :
    (applyArg arg al).is_entry_computation_parameter = al.is_entry_computation_parameter := by
  unfold applyArg
  rw [hp]
  simp only
  split <;> simp [BufferAllocation.set_maybe_live_out]

theorem updateEntry_mem (m : List (List Int × OutputInfo)) (key : List Int)
    (f : OutputInfo → OutputInfo) (e : List Int × OutputInfo)
    (he : e ∈ updateEntry m key f) : e ∈ m ∨ ∃ o, e = (key, f o) := by
  unfold updateEntry at he
  split at he
  · obtain ⟨e0, he0, heq⟩ := List.mem_map.1 he
    split at heq
    · rename_i hkey
      exact Or.inr ⟨e0.2, by rw [← heq, hkey]⟩
    · subst heq
      exact Or.inl he0
  · rcases List.mem_append.1 he with h | h
    · exact Or.inl h
    · simp only [List.mem_singleton] at h
      exact Or.inr ⟨{}, h⟩

theorem updateEntry_absent (m : List (List Int × OutputInfo)) (key : List Int)
    (f : OutputInfo → OutputInfo) (h : key ∉ m.map Prod.fst) :
    updateEntry m key f = m ++ [(key, f {})] := by
  unfold updateEntry
  rw [if_neg]
  intro hany
  rw [List.any_eq_true] at hany
  obtain ⟨e, he, hk⟩ := hany
  apply h
  simp only [decide_eq_true_eq] at hk
  rw [← hk]
  exact List.mem_map.2 ⟨e, he, rfl⟩

/-- Every entry of the output info map after the last loop was there before
or has the allocation index of an argument that carries `lmhlo.output_index`. -/
theorem outputLoop_info_source (args : List BlockArgument) (st st2 : OutputState)
    (h : outputLoop args st = .ok st2) (e : List Int × OutputInfo)
    (he : e ∈ st2.output_info) :
    (∃ e0 ∈ st.output_info, e0.2.allocation_index = e.2.allocation_index) ∨
    ∃ arg ∈ args, (arg.getArgAttr "lmhlo.output_index").isSome = true ∧
      arg.getArgAttr "lmhlo.alloc" = some (.IntegerAttr e.2.allocation_index) := by
  induction args generalizing st with
  | nil =>
    simp only [outputLoop, Outcome.ok.injEq] at h
    subst h
    exact Or.inl ⟨e, he, rfl⟩
  | cons arg args ih =>
    obtain ⟨st1, hs, hl⟩ := outputLoop_cons_ok arg args st st2 h
    obtain ⟨index, ha, _, _, _, hnone, hout⟩ := outputStep_ok st st1 arg hs
    rcases ih st1 hl with ⟨e1, he1, heq⟩ | ⟨a, ha2, h1, h2⟩
    · cases ho : arg.getArgAttr "lmhlo.output_index" with
      | none =>
        rw [(hnone ho).1] at he1
        exact Or.inl ⟨e1, he1, heq⟩
      | some oa =>
        obtain ⟨path, _, _, _, _, _, _, hinfo, _⟩ := hout oa ho
        rw [hinfo] at he1
        rcases updateEntry_mem _ _ _ _ he1 with hm | ⟨o, ho2⟩
        · exact Or.inl ⟨e1, hm, heq⟩
        · refine Or.inr ⟨arg, List.mem_cons_self _ _, by rw [ho]; rfl, ?_⟩
          rw [ha, ← heq, ho2]
    · exact Or.inr ⟨a, List.mem_cons_of_mem _ ha2, h1, h2⟩

theorem declaredOutput_of_attrs (arg : BlockArgument) (path : List Int) (index : Int)
    (ho : arg.getArgAttr "lmhlo.output_index" = some (.DenseIntElementsAttr path))
    (ha : arg.getArgAttr "lmhlo.alloc" = some (.IntegerAttr index)) :
    declaredOutput arg = some (path,
      { allocation_index := index
        alias_config :=
          match arg.getArgAttr "lmhlo.params" with
          | some (.IntegerAttr parameter_number) => some (parameter_number, [])
          | _ => none }) := by
  unfold declaredOutput
  rw [ho, ha]

theorem outputPath_of_attr (arg : BlockArgument) (path : List Int)
    (ho : arg.getArgAttr "lmhlo.output_index" = some (.DenseIntElementsAttr path)) :
    outputPath arg = some path := by
  unfold outputPath
  rw [ho]

theorem outputPath_of_none (arg : BlockArgument)
    (ho : arg.getArgAttr "lmhlo.output_index" = none) : outputPath arg = none := by
  unfold outputPath
  rw [ho]

theorem declaredOutput_of_none (arg : BlockArgument)
    (ho : arg.getArgAttr "lmhlo.output_index" = none) : declaredOutput arg = none := by
  unfold declaredOutput
  rw [ho]

/-- With pairwise distinct declared paths, the last loop appends one entry per
argument that declares an output path. -/
theorem outputLoop_info_distinct (args : List BlockArgument) (st st2 : OutputState)
    (h : outputLoop args st = .ok st2)
    (hnd : (st.output_info.map Prod.fst ++ args.filterMap outputPath).Nodup) :
    st2.output_info = st.output_info ++ args.filterMap declaredOutput := by
  induction args generalizing st with
  | nil =>
    simp only [outputLoop, Outcome.ok.injEq] at h
    subst h
    simp
  | cons arg args ih =>
    obtain ⟨st1, hs, hl⟩ := outputLoop_cons_ok arg args st st2 h
    obtain ⟨index, ha, _, _, _, hnone, hout⟩ := outputStep_ok st st1 arg hs
    cases ho : arg.getArgAttr "lmhlo.output_index" with
    | none =>
      rw [List.filterMap_cons, outputPath_of_none arg ho] at hnd
      rw [List.filterMap_cons, declaredOutput_of_none arg ho]
      simp only at hnd ⊢
      rw [← (hnone ho).1] at hnd ⊢
      exact ih st1 hl hnd
    | some oa =>
      obtain ⟨path, hpath, _, _, _, _, _, hinfo, _⟩ := hout oa ho
      subst hpath
      rw [List.filterMap_cons, outputPath_of_attr arg path ho] at hnd
      simp only at hnd
      have habsent : path ∉ st.output_info.map Prod.fst := by
        intro hmem
        have hdisj := (List.nodup_append.1 hnd).2.2
        exact hdisj hmem (List.mem_cons_self _ _)
      rw [updateEntry_absent _ _ _ habsent] at hinfo
      rw [List.filterMap_cons, declaredOutput_of_attrs arg path index ho ha]
      simp only
      have hnd1 : (st1.output_info.map Prod.fst ++ args.filterMap outputPath).Nodup := by
        rw [hinfo, List.map_append, List.append_assoc]
        exact hnd
      rw [ih st1 hl hnd1, hinfo, List.append_assoc]
      rfl

theorem length_filterMap_eq_length_filter {α β : Type} (l : List α) (f : α → Option β)
    (p : α → Bool) (h : ∀ a ∈ l, (f a).isSome = p a) :
    (l.filterMap f).length = (l.filter p).length := by
  induction l with
  | nil => rfl
  | cons a l ih =>
    have ha := h a (List.mem_cons_self _ _)
    have ih2 := ih (fun b hb => h b (List.mem_cons_of_mem _ hb))
    cases hf : f a with
    | none =>
      rw [hf] at ha
      rw [List.filterMap_cons_none hf, List.filter_cons_of_neg (by rw [← ha]; simp)]
      exact ih2
    | some b =>
      rw [hf] at ha
      rw [List.filterMap_cons_some hf, List.filter_cons_of_pos (by rw [← ha]; rfl)]
      simp [ih2]

theorem declaredOutput_keys (args : List BlockArgument)
    (hall : ∀ arg ∈ args, ∃ index, arg.getArgAttr "lmhlo.alloc" = some (.IntegerAttr index)) :
    (args.filterMap declaredOutput).map Prod.fst = args.filterMap outputPath := by
  induction args with
  | nil => rfl
  | cons arg args ih =>
    obtain ⟨index, ha⟩ := hall arg (List.mem_cons_self _ _)
    have ih2 := ih (fun a h => hall a (List.mem_cons_of_mem _ h))
    cases ho : arg.getArgAttr "lmhlo.output_index" with
    | none =>
      rw [List.filterMap_cons, List.filterMap_cons, declaredOutput_of_none arg ho,
        outputPath_of_none arg ho]
      exact ih2
    | some oa =>
      cases oa with
      | DenseIntElementsAttr path =>
        rw [List.filterMap_cons, List.filterMap_cons,
          declaredOutput_of_attrs arg path index ho ha, outputPath_of_attr arg path ho]
        simp only [List.map_cons, ih2]
      | IntegerAttr v =>
        have h1 : declaredOutput arg = none := by
          unfold declaredOutput
          rw [ho]
        have h2 : outputPath arg = none := by
          unfold outputPath
          rw [ho]
        rw [List.filterMap_cons, List.filterMap_cons, h1, h2]
        exact ih2
      | other t =>
        have h1 : declaredOutput arg = none := by
          unfold declaredOutput
          rw [ho]
        have h2 : outputPath arg = none := by
          unfold outputPath
          rw [ho]
        rw [List.filterMap_cons, List.filterMap_cons, h1, h2]
        exact ih2

theorem lastAssigned_append_cons {α : Type} (l1 l2 : List (Nat × α)) (u : Nat × α)
    (k : Nat) (hu : u.1 = k) (h2 : ∀ w ∈ l2, w.1 ≠ k) :
    lastAssigned (l1 ++ u :: l2) k = some u.2 := by
  induction l1 with
  | nil =>
    simp only [List.nil_append, lastAssigned]
    rw [(lastAssigned_eq_none l2 k).2 h2]
    simp [hu]
  | cons x l1 ih =>
    show (match lastAssigned (l1 ++ u :: l2) k with
      | some v => some v
      | none => if x.1 = k then some x.2 else none) = some u.2
    rw [ih]

theorem placeShape_single (shapes shapes1 : List Shape) (p : Int) (sh : Shape)
    (h : placeShape shapes [p] sh = some shapes1) :
    0 ≤ p ∧ shapes1 = (growTo shapes p.toNat Shape.invalid).set p.toNat sh := by
  unfold placeShape at h
  simp only at h
  split at h
  · cases h
  · simp only [Option.some.injEq] at h
    exact ⟨by omega, h.symm⟩

theorem shapeAssignment_of_path (arg : BlockArgument) (p : Int)
    (h : outputPath arg = some [p]) :
    shapeAssignment arg = some (p.toNat, arg.type.TypeToShape) := by
  unfold shapeAssignment
  rw [h]

theorem shapeAssignment_some (arg : BlockArgument) (u : Nat × Shape)
    (h : shapeAssignment arg = some u) :
    ∃ p : Int, outputPath arg = some [p] ∧ u = (p.toNat, arg.type.TypeToShape) := by
  unfold shapeAssignment at h
  split at h
  · rename_i position hpath
    simp only [Option.some.injEq] at h
    exact ⟨position, hpath, h.symm⟩
  · cases h

/-- The shapes after a successful run of the last loop over arguments whose
declared paths all have length 1. -/
theorem outputLoop_shapes (args : List BlockArgument) (st st2 : OutputState)
    (h : outputLoop args st = .ok st2)
    (hlen : ∀ arg ∈ args, ∀ path, outputPath arg = some path → path.length = 1) :
    st2.output_shapes =
      assignAll st.output_shapes Shape.invalid (args.filterMap shapeAssignment) ∧
    ∀ arg ∈ args, ∀ p : Int, outputPath arg = some [p] → 0 ≤ p := by
  induction args generalizing st with
  | nil =>
    simp only [outputLoop, Outcome.ok.injEq] at h
    subst h
    exact ⟨rfl, fun arg harg => by simp at harg⟩
  | cons arg args ih =>
    obtain ⟨st1, hs, hl⟩ := outputLoop_cons_ok arg args st st2 h
    obtain ⟨index, ha, _, _, _, hnone, hout⟩ := outputStep_ok st st1 arg hs
    obtain ⟨ih1, ih2⟩ := ih st1 hl (fun a ha2 => hlen a (List.mem_cons_of_mem _ ha2))
    cases ho : arg.getArgAttr "lmhlo.output_index" with
    | none =>
      have hsa : shapeAssignment arg = none := by
        unfold shapeAssignment
        rw [outputPath_of_none arg ho]
      refine ⟨?_, ?_⟩
      · rw [List.filterMap_cons, hsa, ih1, (hnone ho).2.1]
      · intro a ha2 p hp
        rcases List.mem_cons.1 ha2 with ha2 | ha2
        · subst ha2
          rw [outputPath_of_none a ho] at hp
          cases hp
        · exact ih2 a ha2 p hp
    | some oa =>
      obtain ⟨path, hpath, _, _, _, _, _, _, hplace⟩ := hout oa ho
      subst hpath
      have hop := outputPath_of_attr arg path ho
      have hl1 := hlen arg (List.mem_cons_self _ _) path hop
      obtain ⟨p, hp⟩ : ∃ p, path = [p] := by
        cases path with
        | nil => simp at hl1
        | cons x xs =>
          cases xs with
          | nil => exact ⟨x, rfl⟩
          | cons y ys => simp at hl1
      subst hp
      obtain ⟨h0, hshapes⟩ := placeShape_single _ _ _ _ hplace
      refine ⟨?_, ?_⟩
      · rw [List.filterMap_cons, shapeAssignment_of_path arg p hop, assignAll_cons, ih1,
          hshapes]
      · intro a ha2 q hq
        rcases List.mem_cons.1 ha2 with ha2 | ha2
        · subst ha2
          rw [hop] at hq
          simp only [Option.some.injEq, List.cons.injEq, and_true] at hq
          omega
        · exact ih2 a ha2 q hq

/-- The first loop stops only at an allocation index that is negative or
`INT_MAX` as an `int`. -/
theorem allocLoop_not_abort (args : List BlockArgument) (m : List (Option BufferAllocation))
    (hrange : ∀ arg ∈ args, ∀ value,
      arg.getArgAttr "lmhlo.alloc" = some (.IntegerAttr value) →
      0 ≤ toInt value ∧ toInt value < 2147483647) :
    allocLoop args m ≠ .abort := by
  induction args generalizing m with
  | nil => simp [allocLoop]
  | cons arg args ih =>
    simp only [allocLoop]
    cases hs : allocStep m arg with
    | ok m1 => exact ih m1 (fun a ha => hrange a (List.mem_cons_of_mem _ ha))
    | error e => simp
    | abort =>
      exfalso
      unfold allocStep at hs
      split at hs
      · rename_i value hattr
        obtain ⟨h0, h1⟩ := hrange arg (List.mem_cons_self _ _) value hattr
        have hn1 : ¬ toInt value < -1 := by omega
        have hn2 : ¬ toInt value = 2147483647 := by omega
        have hn3 : ¬ toInt value < 0 := by omega
        simp only [hn1, hn2, hn3, if_false] at hs
        split at hs <;> cases hs
      · cases hs

theorem attrNamesOk_true (args : List BlockArgument) (h : attrNamesOk args = true)
    (arg : BlockArgument) (harg : arg ∈ args) (attr : String × Attribute)
    (hattr : attr ∈ arg.attrs) :
    attr.1 = "lmhlo.alloc" ∨ attr.1 = "lmhlo.params" ∨ attr.1 = "lmhlo.output_index" := by
  unfold attrNamesOk at h
  rw [List.all_eq_true] at h
  have h2 := h arg harg
  rw [List.all_eq_true] at h2
  have h3 := h2 attr hattr
  simp only [Bool.or_eq_true, decide_eq_true_eq] at h3
  rcases h3 with (h3 | h3) | h3
  · exact Or.inl h3
  · exact Or.inr (Or.inl h3)
  · exact Or.inr (Or.inr h3)

/-- The function never returns OK on a function with an argument without an
integer `lmhlo.alloc` or with an attribute of another name than the three
known ones. -/
theorem GetMlirAllocationInfo_bad_attribute_not_ok (func : FuncOp)
    (hbad : (∃ arg ∈ func.arguments, ∀ value,
        arg.getArgAttr "lmhlo.alloc" ≠ some (.IntegerAttr value)) ∨
      (∃ arg ∈ func.arguments, ∃ attr ∈ arg.attrs, attr.1 ≠ "lmhlo.alloc" ∧
        attr.1 ≠ "lmhlo.params" ∧ attr.1 ≠ "lmhlo.output_index"))
    (r : AllocationInfo) : GetMlirAllocationInfo func ≠ .ok r := by
  intro h
  obtain ⟨allocations, st, h1, hnames, _⟩ := GetMlirAllocationInfo_ok func r h
  rcases hbad with ⟨arg, harg, hno⟩ | ⟨arg, harg, attr, hattr, h1n, h2n, h3n⟩
  · obtain ⟨_, hall⟩ := allocLoop_ok _ _ _ h1
    obtain ⟨value, hv, _⟩ := hall arg harg
    exact hno value hv
  · rcases attrNamesOk_true _ hnames arg harg attr hattr with h3 | h3 | h3
    · exact h1n h3
    · exact h2n h3
    · exact h3n h3

/-- Where no allocation index is negative or `INT_MAX` as an `int`, the
function returns an error on a function with an argument without an integer
`lmhlo.alloc` or with an attribute of another name than the three known ones. -/
theorem GetMlirAllocationInfo_bad_attribute_error (func : FuncOp)
    (hrange : ∀ arg ∈ func.arguments, ∀ value,
      arg.getArgAttr "lmhlo.alloc" = some (.IntegerAttr value) →
      0 ≤ toInt value ∧ toInt value < 2147483647)
    (hbad : (∃ arg ∈ func.arguments, ∀ value,
        arg.getArgAttr "lmhlo.alloc" ≠ some (.IntegerAttr value)) ∨
      (∃ arg ∈ func.arguments, ∃ attr ∈ arg.attrs, attr.1 ≠ "lmhlo.alloc" ∧
        attr.1 ≠ "lmhlo.params" ∧ attr.1 ≠ "lmhlo.output_index")) :
    ∃ s, GetMlirAllocationInfo func = .error s := by
  have hnot := GetMlirAllocationInfo_bad_attribute_not_ok func hbad
  have hna := allocLoop_not_abort func.arguments [] hrange
  cases hres : GetMlirAllocationInfo func with
  | ok r => exact absurd hres (hnot r)
  | error s => exact ⟨s, rfl⟩
  | abort =>
    exfalso
    unfold GetMlirAllocationInfo at hres
    cases h1 : allocLoop func.arguments [] with
    | abort => exact hna h1
    | error e => rw [h1] at hres; cases hres
    | ok maybe =>
      rw [h1] at hres
      simp only at hres
      cases h2 : collectAllocations maybe [] with
      | error e => rw [h2] at hres; cases hres
      | ok allocations =>
        rw [h2] at hres
        simp only at hres
        split at hres
        · cases hres
        · rename_i hnames
          have hnames2 : attrNamesOk func.arguments = true := by simpa using hnames
          rcases hbad with ⟨arg, harg, hno⟩ | ⟨arg, harg, attr, hattr, h1n, h2n, h3n⟩
          · obtain ⟨_, hall⟩ := allocLoop_ok _ _ _ h1
            obtain ⟨value, hv, _⟩ := hall arg harg
            exact hno value hv
          · rcases attrNamesOk_true _ hnames2 arg harg attr hattr with h3 | h3 | h3
            · exact h1n h3
            · exact h2n h3
            · exact h3n h3

/-- The function never returns OK on a function in which two arguments
declare output paths of different lengths, or an argument declares an output
path of a length above 1. -/
theorem GetMlirAllocationInfo_bad_rank_not_ok (func : FuncOp)
    (hbad : (∃ a ∈ func.arguments, ∃ b ∈ func.arguments, ∃ pa pb,
        outputPath a = some pa ∧ outputPath b = some pb ∧ pa.length ≠ pb.length) ∨
      (∃ a ∈ func.arguments, ∃ pa, outputPath a = some pa ∧ 1 < pa.length))
    (r : AllocationInfo) : GetMlirAllocationInfo func ≠ .ok r := by
  intro h
  obtain ⟨allocations, st, _, _, h3, _⟩ := GetMlirAllocationInfo_ok func r h
  obtain ⟨_, hargs⟩ := outputLoop_args _ _ _ h3
  have hrank : ∀ a ∈ func.arguments, ∀ pa, outputPath a = some pa →
      pa.length ≤ 1 ∧ st.rank = some pa.length := by
    intro a ha pa hpa
    obtain ⟨index, _, _, hout⟩ := hargs a ha
    cases ho : a.getArgAttr "lmhlo.output_index" with
    | none => rw [outputPath_of_none a ho] at hpa; cases hpa
    | some oa =>
      obtain ⟨path, hpath, _, _, hl, hr⟩ := hout oa ho
      subst hpath
      rw [outputPath_of_attr a path ho] at hpa
      simp only [Option.some.injEq] at hpa
      subst hpa
      exact ⟨hl, hr⟩
  rcases hbad with ⟨a, ha, b, hb, pa, pb, hpa, hpb, hne⟩ | ⟨a, ha, pa, hpa, hlt⟩
  · have h1 := (hrank a ha pa hpa).2
    have h2 := (hrank b hb pb hpb).2
    rw [h1] at h2
    simp only [Option.some.injEq] at h2
    exact hne h2
  · have h1 := (hrank a ha pa hpa).1
    omega

theorem outputLoop_append (pre rest : List BlockArgument) (st : OutputState) :
    outputLoop (pre ++ rest) st =
      match outputLoop pre st with
      | .ok st1 => outputLoop rest st1
      | .error s => .error s
      | .abort => .abort := by
  induction pre generalizing st with
  | nil => rfl
  | cons arg pre ih =>
    simp only [List.cons_append, outputLoop]
    cases outputStep st arg with
    | ok st1 => exact ih st1
    | error s => rfl
    | abort => rfl

theorem outputLoop_rank_unchanged (args : List BlockArgument) (st st2 : OutputState)
    (h : outputLoop args st = .ok st2)
    (hnone : ∀ b ∈ args, b.getArgAttr "lmhlo.output_index" = none) :
    st2.rank = st.rank := by
  induction args generalizing st with
  | nil =>
    simp only [outputLoop, Outcome.ok.injEq] at h
    subst h
    rfl
  | cons arg args ih =>
    obtain ⟨st1, hs, hl⟩ := outputLoop_cons_ok arg args st st2 h
    obtain ⟨_, _, _, _, _, hn, _⟩ := outputStep_ok st st1 arg hs
    rw [ih st1 hl (fun b hb => hnone b (List.mem_cons_of_mem _ hb)),
      (hn (hnone arg (List.mem_cons_self _ _))).2.2]

/-- An iteration of the last loop on an argument that declares a path longer
than 1, with no path declared before: unless it stops at an access out of
range or a mistyped attribute, it returns Unimplemented. -/
theorem outputStep_deep_path (st : OutputState) (arg : BlockArgument) (path : List Int)
    (hpath : arg.getArgAttr "lmhlo.output_index" = some (.DenseIntElementsAttr path))
    (hlen : 1 < path.length) (hrank : st.rank = none)
    (hna : outputStep st arg ≠ .abort) :
    outputStep st arg = .error (Unimplemented "Expect array type or 1-level tuple type") := by
  unfold outputStep at hna ⊢
  cases ha : arg.getArgAttr "lmhlo.alloc" with
  | none => rw [ha] at hna; exact absurd rfl hna
  | some a =>
    cases a with
    | DenseIntElementsAttr vs => rw [ha] at hna; exact absurd rfl hna
    | other t => rw [ha] at hna; exact absurd rfl hna
    | IntegerAttr index =>
      rw [ha] at hna
      simp only at hna ⊢
      cases hw : (match arg.getArgAttr "lmhlo.params" with
          | none => some st.allocations
          | some (.IntegerAttr parameter_number) =>
            updateAt st.allocations index (fun alloc =>
              alloc.set_entry_computation_parameter parameter_number []
                (arg.getArgAttr "lmhlo.output_index").isSome)
          | some _ => none) with
      | none => rw [hw] at hna; exact absurd rfl hna
      | some allocations1 =>
        rw [hw] at hna
        simp only [hpath] at hna ⊢
        cases hu : updateAt allocations1 index (fun alloc => alloc.set_maybe_live_out true) with
        | none => rw [hu] at hna; exact absurd rfl hna
        | some allocations2 =>
          simp only [hrank, Option.isSome_none, Bool.false_and, Bool.false_eq_true, if_false,
            hlen, if_true]

/-- When the checks before pass and the first argument that declares an
output path declares one longer than 1, `GetMlirAllocationInfo` returns
Unimplemented, unless the iteration on that argument stops at an access out of
range or a mistyped attribute. -/
theorem GetMlirAllocationInfo_deep_path_unimplemented (func : FuncOp)
    (pre post : List BlockArgument) (arg : BlockArgument)
    (allocations : List BufferAllocation) (st1 : OutputState) (path : List Int)
    (hargs : func.arguments = pre ++ arg :: post)
    (h1 : allocLoop func.arguments [] = .ok (allocations.map some))
    (hnames : attrNamesOk func.arguments = true)
    (hpre : outputLoop pre
      { allocations := allocations, output_info := [], output_shapes := [],
        rank := none } = .ok st1)
    (hfirst : ∀ b ∈ pre, b.getArgAttr "lmhlo.output_index" = none)
    (hpath : arg.getArgAttr "lmhlo.output_index" = some (.DenseIntElementsAttr path))
    (hlen : 1 < path.length) (hna : outputStep st1 arg ≠ .abort) :
    GetMlirAllocationInfo func =
      .error (Unimplemented "Expect array type or 1-level tuple type") := by
  have hrank : st1.rank = none := outputLoop_rank_unchanged _ _ _ hpre hfirst
  have hstep := outputStep_deep_path st1 arg path hpath hlen hrank hna
  unfold GetMlirAllocationInfo
  rw [h1]
  simp only
  rw [collectAllocations_all_some]
  simp only [List.nil_append, hnames, Bool.not_true, Bool.false_eq_true, if_false]
  rw [hargs, outputLoop_append, hpre]
  simp only [outputLoop, hstep]

end AllocationInfoLemmas

/-! ## Claims on `GetMlirAllocationInfo` -/

section AllocationInfoClaims

/-- Claim C11, as stated, fails: a function whose only argument carries the
allocation index 1 (so index 0 is not used) and has no shaped type fails with
the internal error of the type check, not with InvalidArgument. -/
theorem GetMlirAllocationInfo_contiguous_not_shaped :
    (∀ arg ∈ toyFuncScalar.arguments,
      arg.getArgAttr "lmhlo.alloc" = some (.IntegerAttr 1)) ∧
    GetMlirAllocationInfo toyFuncScalar =
      .error (RetCheckFailure "arg.getType().isa<mlir::ShapedType>()") ∧
    (RetCheckFailure "arg.getType().isa<mlir::ShapedType>()").code ≠
      Code.INVALID_ARGUMENT := by
  refine ⟨?_, rfl, by decide⟩
  intro arg harg
  simp only [toyFuncScalar, List.mem_singleton] at harg
  subst harg
  rfl

/-- Claim C11 (amended): for every function whose arguments all have a shaped
type and carry an integer `lmhlo.alloc` attribute that is non-negative and
below `INT_MAX`: if some index below a used index is not used (the used
indices are not exactly `0 .. n-1` for `n` one more than the largest), the
function fails with InvalidArgument; and whenever it succeeds the allocation
table has length one more than the largest index, and the entry at position
`k` has index `k`. -/
theorem GetMlirAllocationInfo_contiguous (func : FuncOp)
    (hint : ∀ arg ∈ func.arguments, ∃ value : Int,
      arg.getArgAttr "lmhlo.alloc" = some (.IntegerAttr value) ∧
      0 ≤ value ∧ value < 2147483647)
    (hshaped : ∀ arg ∈ func.arguments, arg.type.isShapedType = true) :
    ((∃ k v : Nat, k < v ∧
        (∃ arg ∈ func.arguments, arg.getArgAttr "lmhlo.alloc" = some (.IntegerAttr v)) ∧
        (∀ arg ∈ func.arguments, arg.getArgAttr "lmhlo.alloc" ≠ some (.IntegerAttr k))) →
      GetMlirAllocationInfo func =
        .error (InvalidArgument "Allocation indices should range in [0, n)")) ∧
    (∀ r, GetMlirAllocationInfo func = .ok r →
      (∀ arg ∈ func.arguments, ∀ value : Int,
        arg.getArgAttr "lmhlo.alloc" = some (.IntegerAttr value) →
        value < r.allocations.length) ∧
      (0 < r.allocations.length → ∃ arg ∈ func.arguments,
        arg.getArgAttr "lmhlo.alloc" =
          some (.IntegerAttr ((r.allocations.length : Int) - 1))) ∧
      (∀ (k : Nat) (al : BufferAllocation), r.allocations[k]? = some al →
        al.index = k)) := by
  have hall : ∀ arg ∈ func.arguments, ∃ value,
      arg.getArgAttr "lmhlo.alloc" = some (.IntegerAttr value) ∧
      0 ≤ toInt value ∧ toInt value < 2147483647 ∧ arg.type.isShapedType = true := by
    intro arg harg
    obtain ⟨value, h1, h2, h3⟩ := hint arg harg
    exact ⟨value, h1, by rw [toInt_of_range value h2 (by omega)]; exact h2,
      by rw [toInt_of_range value h2 (by omega)]; exact h3, hshaped arg harg⟩
  have hloop := allocLoop_succeeds func.arguments [] hall
  -- every assignment comes from an argument, with its attribute value as index
  have hus : ∀ u ∈ func.arguments.filterMap allocAssignment, ∃ arg ∈ func.arguments,
      arg.getArgAttr "lmhlo.alloc" = some (.IntegerAttr (u.1 : Int)) := by
    intro u hu
    obtain ⟨arg, harg, hasg⟩ := List.mem_filterMap.1 hu
    obtain ⟨value, h1, h2, h3⟩ := hint arg harg
    rw [allocAssignment_of_attr arg value h1] at hasg
    simp only [Option.some.injEq] at hasg
    refine ⟨arg, harg, ?_⟩
    rw [h1, ← hasg, toInt_of_range value h2 (by omega)]
    simp only [Option.some.injEq, Attribute.IntegerAttr.injEq]
    omega
  constructor
  · rintro ⟨k, v, hkv, ⟨argv, hargv, hv⟩, hk⟩
    have hnone : lastAssigned (func.arguments.filterMap allocAssignment) k = none := by
      rw [lastAssigned_eq_none]
      intro u hu huk
      obtain ⟨arg, harg, hattr⟩ := hus u hu
      rw [huk] at hattr
      exact hk arg harg hattr
    have hvlt : v < (assignAll ([] : List (Option BufferAllocation)) none
        (func.arguments.filterMap allocAssignment)).length := by
      have hmem := List.mem_filterMap.2
        ⟨argv, hargv, allocAssignment_of_attr argv v hv⟩
      have hlt := assignAll_index_lt ([] : List (Option BufferAllocation)) none _ _ hmem
      obtain ⟨value, h1, h2, h3⟩ := hint argv hargv
      rw [hv] at h1
      simp only [Option.some.injEq, Attribute.IntegerAttr.injEq] at h1
      rw [toInt_of_range v (by omega) (by omega)] at hlt
      simpa using hlt
    have hhole : (assignAll ([] : List (Option BufferAllocation)) none
        (func.arguments.filterMap allocAssignment))[k]? = some none := by
      rw [assignAll_getElem?, hnone]
      simp only [List.length_nil, Nat.not_lt_zero, if_false]
      rw [if_pos (by omega)]
    unfold GetMlirAllocationInfo
    rw [hloop]
    simp only
    rw [collectAllocations_hole _ k [] hhole]
  · intro r hr
    obtain ⟨allocations, st, h1, _, h3, hra, _, _⟩ := GetMlirAllocationInfo_ok func r hr
    obtain ⟨hlen, hget⟩ := outputLoop_allocations _ _ _ h3
    simp only at hlen hget
    have hfinal : allocations.map some = assignAll ([] : List (Option BufferAllocation)) none
        (func.arguments.filterMap allocAssignment) := by
      rw [hloop] at h1
      simp only [Outcome.ok.injEq] at h1
      exact h1.symm
    have hlen2 : r.allocations.length = (assignAll ([] : List (Option BufferAllocation)) none
        (func.arguments.filterMap allocAssignment)).length := by
      rw [hra, hlen, ← hfinal, List.length_map]
    refine ⟨?_, ?_, ?_⟩
    · intro arg harg value hattr
      obtain ⟨value2, g1, g2, g3⟩ := hint arg harg
      rw [hattr] at g1
      simp only [Option.some.injEq, Attribute.IntegerAttr.injEq] at g1
      subst g1
      have hmem := List.mem_filterMap.2
        ⟨arg, harg, allocAssignment_of_attr arg value hattr⟩
      have hlt := assignAll_index_lt ([] : List (Option BufferAllocation)) none _ _ hmem
      rw [← hlen2, toInt_of_range value g2 (by omega)] at hlt
      simp only at hlt
      omega
    · intro hpos
      rcases assignAll_length_attained ([] : List (Option BufferAllocation)) none
          (func.arguments.filterMap allocAssignment) with hz | ⟨u, hu, hz⟩
      · rw [← hlen2] at hz
        simp only [List.length_nil] at hz
        omega
      · obtain ⟨arg, harg, hattr⟩ := hus u hu
        refine ⟨arg, harg, ?_⟩
        rw [hattr, hlen2, hz]
        simp
    · intro k al hk
      rw [hra, hget k] at hk
      cases h0 : allocations[k]? with
      | none => rw [h0] at hk; cases hk
      | some al0 =>
        rw [h0] at hk
        simp only [Option.map_some', Option.some.injEq] at hk
        obtain ⟨arg, harg, value, hattr, hnn, hidx, hal0⟩ :=
          allocLoop_entry func.arguments allocations h1 k al0 h0
        rw [← hk, (applyAll_fields _ _ _).1, hal0]
        simp only
        omega

theorem GetMlirAllocationInfo_contiguous_witness :
    GetMlirAllocationInfo toyFuncGap =
      .error (InvalidArgument "Allocation indices should range in [0, n)") :=
  (GetMlirAllocationInfo_contiguous toyFuncGap
    (by
      intro arg harg
      simp only [toyFuncGap, List.mem_cons, List.mem_singleton, List.not_mem_nil,
        or_false] at harg
      rcases harg with h | h
      · subst h; exact ⟨0, rfl, by decide, by decide⟩
      · subst h; exact ⟨2, rfl, by decide, by decide⟩)
    (by
      intro arg harg
      simp only [toyFuncGap, List.mem_cons, List.mem_singleton, List.not_mem_nil,
        or_false] at harg
      rcases harg with h | h <;> subst h <;> rfl)).1
    ⟨1, 2, by decide,
      ⟨{ attrs := [allocAttr 2], type := memrefType 64 2 }, by simp [toyFuncGap], rfl⟩,
      by
        intro arg harg
        simp only [toyFuncGap, List.mem_cons, List.mem_singleton, List.not_mem_nil,
          or_false] at harg
        rcases harg with h | h <;> subst h <;> decide⟩

/-- Claim C15: for every function with pairwise distinct allocation indices
on which `GetMlirAllocationInfo` succeeds, allocation `k` is marked as an entry
computation parameter if and only if the argument with allocation index `k`
carries `lmhlo.params`; then its parameter number is the value of that
attribute, its parameter shape index is empty, and it is marked may-alias-output
exactly when the same argument also carries `lmhlo.output_index`. -/
theorem GetMlirAllocationInfo_parameters (func : FuncOp) (r : AllocationInfo)
    (hdist : (func.arguments.map (fun arg => arg.getArgAttr "lmhlo.alloc")).Nodup)
    (h : GetMlirAllocationInfo func = .ok r) (k : Nat) (al : BufferAllocation)
    (hk : r.allocations[k]? = some al) :
    (al.is_entry_computation_parameter = true ↔
      ∃ arg ∈ func.arguments,
        arg.getArgAttr "lmhlo.alloc" = some (.IntegerAttr k) ∧
        (arg.getArgAttr "lmhlo.params").isSome = true) ∧
    (∀ arg ∈ func.arguments, arg.getArgAttr "lmhlo.alloc" = some (.IntegerAttr k) →
      ∀ pa, arg.getArgAttr "lmhlo.params" = some pa →
        pa = .IntegerAttr al.parameter_number ∧ al.param_shape_index = [] ∧
        al.is_parameter_aliased_with_output =
          (arg.getArgAttr "lmhlo.output_index").isSome) := by
  obtain ⟨allocations, st, h1, _, h3, hra, _, _⟩ := GetMlirAllocationInfo_ok func r h
  obtain ⟨_, hget⟩ := outputLoop_allocations _ _ _ h3
  obtain ⟨_, hargs⟩ := outputLoop_args _ _ _ h3
  simp only at hget
  rw [hra, hget k] at hk
  cases h0 : allocations[k]? with
  | none => rw [h0] at hk; cases hk
  | some al0 =>
    rw [h0] at hk
    simp only [Option.map_some', Option.some.injEq] at hk
    obtain ⟨_, _, _, _, _, _, hal0⟩ := allocLoop_entry func.arguments allocations h1 k al0 h0
    have hinit : al0.is_entry_computation_parameter = false := by rw [hal0]
    -- the final allocation, for an argument with allocation index `k`
    have hfinal : ∀ arg ∈ func.arguments,
        arg.getArgAttr "lmhlo.alloc" = some (.IntegerAttr k) → al = applyArg arg al0 := by
      intro arg harg hattr
      rw [← hk]
      exact applyAll_unique _ _ _ hdist arg harg hattr
    refine ⟨⟨?_, ?_⟩, ?_⟩
    · intro hpar
      by_cases hex : ∃ arg ∈ func.arguments,
          arg.getArgAttr "lmhlo.alloc" = some (.IntegerAttr k)
      · obtain ⟨arg, harg, hattr⟩ := hex
        refine ⟨arg, harg, hattr, ?_⟩
        cases hp : arg.getArgAttr "lmhlo.params" with
        | some pa => rfl
        | none =>
          rw [hfinal arg harg hattr, applyArg_no_params arg al0 hp, hinit] at hpar
          cases hpar
      · have hnone : applyAll func.arguments k al0 = al0 := by
          apply applyAll_none
          intro a ha hak
          exact hex ⟨a, ha, hak⟩
        rw [← hk, hnone, hinit] at hpar
        cases hpar
    · rintro ⟨arg, harg, hattr, hsome⟩
      cases hp : arg.getArgAttr "lmhlo.params" with
      | none => rw [hp] at hsome; cases hsome
      | some pa =>
        obtain ⟨index, _, hpar, _⟩ := hargs arg harg
        obtain ⟨⟨p, hpp⟩, _, _⟩ := hpar pa hp
        subst hpp
        rw [hfinal arg harg hattr]
        exact (applyArg_of_params arg al0 p hp).1
    · intro arg harg hattr pa hp
      obtain ⟨index, _, hpar, _⟩ := hargs arg harg
      obtain ⟨⟨p, hpp⟩, _, _⟩ := hpar pa hp
      subst hpp
      obtain ⟨_, g2, g3, g4⟩ := applyArg_of_params arg al0 p hp
      rw [hfinal arg harg hattr, g2, g3, g4]
      exact ⟨rfl, rfl, rfl⟩

theorem GetMlirAllocationInfo_parameters_witness :
    (toyAllocation0.is_entry_computation_parameter = true ↔
      ∃ arg ∈ toyFunc.arguments,
        arg.getArgAttr "lmhlo.alloc" = some (.IntegerAttr ((0 : Nat) : Int)) ∧
        (arg.getArgAttr "lmhlo.params").isSome = true) ∧
    (∀ arg ∈ toyFunc.arguments,
      arg.getArgAttr "lmhlo.alloc" = some (.IntegerAttr ((0 : Nat) : Int)) →
      ∀ pa, arg.getArgAttr "lmhlo.params" = some pa →
        pa = .IntegerAttr toyAllocation0.parameter_number ∧
        toyAllocation0.param_shape_index = [] ∧
        toyAllocation0.is_parameter_aliased_with_output =
          (arg.getArgAttr "lmhlo.output_index").isSome) :=
  GetMlirAllocationInfo_parameters toyFunc toyFuncInfo (by decide) rfl 0 toyAllocation0 rfl

/-- Claim C14, as stated, fails: when an argument with `lmhlo.params` and an
argument with `lmhlo.output_index` carry the same allocation index 0, the
function succeeds, allocation 0 is bound to a parameter and not marked
may-alias-output, and it is the allocation index of an output. -/
theorem GetMlirAllocationInfo_parameter_shared_with_output :
    GetMlirAllocationInfo toyFuncShared = .ok toyFuncSharedInfo ∧
    (∃ al, toyFuncSharedInfo.allocations[0]? = some al ∧
      al.is_entry_computation_parameter = true ∧
      al.is_parameter_aliased_with_output = false) ∧
    (∃ e ∈ toyFuncSharedInfo.output_info, e.2.allocation_index = 0) :=
  ⟨rfl, ⟨_, rfl, rfl, rfl⟩, ⟨_, List.mem_singleton.2 rfl, rfl⟩⟩

/-- Claim C14 (amended): for every function with pairwise distinct allocation
indices on which `GetMlirAllocationInfo` succeeds, an allocation that is bound
to an entry parameter and is not marked may-alias-output is not the allocation
index of any entry of the output info map. -/
theorem GetMlirAllocationInfo_parameter_not_output (func : FuncOp) (r : AllocationInfo)
    (hdist : (func.arguments.map (fun arg => arg.getArgAttr "lmhlo.alloc")).Nodup)
    (h : GetMlirAllocationInfo func = .ok r) (k : Nat) (al : BufferAllocation)
    (hk : r.allocations[k]? = some al)
    (hpar : al.is_entry_computation_parameter = true)
    (hna : al.is_parameter_aliased_with_output = false) :
    ∀ e ∈ r.output_info, e.2.allocation_index ≠ k := by
  intro e he hek
  obtain ⟨allocations, st, h1, _, h3, hra, hri, _⟩ := GetMlirAllocationInfo_ok func r h
  obtain ⟨_, hget⟩ := outputLoop_allocations _ _ _ h3
  obtain ⟨_, hargs⟩ := outputLoop_args _ _ _ h3
  simp only at hget
  rw [hri] at he
  rcases outputLoop_info_source _ _ _ h3 e he with ⟨e0, he0, _⟩ | ⟨arg, harg, hout, hattr⟩
  · simp at he0
  · rw [hek] at hattr
    rw [hra, hget k] at hk
    cases h0 : allocations[k]? with
    | none => rw [h0] at hk; cases hk
    | some al0 =>
      rw [h0] at hk
      simp only [Option.map_some', Option.some.injEq] at hk
      obtain ⟨_, _, _, _, _, _, hal0⟩ := allocLoop_entry func.arguments allocations h1 k al0 h0
      have hfinal : al = applyArg arg al0 := by
        rw [← hk]
        exact applyAll_unique _ _ _ hdist arg harg hattr
      cases hp : arg.getArgAttr "lmhlo.params" with
      | none =>
        rw [hfinal, applyArg_no_params arg al0 hp, hal0] at hpar
        cases hpar
      | some pa =>
        obtain ⟨index, _, hparams, _⟩ := hargs arg harg
        obtain ⟨⟨p, hpp⟩, _, _⟩ := hparams pa hp
        subst hpp
        rw [hfinal, (applyArg_of_params arg al0 p hp).2.2.2, hout] at hna
        cases hna

theorem GetMlirAllocationInfo_parameter_not_output_witness :
    toyFuncInfo.allocations[0]? = some toyAllocation0 ∧
    toyFuncInfo.output_info = [([0], { allocation_index := 1 })] ∧
    (([0], { allocation_index := 1 }) : List Int × OutputInfo).2.allocation_index ≠
      ((0 : Nat) : Int) :=
  ⟨rfl, rfl,
    GetMlirAllocationInfo_parameter_not_output toyFunc toyFuncInfo (by decide) rfl 0
      toyAllocation0 rfl rfl rfl _ (List.mem_singleton.2 rfl)⟩

/-- Claim C16: for every function with pairwise distinct declared output
paths on which `GetMlirAllocationInfo` succeeds, the output info map has
exactly one entry per argument carrying `lmhlo.output_index`, keyed by the path
of that argument; the allocation index of the entry is the `lmhlo.alloc` value
of the argument, and its alias source is present if and only if the argument
also carries `lmhlo.params`, in which case it is that parameter number with
the empty shape index. -/
theorem GetMlirAllocationInfo_output_info (func : FuncOp) (r : AllocationInfo)
    (hdist : (func.arguments.filterMap outputPath).Nodup)
    (h : GetMlirAllocationInfo func = .ok r) :
    r.output_info = func.arguments.filterMap declaredOutput ∧
    r.output_info.length = (func.arguments.filter (fun arg =>
      (arg.getArgAttr "lmhlo.output_index").isSome)).length ∧
    (∀ arg ∈ func.arguments, ∀ oa, arg.getArgAttr "lmhlo.output_index" = some oa →
      ∃ path index o, oa = .DenseIntElementsAttr path ∧
        arg.getArgAttr "lmhlo.alloc" = some (.IntegerAttr index) ∧
        findValue r.output_info path = some o ∧ o.allocation_index = index ∧
        o.alias_config.isSome = (arg.getArgAttr "lmhlo.params").isSome ∧
        (∀ pa, arg.getArgAttr "lmhlo.params" = some pa →
          ∃ p, pa = .IntegerAttr p ∧ o.alias_config = some (p, []))) := by
  obtain ⟨allocations, st, _, _, h3, _, hri, _⟩ := GetMlirAllocationInfo_ok func r h
  obtain ⟨_, hargs⟩ := outputLoop_args _ _ _ h3
  have hinfo : r.output_info = func.arguments.filterMap declaredOutput := by
    rw [hri, outputLoop_info_distinct _ _ _ h3 (by simpa using hdist)]
    simp
  have halloc : ∀ arg ∈ func.arguments, ∃ index,
      arg.getArgAttr "lmhlo.alloc" = some (.IntegerAttr index) := by
    intro arg harg
    obtain ⟨index, ha, _⟩ := hargs arg harg
    exact ⟨index, ha⟩
  have hkeys : (r.output_info.map Prod.fst).Nodup := by
    rw [hinfo, declaredOutput_keys _ halloc]
    exact hdist
  refine ⟨hinfo, ?_, ?_⟩
  · rw [hinfo]
    apply length_filterMap_eq_length_filter
    intro arg harg
    obtain ⟨index, ha, _, hout⟩ := hargs arg harg
    cases ho : arg.getArgAttr "lmhlo.output_index" with
    | none => rw [declaredOutput_of_none arg ho]; rfl
    | some oa =>
      obtain ⟨path, hpath, _⟩ := hout oa ho
      subst hpath
      rw [declaredOutput_of_attrs arg path index ho ha]
      rfl
  · intro arg harg oa ho
    obtain ⟨index, ha, hpar, hout⟩ := hargs arg harg
    obtain ⟨path, hpath, _⟩ := hout oa ho
    subst hpath
    have hdecl := declaredOutput_of_attrs arg path index ho ha
    have hmem : (path, ({ allocation_index := index
                          alias_config :=
                            match arg.getArgAttr "lmhlo.params" with
                            | some (.IntegerAttr parameter_number) =>
                              some (parameter_number, [])
                            | _ => none } : OutputInfo)) ∈ r.output_info := by
      rw [hinfo, List.mem_filterMap]
      exact ⟨arg, harg, hdecl⟩
    refine ⟨path, index, _, rfl, ha, findValue_of_mem _ hkeys _ _ hmem, rfl, ?_, ?_⟩
    · cases hp : arg.getArgAttr "lmhlo.params" with
      | none => rfl
      | some pa =>
        obtain ⟨⟨p, hpp⟩, _⟩ := hpar pa hp
        subst hpp
        rfl
    · intro pa hp
      obtain ⟨⟨p, hpp⟩, _⟩ := hpar pa hp
      subst hpp
      exact ⟨p, rfl, by rw [hp]⟩

theorem GetMlirAllocationInfo_output_info_witness :
    toyFuncInfo.output_info = toyFunc.arguments.filterMap declaredOutput ∧
    toyFuncInfo.output_info.length = (toyFunc.arguments.filter (fun arg =>
      (arg.getArgAttr "lmhlo.output_index").isSome)).length ∧
    (∀ arg ∈ toyFunc.arguments, ∀ oa, arg.getArgAttr "lmhlo.output_index" = some oa →
      ∃ path index o, oa = .DenseIntElementsAttr path ∧
        arg.getArgAttr "lmhlo.alloc" = some (.IntegerAttr index) ∧
        findValue toyFuncInfo.output_info path = some o ∧ o.allocation_index = index ∧
        o.alias_config.isSome = (arg.getArgAttr "lmhlo.params").isSome ∧
        (∀ pa, arg.getArgAttr "lmhlo.params" = some pa →
          ∃ p, pa = .IntegerAttr p ∧ o.alias_config = some (p, []))) :=
  GetMlirAllocationInfo_output_info toyFunc toyFuncInfo (by decide) rfl

/-- Claim C17: for every function on which `GetMlirAllocationInfo` succeeds
and whose declared output paths all have length 1, the output shape is a tuple
whose length is one more than the largest declared position (every declared
position is below the length, and the position before the length is declared),
and whose element at a declared position `p` is the shape of the type of the
argument that declares the path `[p]`, the last one in argument order where
several arguments declare it. -/
theorem GetMlirAllocationInfo_output_shape (func : FuncOp) (r : AllocationInfo)
    (hlen : ∀ arg ∈ func.arguments, ∀ path, outputPath arg = some path → path.length = 1)
    (h : GetMlirAllocationInfo func = .ok r) :
    ∃ shapes, r.output_shape = Shape.tuple shapes ∧
      (∀ arg ∈ func.arguments, ∀ p : Int, outputPath arg = some [p] →
        0 ≤ p ∧ p < shapes.length) ∧
      (0 < shapes.length → ∃ arg ∈ func.arguments,
        outputPath arg = some [(shapes.length : Int) - 1]) ∧
      (∀ (pre post : List BlockArgument) (arg : BlockArgument) (p : Int),
        func.arguments = pre ++ arg :: post → outputPath arg = some [p] →
        (∀ b ∈ post, outputPath b ≠ some [p]) →
        shapes[p.toNat]? = some arg.type.TypeToShape) := by
  obtain ⟨allocations, st, _, _, h3, _, _, hrs⟩ := GetMlirAllocationInfo_ok func r h
  obtain ⟨hshapes, hnonneg⟩ := outputLoop_shapes _ _ _ h3 hlen
  simp only at hshapes
  refine ⟨st.output_shapes, hrs, ?_, ?_, ?_⟩
  · intro arg harg p hp
    have h0 := hnonneg arg harg p hp
    have hmem := List.mem_filterMap.2 ⟨arg, harg, shapeAssignment_of_path arg p hp⟩
    have hlt := assignAll_index_lt ([] : List Shape) Shape.invalid _ _ hmem
    rw [← hshapes] at hlt
    simp only at hlt
    exact ⟨h0, by omega⟩
  · intro hpos
    rcases assignAll_length_attained ([] : List Shape) Shape.invalid
        (func.arguments.filterMap shapeAssignment) with hz | ⟨u, hu, hz⟩
    · rw [← hshapes] at hz
      simp only [List.length_nil] at hz
      omega
    · obtain ⟨arg, harg, hsa⟩ := List.mem_filterMap.1 hu
      obtain ⟨p, hp, hup⟩ := shapeAssignment_some arg u hsa
      have h0 := hnonneg arg harg p hp
      refine ⟨arg, harg, ?_⟩
      rw [hp, hshapes, hz, hup]
      simp only [Option.some.injEq, List.cons.injEq, and_true]
      omega
  · intro pre post arg p hargs hp hpost
    have hmem : ∀ b ∈ post, b ∈ func.arguments := by
      intro b hb
      rw [hargs]
      exact List.mem_append_right _ (List.mem_cons_of_mem _ hb)
    have h0 : 0 ≤ p := hnonneg arg (by rw [hargs]; simp) p hp
    rw [hshapes, assignAll_getElem?, hargs, List.filterMap_append, List.filterMap_cons,
      shapeAssignment_of_path arg p hp]
    simp only
    rw [lastAssigned_append_cons _ _ _ p.toNat rfl]
    intro w hw hwk
    obtain ⟨b, hb, hsa⟩ := List.mem_filterMap.1 hw
    obtain ⟨q, hq, hwq⟩ := shapeAssignment_some b w hsa
    have hq0 := hnonneg b (hmem b hb) q hq
    apply hpost b hb
    rw [hq]
    simp only [Option.some.injEq, List.cons.injEq, and_true]
    rw [hwq] at hwk
    simp only at hwk
    omega

theorem GetMlirAllocationInfo_output_shape_witness :
    ∃ shapes, toyFuncTupleInfo.output_shape = Shape.tuple shapes ∧
      (∀ arg ∈ toyFuncTuple.arguments, ∀ p : Int, outputPath arg = some [p] →
        0 ≤ p ∧ p < shapes.length) ∧
      (0 < shapes.length → ∃ arg ∈ toyFuncTuple.arguments,
        outputPath arg = some [(shapes.length : Int) - 1]) ∧
      (∀ (pre post : List BlockArgument) (arg : BlockArgument) (p : Int),
        toyFuncTuple.arguments = pre ++ arg :: post → outputPath arg = some [p] →
        (∀ b ∈ post, outputPath b ≠ some [p]) →
        shapes[p.toNat]? = some arg.type.TypeToShape) :=
  GetMlirAllocationInfo_output_shape toyFuncTuple toyFuncTupleInfo
    (by
      intro arg harg path hpath
      simp only [toyFuncTuple, List.mem_cons, List.mem_singleton, List.not_mem_nil,
        or_false] at harg
      rcases harg with h | h
      · subst h
        have h2 : path = [2] := by
          have : (some [2] : Option (List Int)) = some path := hpath
          simpa using this.symm
        rw [h2]; rfl
      · subst h
        have h2 : path = [0] := by
          have : (some [0] : Option (List Int)) = some path := hpath
          simpa using this.symm
        rw [h2]; rfl)
    rfl

/-- Claim C12, code at the failing input: on a function whose two arguments
declare output paths of the lengths 1 and 2 and whose first argument carries
the allocation index -1, the first loop indexes the vector out of its bounds
and no status is returned; with the allocation index 1 in its place the
function returns the InvalidArgument error of the rank check. -/
theorem GetMlirAllocationInfo_rank_mismatch_negative_index :
    (∃ a ∈ (toyFuncRanks (-1)).arguments, ∃ b ∈ (toyFuncRanks (-1)).arguments,
      outputPath a = some [0] ∧ outputPath b = some [0, 0]) ∧
    GetMlirAllocationInfo (toyFuncRanks (-1)) = .abort ∧
    GetMlirAllocationInfo (toyFuncRanks 1) =
      .error (InvalidArgument "Expect output_index to have the same ranks") :=
  ⟨⟨_, List.mem_cons_self _ _, _, List.mem_cons_of_mem _ (List.mem_cons_self _ _),
    rfl, rfl⟩, rfl, rfl⟩

/-- Claim C13, code at the failing input: on a function whose second argument
declares an output path of length 2 and whose first argument carries the
allocation index -1, the first loop indexes the vector out of its bounds and
no status is returned; with the allocation index 1 in its place the function
returns the Unimplemented error. -/
theorem GetMlirAllocationInfo_deep_path_negative_index :
    (∃ a ∈ (toyFuncDeep (-1)).arguments, outputPath a = some [0, 1]) ∧
    GetMlirAllocationInfo (toyFuncDeep (-1)) = .abort ∧
    GetMlirAllocationInfo (toyFuncDeep 1) =
      .error (Unimplemented "Expect array type or 1-level tuple type") :=
  ⟨⟨_, List.mem_cons_of_mem _ (List.mem_cons_self _ _), rfl⟩, rfl, rfl⟩

/-- Claim C18, code at the failing input: on a function whose second argument
has no `lmhlo.alloc` attribute and carries an attribute of an unknown name, and
whose first argument carries the allocation index -1, the first loop indexes
the vector out of its bounds and no status is returned; with the allocation
index 0 in its place the function returns the error of the failed check. -/
theorem GetMlirAllocationInfo_bad_attribute_negative_index :
    (∃ a ∈ (toyFuncNoAlloc (-1)).arguments, a.getArgAttr "lmhlo.alloc" = none ∧
      ∃ attr ∈ a.attrs, attr.1 = "lmhlo.unknown") ∧
    GetMlirAllocationInfo (toyFuncNoAlloc (-1)) = .abort ∧
    GetMlirAllocationInfo (toyFuncNoAlloc 0) =
      .error (RetCheckFailure "allocation_index_attr") :=
  ⟨⟨_, List.mem_cons_of_mem _ (List.mem_cons_self _ _), rfl,
    _, List.mem_cons_self _ _, rfl⟩, rfl, rfl⟩

end AllocationInfoClaims

/-! ## Claims on the determinism flag and the post-layout-assignment pipeline -/

section DeterminismClaims

theorem RequireDeterminism_cached {Env : Type}
    (Read : String → Bool → Env → Bool → Status × Bool) (env : Env) (value : Bool) :
    RequireDeterminism Read env { require_determinism := some value } =
      .ok (value, { require_determinism := some value }) := rfl

theorem RequireDeterminismCalls_cached {Env : Type}
    (Read : String → Bool → Env → Bool → Status × Bool) (envs : List Env) (value : Bool) :
    RequireDeterminismCalls Read envs { require_determinism := some value } =
      .ok (List.replicate envs.length value, { require_determinism := some value }) := by
  induction envs with
  | nil => rfl
  | cons env envs ih =>
    simp only [RequireDeterminismCalls, RequireDeterminism_cached, ih, List.length_cons,
      List.replicate_succ]

/-- Claim C19: `RequireDeterminism` reads the `TF_DETERMINISTIC_OPS` setting,
with default false, on its first call only and caches it: the first call
returns what the reader gives in the environment of that call, and every later
call returns the value of the first call, whatever reader and environment it
is made with. -/
theorem RequireDeterminism_first_read_wins {Env : Type}
    (Read : String → Bool → Env → Bool → Status × Bool) (env : Env) (value : Bool)
    (state : ProcessState)
    (h : RequireDeterminism Read env { require_determinism := none } = .ok (value, state)) :
    value = (Read "TF_DETERMINISTIC_OPS" false env false).2 ∧
    (∀ (Read2 : String → Bool → Env → Bool → Status × Bool) (env2 : Env),
      RequireDeterminism Read2 env2 state = .ok (value, state)) ∧
    (∀ (Read2 : String → Bool → Env → Bool → Status × Bool) (envs : List Env),
      RequireDeterminismCalls Read2 envs state =
        .ok (List.replicate envs.length value, state)) := by
  unfold RequireDeterminism at h
  simp only at h
  split at h
  · cases h
  · simp only [Outcome.ok.injEq, Prod.mk.injEq] at h
    obtain ⟨h1, h2⟩ := h
    subst h2
    refine ⟨h1.symm, ?_, ?_⟩
    · intro Read2 env2
      rw [h1]
      rfl
    · intro Read2 envs
      rw [h1]
      exact RequireDeterminismCalls_cached Read2 envs value

theorem RequireDeterminism_first_read_wins_witness :
    true = (toyReadBool "TF_DETERMINISTIC_OPS" false
      [("TF_DETERMINISTIC_OPS", "1")] false).2 ∧
    (∀ (Read2 : String → Bool → List (String × String) → Bool → Status × Bool)
        (env2 : List (String × String)),
      RequireDeterminism Read2 env2 { require_determinism := some true } =
        .ok (true, { require_determinism := some true })) ∧
    (∀ (Read2 : String → Bool → List (String × String) → Bool → Status × Bool)
        (envs : List (List (String × String))),
      RequireDeterminismCalls Read2 envs { require_determinism := some true } =
        .ok (List.replicate envs.length true, { require_determinism := some true })) :=
  RequireDeterminism_first_read_wins toyReadBool [("TF_DETERMINISTIC_OPS", "1")] true
    { require_determinism := some true } (by decide)

/-- Claim C20: in `GpuCompiler::OptimizeHloPostLayoutAssignment` the pipeline
that is run holds the fixed-point `GpuTreeReductionRewriter` pass if and only
if the value of `RequireDeterminism`, `xla_gpu_deterministic_reductions` or
`xla_gpu_deterministic_ops` is true; it then stands between the same passes,
and all other passes, their order and the invariant checkers are the same
whether or not it is included. -/
theorem OptimizeHloPostLayoutAssignment_tree_reduction_rewriter {Env HloModule : Type}
    (Read : String → Bool → Env → Bool → Status × Bool)
    (Run : HloPassPipeline → HloModule → StatusOr Bool × HloModule)
    (env : Env) (state : ProcessState) (config : HloModuleConfig) (debug_build : Bool)
    (hlo_module : HloModule) (require_determinism : Bool) (next : ProcessState)
    (hflag : RequireDeterminism Read env state = .ok (require_determinism, next)) :
    (∃ status, OptimizeHloPostLayoutAssignment Read Run env state config debug_build
        hlo_module =
      .ok (status,
        (Run (postLayoutAssignmentPipeline require_determinism config.debug_options
          debug_build) hlo_module).2, next)) ∧
    (treeReductionRewriter ∈ (postLayoutAssignmentPipeline require_determinism
        config.debug_options debug_build).passes ↔
      (require_determinism = true ∨
        config.debug_options.xla_gpu_deterministic_reductions = true ∨
        config.debug_options.xla_gpu_deterministic_ops = true)) ∧
    (∃ before after : List HloPass,
      treeReductionRewriter ∉ before ∧ treeReductionRewriter ∉ after ∧
      ∀ (flag : Bool) (options : DebugOptions) (debug : Bool),
        (postLayoutAssignmentPipeline flag options debug).passes =
          (if flag || options.xla_gpu_deterministic_reductions ||
              options.xla_gpu_deterministic_ops then
            before ++ treeReductionRewriter :: after
          else before ++ after) ∧
        (postLayoutAssignmentPipeline flag options debug).invariant_checkers =
          (postLayoutAssignmentPipeline false {
            xla_gpu_force_compilation_parallelism := 0 } debug).invariant_checkers) := by
  refine ⟨?_, ?_, ?_⟩
  · unfold OptimizeHloPostLayoutAssignment
    rw [hflag]
    simp only
    split
    · exact ⟨_, rfl⟩
    · exact ⟨_, rfl⟩
  · obtain ⟨options⟩ := config
    obtain ⟨k, a, b, c⟩ := options
    cases require_determinism <;> cases a <;> cases b <;> cases debug_build <;>
      simp [postLayoutAssignmentPipeline, HloPassPipeline.AddPass,
        HloPassPipeline.AddInvariantCheckerDebug, treeReductionRewriter]
  · refine ⟨[{ name := "ReductionDegenerateDimRemover" },
      { name := "ReductionLayoutNormalizer" }, { name := "ReductionDimensionGrouper" },
      { name := "ReductionSplitter", fix := true },
      { name := "AlgebraicSimplifier", fix := true,
        args := ["is_layout_sensitive=true", "replace_transpose_with_bitcast=false",
                 "enable_conv_operand_swap=false"] }],
      [{ name := "TransposeFolding",
         args := ["IsMatrixMultiplication", "TransposeFolding::NeverFoldTranspose"] },
       { name := "GemmRewriter" },
       { name := "GpuConvAlgorithmPicker", args := ["stream_exec", "device_allocator"] },
       { name := "TupleSimplifier" },
       { name := "HloCSE", args := ["is_layout_sensitive=true"] }],
      by decide, by decide, ?_⟩
    intro flag options debug
    obtain ⟨k, a, b, c⟩ := options
    cases flag <;> cases a <;> cases b <;> cases debug <;> exact ⟨rfl, rfl⟩

theorem OptimizeHloPostLayoutAssignment_tree_reduction_rewriter_witness :
    treeReductionRewriter ∈ (postLayoutAssignmentPipeline true
      (configWith 0).debug_options false).passes ↔
      (true = true ∨ (configWith 0).debug_options.xla_gpu_deterministic_reductions = true ∨
        (configWith 0).debug_options.xla_gpu_deterministic_ops = true) :=
  (OptimizeHloPostLayoutAssignment_tree_reduction_rewriter toyReadBool
    (fun _ (m : Unit) => (.ok false, m)) [("TF_DETERMINISTIC_OPS", "true")]
    { require_determinism := none } (configWith 0) false () true
    { require_determinism := some true } (by decide)).2.1

end DeterminismClaims

/-! ## Claims on the shards of `CompileToTargetBinary` -/

section ShardingClaims

variable {Module : Type}

/-- Claim C23: on the sharded path, when every shard compiled, the shards with
an empty binary contribute nothing: the list passed to `LinkModules` is the
binaries of the shards with a non-empty binary, in shard index order, and the
text returned next to the linked binary is the texts of exactly these shards,
each followed by a newline, in the same order. -/
theorem CompileToTargetBinary_empty_binary_skipped (B : Backend Module)
    (cfg : HloModuleConfig) (m : Module) (opts : CompileOptions) (order : List Nat)
    (pool : ThreadPool)
    (hpool : selectThreadPool cfg opts = some pool)
    (hlink : (B.LinkModules []).status.code ≠ Code.UNIMPLEMENTED)
    (horder : order.Perm (List.range
      (B.SplitModule m (numShards pool (countFunctions (B.functions m)))).length))
    (vals : List BackendCompileResult)
    (hvals : shardCompile B
      (B.SplitModule m (numShards pool (countFunctions (B.functions m)))) = vals.map .ok) :
    (CompileToTargetBinary B cfg m opts order).1 =
      (B.LinkModules ((vals.filter (fun r => !r.2.isEmpty)).map Prod.snd)).map
        (fun backend_result =>
          (String.join ((vals.filter (fun r => !r.2.isEmpty)).map (fun r => r.1 ++ "\n")),
           backend_result)) ∧
    (CompileToTargetBinary B cfg m opts order).2.filter Event.isLinkModules =
      [Event.LinkModules [],
       Event.LinkModules ((vals.filter (fun r => !r.2.isEmpty)).map Prod.snd)] := by
  have hc : collectResults (shardCompile B
      (B.SplitModule m (numShards pool (countFunctions (B.functions m))))) "" [] =
      .ok (String.join ((vals.filter (fun r => !r.2.isEmpty)).map (fun r => r.1 ++ "\n")),
           (vals.filter (fun r => !r.2.isEmpty)).map Prod.snd) := by
    rw [hvals, collectResults_all_ok]
    simp
  exact sharded_of_collect_ok B cfg m opts order pool hpool hlink horder _ _ hc

theorem CompileToTargetBinary_empty_binary_skipped_witness :
    (CompileToTargetBinary toyBackendSparse (configWith 3) [extDef, extDef, extDef]
        { thread_pool := none } [2, 0, 1]).1 = .ok ("a\n" ++ "c\n", [7, 7, 9]) ∧
    (CompileToTargetBinary toyBackendSparse (configWith 3) [extDef, extDef, extDef]
        { thread_pool := none } [2, 0, 1]).2.filter Event.isLinkModules =
      [Event.LinkModules [], Event.LinkModules [[7, 7], [9]]] :=
  CompileToTargetBinary_empty_binary_skipped toyBackendSparse (configWith 3)
    [extDef, extDef, extDef] { thread_pool := none } [2, 0, 1] { NumThreads := 3 }
    (by decide) (by decide) (by decide)
    [("a", [7, 7]), ("b", []), ("c", [9])] (by decide)

/-- Claim C24: on the sharded path `SplitModule` is called once, for
`max(1, min(pool size, function count))` shards, both numbers taken as
`unsigned` values; the count is at least 1 and at most `max(1, pool size)`,
it is 1 when the module has no externally-linkable function definition, and
for a pool size `p` and a function count in `int` range it is
`max(1, min(p, count))`. -/
theorem CompileToTargetBinary_shard_count_bounds (B : Backend Module)
    (cfg : HloModuleConfig) (m : Module) (opts : CompileOptions) (order : List Nat)
    (pool : ThreadPool)
    (hpool : selectThreadPool cfg opts = some pool)
    (hlink : (B.LinkModules []).status.code ≠ Code.UNIMPLEMENTED) :
    ∃ n : Nat,
      (CompileToTargetBinary B cfg m opts order).2.filter Event.isSplitModule =
        [Event.SplitModule m n] ∧
      n = max 1 (min (toUnsigned pool.NumThreads)
            (toUnsigned ((externalDefinitions (B.functions m)).length : Int))) ∧
      1 ≤ n ∧ n ≤ max 1 (toUnsigned pool.NumThreads) ∧
      (externalDefinitions (B.functions m) = [] → n = 1) ∧
      (∀ p : Nat, pool.NumThreads = (p : Int) → p < 2147483648 →
        (externalDefinitions (B.functions m)).length < 2147483648 →
        n = max 1 (min p (externalDefinitions (B.functions m)).length)) := by
  refine ⟨numShards pool (countFunctions (B.functions m)),
    sharded_split_events B cfg m opts order pool hpool hlink, ?_, ?_, ?_, ?_, ?_⟩
  · rw [countFunctions_eq]
    rfl
  · unfold numShards
    omega
  · unfold numShards
    omega
  · intro hnone
    rw [countFunctions_eq, hnone]
    unfold numShards
    have h0 : toUnsigned ((([] : List Function).length : Nat) : Int) = 0 := by decide
    rw [h0]
    omega
  · intro p hp hp2 hf
    rw [countFunctions_eq]
    exact numShards_eq pool p _ hp hp2 hf

theorem CompileToTargetBinary_shard_count_bounds_witness :
    ∃ n : Nat,
      (CompileToTargetBinary toyBackend (configWith 0) [extDef, extDef, extDef]
          { thread_pool := some { NumThreads := 2 } } [1, 0]).2.filter Event.isSplitModule =
        [Event.SplitModule [extDef, extDef, extDef] n] ∧
      n = max 1 (min (toUnsigned (2 : Int))
            (toUnsigned ((externalDefinitions
              (toyBackend.functions [extDef, extDef, extDef])).length : Int))) ∧
      1 ≤ n ∧ n ≤ max 1 (toUnsigned (2 : Int)) ∧
      (externalDefinitions (toyBackend.functions [extDef, extDef, extDef]) = [] → n = 1) ∧
      (∀ p : Nat, ((2 : Int)) = (p : Int) → p < 2147483648 →
        (externalDefinitions (toyBackend.functions [extDef, extDef, extDef])).length <
          2147483648 →
        n = max 1 (min p
          (externalDefinitions (toyBackend.functions [extDef, extDef, extDef])).length)) :=
  CompileToTargetBinary_shard_count_bounds toyBackend (configWith 0)
    [extDef, extDef, extDef] { thread_pool := some { NumThreads := 2 } } [1, 0]
    { NumThreads := 2 } (by decide) (by decide)

end ShardingClaims

/-! ## Shared allocation indices and array outputs in `GetMlirAllocationInfo` -/

section SharedIndexLemmas

/-- After a successful first loop, the entry of the index of an argument is
the allocation made for the last argument in argument order with that index. -/
theorem allocLoop_last_entry (args pre post : List BlockArgument) (arg : BlockArgument)
    (allocations : List BufferAllocation) (value : Int)
    (h : allocLoop args [] = .ok (allocations.map some))
    (hargs : args = pre ++ arg :: post)
    (hk : arg.getArgAttr "lmhlo.alloc" = some (.IntegerAttr value))
    (hpost : ∀ b ∈ post, ∀ v, b.getArgAttr "lmhlo.alloc" = some (.IntegerAttr v) →
      toInt v ≠ toInt value) :
    0 ≤ toInt value ∧
    allocations[(toInt value).toNat]? =
      some { index := toInt value, size := arg.type.getSizeInBits / 8, color := 0 } := by
  obtain ⟨hfinal, hall⟩ := allocLoop_ok args [] _ h
  have harg : arg ∈ args := by rw [hargs]; simp
  obtain ⟨value2, hattr2, h0, _, _⟩ := hall arg harg
  rw [hk] at hattr2
  simp only [Option.some.injEq, Attribute.IntegerAttr.injEq] at hattr2
  subst hattr2
  refine ⟨h0, ?_⟩
  have hget : (allocations.map some)[(toInt value).toNat]? =
      some (some { index := toInt value, size := arg.type.getSizeInBits / 8, color := 0 }) := by
    rw [hfinal, assignAll_getElem?, hargs, List.filterMap_append, List.filterMap_cons,
      allocAssignment_of_attr arg value hk]
    simp only
    rw [lastAssigned_append_cons _ _ _ (toInt value).toNat rfl]
    intro w hw hwk
    obtain ⟨b, hb, hsa⟩ := List.mem_filterMap.1 hw
    have hbmem : b ∈ args := by
      rw [hargs]
      exact List.mem_append_right _ (List.mem_cons_of_mem _ hb)
    obtain ⟨v, hv, hv0, _, _⟩ := hall b hbmem
    rw [allocAssignment_of_attr b v hv] at hsa
    simp only [Option.some.injEq] at hsa
    rw [← hsa] at hwk
    simp only at hwk
    apply hpost b hb v hv
    omega
  rw [List.getElem?_map] at hget
  cases hal : allocations[(toInt value).toNat]? with
  | none => rw [hal] at hget; cases hget
  | some al =>
    rw [hal] at hget
    simp only [Option.map_some', Option.some.injEq] at hget
    rw [hget]

/-- After a successful call, the entry at position `j` of the allocation table
has the index `j` and the size that the first loop gave it. -/
theorem GetMlirAllocationInfo_entry (func : FuncOp) (r : AllocationInfo)
    (allocations : List BufferAllocation) (st : OutputState)
    (h3 : outputLoop func.arguments
      { allocations := allocations, output_info := [], output_shapes := [],
        rank := none } = .ok st)
    (hra : r.allocations = st.allocations) (j : Nat) (al : BufferAllocation)
    (hj : r.allocations[j]? = some al) :
    ∃ al0, allocations[j]? = some al0 ∧ al.index = al0.index ∧ al.size = al0.size := by
  obtain ⟨_, hget⟩ := outputLoop_allocations _ _ _ h3
  rw [hra, hget j] at hj
  simp only at hj
  cases hal : allocations[j]? with
  | none => rw [hal] at hj; cases hj
  | some al0 =>
    rw [hal] at hj
    simp only [Option.map_some', Option.some.injEq] at hj
    obtain ⟨g1, g2, _⟩ := applyAll_fields func.arguments (j : Int) al0
    refine ⟨al0, rfl, ?_, ?_⟩
    · rw [← hj, g1]
    · rw [← hj, g2]

/-- A shape is not the 1-element tuple of itself. -/
theorem Shape.tuple_singleton_ne (shape : Shape) : Shape.tuple [shape] ≠ shape := by
  intro h
  have hs := congrArg sizeOf h
  simp at hs
  omega

/-- The shapes after a successful run of the last loop over arguments whose
declared paths are all empty: the shape of every declaring argument is
appended, in argument order. -/
theorem outputLoop_shapes_empty (args : List BlockArgument) (st st2 : OutputState)
    (h : outputLoop args st = .ok st2)
    (hempty : ∀ arg ∈ args, ∀ path, outputPath arg = some path → path = []) :
    st2.output_shapes =
      st.output_shapes ++
        (args.filter (fun arg => decide (outputPath arg = some []))).map
          (fun arg => arg.type.TypeToShape) := by
  induction args generalizing st with
  | nil =>
    simp only [outputLoop, Outcome.ok.injEq] at h
    subst h
    simp
  | cons arg args ih =>
    obtain ⟨st1, hs, hl⟩ := outputLoop_cons_ok arg args st st2 h
    obtain ⟨index, ha, _, _, _, hnone, hout⟩ := outputStep_ok st st1 arg hs
    have ih1 := ih st1 hl (fun a ha2 => hempty a (List.mem_cons_of_mem _ ha2))
    cases ho : arg.getArgAttr "lmhlo.output_index" with
    | none =>
      have hop : outputPath arg = none := outputPath_of_none arg ho
      rw [ih1, (hnone ho).2.1, List.filter_cons, hop]
      simp
    | some oa =>
      obtain ⟨path, hpath, _, _, _, _, _, _, hplace⟩ := hout oa ho
      subst hpath
      have hop := outputPath_of_attr arg path ho
      have hnil := hempty arg (List.mem_cons_self _ _) path hop
      subst hnil
      have hshapes : st1.output_shapes = st.output_shapes ++ [arg.type.TypeToShape] := by
        simp only [placeShape, Option.some.injEq] at hplace
        exact hplace.symm
      rw [ih1, hshapes, List.filter_cons, hop]
      simp

end SharedIndexLemmas

section SharedIndexClaims

/-- Claim C25: for every function on which `GetMlirAllocationInfo` succeeds
and every argument that is the last one in argument order with its allocation
index (the `lmhlo.alloc` value as an `int`), the allocation table has an entry
at that index, the entry has that index and the byte size of this argument
(its size in bits divided by 8, rounded down), and no entry at another
position has that index. -/
theorem GetMlirAllocationInfo_shared_index (func : FuncOp) (r : AllocationInfo)
    (pre post : List BlockArgument) (arg : BlockArgument) (value : Int)
    (h : GetMlirAllocationInfo func = .ok r)
    (hargs : func.arguments = pre ++ arg :: post)
    (hk : arg.getArgAttr "lmhlo.alloc" = some (.IntegerAttr value))
    (hpost : ∀ b ∈ post, ∀ v, b.getArgAttr "lmhlo.alloc" = some (.IntegerAttr v) →
      toInt v ≠ toInt value) :
    0 ≤ toInt value ∧
    (∃ al, r.allocations[(toInt value).toNat]? = some al ∧ al.index = toInt value ∧
      al.size = arg.type.getSizeInBits / 8) ∧
    (∀ (j : Nat) (al : BufferAllocation), r.allocations[j]? = some al →
      al.index = toInt value → j = (toInt value).toNat) := by
  obtain ⟨allocations, st, h1, _, h3, hra, _, _⟩ := GetMlirAllocationInfo_ok func r h
  obtain ⟨h0, hlast⟩ := allocLoop_last_entry func.arguments pre post arg allocations value
    h1 hargs hk hpost
  obtain ⟨hlen, hget⟩ := outputLoop_allocations _ _ _ h3
  refine ⟨h0, ?_, ?_⟩
  · have hr : r.allocations[(toInt value).toNat]? =
        some (applyAll func.arguments (((toInt value).toNat : Nat) : Int)
          { index := toInt value, size := arg.type.getSizeInBits / 8, color := 0 }) := by
      rw [hra, hget, hlast]
      rfl
    obtain ⟨g1, g2, _⟩ := applyAll_fields func.arguments (((toInt value).toNat : Nat) : Int)
      { index := toInt value, size := arg.type.getSizeInBits / 8, color := 0 }
    exact ⟨_, hr, g1, g2⟩
  · intro j al hj hidx
    obtain ⟨al0, hal0, hi, _⟩ := GetMlirAllocationInfo_entry func r allocations st h3 hra j al hj
    obtain ⟨a, _, v, _, hv0, hvj, hal⟩ := allocLoop_entry func.arguments allocations h1 j al0 hal0
    rw [hi, hal] at hidx
    simp only at hidx
    rw [← hidx]
    exact hvj.symm

theorem GetMlirAllocationInfo_shared_index_witness :
    (0 ≤ toInt 0 ∧
     (∃ al, toyFuncSharedInfo.allocations[(toInt 0).toNat]? = some al ∧ al.index = toInt 0 ∧
       al.size = (memrefType 64 2).getSizeInBits / 8) ∧
     (∀ (j : Nat) (al : BufferAllocation), toyFuncSharedInfo.allocations[j]? = some al →
       al.index = toInt 0 → j = (toInt 0).toNat)) ∧
    (memrefType 64 2).getSizeInBits / 8 = 8 ∧
    (memrefType 128 4).getSizeInBits / 8 = 16 :=
  ⟨GetMlirAllocationInfo_shared_index toyFuncShared toyFuncSharedInfo
    [{ attrs := [allocAttr 0, paramsAttr 0], type := memrefType 128 4 }] []
    { attrs := [allocAttr 0, outputIndexAttr []], type := memrefType 64 2 } 0
    rfl rfl rfl (fun b hb => absurd hb (List.not_mem_nil b)), rfl, rfl⟩

/-- Claim C26: for every function on which `GetMlirAllocationInfo` succeeds
and whose declared output paths are all empty, the output shape is the tuple
of the shapes of the arguments that declare the empty path, in argument order:
for one such argument it is the 1-element tuple of its shape, which is not
that shape itself, and for a function that declares no output it is the empty
tuple. -/
theorem GetMlirAllocationInfo_array_outputs (func : FuncOp) (r : AllocationInfo)
    (h : GetMlirAllocationInfo func = .ok r)
    (hempty : ∀ arg ∈ func.arguments, ∀ path, outputPath arg = some path → path = []) :
    r.output_shape = Shape.tuple
      ((func.arguments.filter (fun arg => decide (outputPath arg = some []))).map
        (fun arg => arg.type.TypeToShape)) ∧
    (∀ arg, func.arguments.filter (fun arg => decide (outputPath arg = some [])) = [arg] →
      r.output_shape = Shape.tuple [arg.type.TypeToShape] ∧
      r.output_shape ≠ arg.type.TypeToShape) ∧
    ((∀ arg ∈ func.arguments, outputPath arg = none) → r.output_shape = Shape.tuple []) := by
  obtain ⟨allocations, st, _, _, h3, _, _, hrs⟩ := GetMlirAllocationInfo_ok func r h
  have hshapes := outputLoop_shapes_empty _ _ _ h3 hempty
  simp only [List.nil_append] at hshapes
  have hmain : r.output_shape = Shape.tuple
      ((func.arguments.filter (fun arg => decide (outputPath arg = some []))).map
        (fun arg => arg.type.TypeToShape)) := by
    rw [hrs, hshapes]
    rfl
  refine ⟨hmain, ?_, ?_⟩
  · intro arg hone
    have h1 : r.output_shape = Shape.tuple [arg.type.TypeToShape] := by
      rw [hmain, hone]
      rfl
    exact ⟨h1, by rw [h1]; exact Shape.tuple_singleton_ne _⟩
  · intro hnone
    rw [hmain]
    have hf : func.arguments.filter (fun arg => decide (outputPath arg = some [])) = [] := by
      rw [List.filter_eq_nil_iff]
      intro a ha
      rw [hnone a ha]
      simp
    rw [hf]
    rfl

theorem GetMlirAllocationInfo_array_outputs_witness :
    toyFuncArraysInfo.output_shape = Shape.tuple
      ((toyFuncArrays.arguments.filter (fun arg => decide (outputPath arg = some []))).map
        (fun arg => arg.type.TypeToShape)) ∧
    (∀ arg,
      toyFuncArrays.arguments.filter (fun arg => decide (outputPath arg = some [])) = [arg] →
      toyFuncArraysInfo.output_shape = Shape.tuple [arg.type.TypeToShape] ∧
      toyFuncArraysInfo.output_shape ≠ arg.type.TypeToShape) ∧
    ((∀ arg ∈ toyFuncArrays.arguments, outputPath arg = none) →
      toyFuncArraysInfo.output_shape = Shape.tuple []) :=
  GetMlirAllocationInfo_array_outputs toyFuncArrays toyFuncArraysInfo rfl
    (by
      intro arg harg path hpath
      simp only [toyFuncArrays, List.mem_cons, List.mem_singleton, List.not_mem_nil,
        or_false] at harg
      rcases harg with h | h | h
      · subst h
        have : (some [] : Option (List Int)) = some path := hpath
        simpa using this.symm
      · subst h
        have : (none : Option (List Int)) = some path := hpath
        cases this
      · subst h
        have : (some [] : Option (List Int)) = some path := hpath
        simpa using this.symm)

end SharedIndexClaims

/-! ## Lemmas on the stages of `OptimizeHloModule` -/

section StageLemmas

/-- The function runs the eight stages one after the other. -/
theorem OptimizeHloModule_eq_runStages {Env HloModule : Type}
    (Read : String → Bool → Env → Bool → Status × Bool)
    (Run : HloPassPipeline → HloModule → StatusOr Bool × HloModule)
    (Conv : HloModule → Status × HloModule)
    (env : Env) (state : ProcessState) (config : HloModuleConfig) (debug_build : Bool)
    (hlo_module : HloModule) :
    OptimizeHloModule Read Run Conv env state config debug_build hlo_module =
      runStages (optimizeStages Read Run Conv env config debug_build) (hlo_module, state) := by
  unfold OptimizeHloModule optimizeStages
  simp only [runStages, runStage]
  split
  · rfl
  · split
    · rfl
    · split
      · rfl
      · generalize OptimizeHloPostLayoutAssignment Read Run env state config debug_build
          _ = r
        cases r with
        | abort => rfl
        | error e => rfl
        | ok v =>
          obtain ⟨post_layout, hlo_module4, next⟩ := v
          simp only
          split
          · rfl
          · split
            · rfl
            · split
              · rfl
              · split
                · rfl
                · split
                  · rfl
                  · rfl

theorem runStages_cons_ok {σ : Type} (stage : Stage) (f : σ → Outcome (Status × σ))
    (rest : List (Stage × (σ → Outcome (Status × σ)))) (s s1 : σ) (status : Status)
    (hf : f s = .ok (status, s1)) (hok : status.ok = true) :
    runStages ((stage, f) :: rest) s =
      ((runStages rest s1).1, (stage, status) :: (runStages rest s1).2) := by
  simp [runStages, hf, hok]

theorem runStages_cons_failed {σ : Type} (stage : Stage) (f : σ → Outcome (Status × σ))
    (rest : List (Stage × (σ → Outcome (Status × σ)))) (s s1 : σ) (status : Status)
    (hf : f s = .ok (status, s1)) (hok : status.ok = false) :
    runStages ((stage, f) :: rest) s = (.ok (status, s1), [(stage, status)]) := by
  simp [runStages, hf, hok]

/-- The stages that were run are the first stages of the list, in its order. -/
theorem runStages_order {σ : Type} (l : List (Stage × (σ → Outcome (Status × σ)))) (s : σ) :
    (runStages l s).2.map Prod.fst <+: l.map Prod.fst := by
  induction l generalizing s with
  | nil => simp [runStages]
  | cons x rest ih =>
    obtain ⟨stage, f⟩ := x
    cases hf : f s with
    | abort => simp [runStages, hf]
    | error e => simp [runStages, hf]
    | ok v =>
      obtain ⟨status, s1⟩ := v
      cases hok : status.ok with
      | false =>
        rw [runStages_cons_failed stage f rest s s1 status hf hok]
        simp [List.cons_prefix_cons]
      | true =>
        rw [runStages_cons_ok stage f rest s s1 status hf hok]
        simp only [List.map_cons, List.cons_prefix_cons, true_and]
        exact ih s1

/-- A stage that returned a status that is not OK is the last one that was
run, and its status is the result. -/
theorem runStages_error {σ : Type} (l : List (Stage × (σ → Outcome (Status × σ)))) (s : σ)
    (i : Nat) (e : Stage × Status) (hi : (runStages l s).2[i]? = some e)
    (hne : e.2.ok = false) :
    (∃ s1, (runStages l s).1 = .ok (e.2, s1)) ∧ (runStages l s).2.length = i + 1 := by
  induction l generalizing s i with
  | nil => simp [runStages] at hi
  | cons x rest ih =>
    obtain ⟨stage, f⟩ := x
    cases hf : f s with
    | abort => simp [runStages, hf] at hi
    | error e => simp [runStages, hf] at hi
    | ok v =>
      obtain ⟨status, s1⟩ := v
      cases hok : status.ok with
      | false =>
        rw [runStages_cons_failed stage f rest s s1 status hf hok] at hi ⊢
        cases i with
        | zero =>
          simp only [List.getElem?_cons_zero, Option.some.injEq] at hi
          subst hi
          exact ⟨⟨s1, rfl⟩, rfl⟩
        | succ j => simp at hi
      | true =>
        rw [runStages_cons_ok stage f rest s s1 status hf hok] at hi ⊢
        cases i with
        | zero =>
          simp only [List.getElem?_cons_zero, Option.some.injEq] at hi
          subst hi
          simp only at hne
          rw [hok] at hne
          cases hne
        | succ j =>
          simp only [List.getElem?_cons_succ] at hi
          obtain ⟨h1, h2⟩ := ih s1 j hi
          exact ⟨h1, by simp [h2]⟩

/-- The result is OK exactly when every stage of the list was run and
returned OK. -/
theorem runStages_ok_iff {σ : Type} (l : List (Stage × (σ → Outcome (Status × σ)))) (s : σ) :
    (∃ status s1, (runStages l s).1 = .ok (status, s1) ∧ status.ok = true) ↔
      ((runStages l s).2.map Prod.fst = l.map Prod.fst ∧
        ∀ e ∈ (runStages l s).2, e.2.ok = true) := by
  induction l generalizing s with
  | nil =>
    simp only [runStages, List.map_nil, List.not_mem_nil, false_implies, implies_true,
      and_self, iff_true]
    exact ⟨_, s, rfl, rfl⟩
  | cons x rest ih =>
    obtain ⟨stage, f⟩ := x
    cases hf : f s with
    | abort => simp [runStages, hf]
    | error e => simp [runStages, hf]
    | ok v =>
      obtain ⟨status, s1⟩ := v
      cases hok : status.ok with
      | false =>
        rw [runStages_cons_failed stage f rest s s1 status hf hok]
        constructor
        · rintro ⟨st, s2, h1, h2⟩
          simp only [Outcome.ok.injEq, Prod.mk.injEq] at h1
          rw [← h1.1, hok] at h2
          cases h2
        · rintro ⟨_, h2⟩
          have := h2 (stage, status) (List.mem_singleton.2 rfl)
          simp only at this
          rw [hok] at this
          cases this
      | true =>
        rw [runStages_cons_ok stage f rest s s1 status hf hok]
        simp only [List.map_cons, List.cons.injEq, true_and, List.mem_cons, forall_eq_or_imp,
          hok]
        exact ih s1

/-- The call `OptimizeHloPostLayoutAssignment` returns a status unless the
process stops in `RequireDeterminism`. -/
theorem OptimizeHloPostLayoutAssignment_returns {Env HloModule : Type}
    (Read : String → Bool → Env → Bool → Status × Bool)
    (Run : HloPassPipeline → HloModule → StatusOr Bool × HloModule)
    (env : Env) (state : ProcessState) (config : HloModuleConfig) (debug_build : Bool)
    (hlo_module : HloModule) :
    (∀ e, OptimizeHloPostLayoutAssignment Read Run env state config debug_build hlo_module ≠
      .error e) ∧
    (OptimizeHloPostLayoutAssignment Read Run env state config debug_build hlo_module =
      .abort → RequireDeterminism Read env state = .abort) := by
  unfold OptimizeHloPostLayoutAssignment
  cases hr : RequireDeterminism Read env state with
  | abort => simp
  | error e =>
    exfalso
    unfold RequireDeterminism at hr
    split at hr
    · cases hr
    · simp only at hr
      split at hr <;> cases hr
  | ok v =>
    obtain ⟨flag, next⟩ := v
    simp only
    constructor
    · intro e
      split <;> simp
    · split <;> simp

/-- Stages that always return a status make the run return a status. -/
theorem runStages_total {σ : Type} (l : List (Stage × (σ → Outcome (Status × σ)))) (s : σ)
    (hl : ∀ x ∈ l, ∀ s0, ∃ v, x.2 s0 = .ok v) : ∃ v, (runStages l s).1 = .ok v := by
  induction l generalizing s with
  | nil => exact ⟨_, rfl⟩
  | cons x rest ih =>
    obtain ⟨stage, f⟩ := x
    obtain ⟨v, hf⟩ := hl (stage, f) (List.mem_cons_self _ _) s
    obtain ⟨status, s1⟩ := v
    simp only at hf
    cases hok : status.ok with
    | false =>
      rw [runStages_cons_failed stage f rest s s1 status hf hok]
      exact ⟨_, rfl⟩
    | true =>
      rw [runStages_cons_ok stage f rest s s1 status hf hok]
      exact ih s1 (fun x hx => hl x (List.mem_cons_of_mem _ hx))

/-- A run of stages that starts with a stage that returns a status. -/
theorem runStages_cons_cases {σ : Type} (stage : Stage) (f : σ → Outcome (Status × σ))
    (rest : List (Stage × (σ → Outcome (Status × σ)))) (s s1 : σ) (status : Status)
    (hf : f s = .ok (status, s1)) :
    (∃ v, (runStages ((stage, f) :: rest) s).1 = .ok v) ∨
      (runStages ((stage, f) :: rest) s).1 = (runStages rest s1).1 := by
  cases hok : status.ok with
  | false =>
    rw [runStages_cons_failed stage f rest s s1 status hf hok]
    exact Or.inl ⟨_, rfl⟩
  | true =>
    rw [runStages_cons_ok stage f rest s s1 status hf hok]
    exact Or.inr rfl

/-- The function `OptimizeHloModule` returns a status unless the process stops
in `RequireDeterminism`. -/
theorem OptimizeHloModule_returns {Env HloModule : Type}
    (Read : String → Bool → Env → Bool → Status × Bool)
    (Run : HloPassPipeline → HloModule → StatusOr Bool × HloModule)
    (Conv : HloModule → Status × HloModule)
    (env : Env) (state : ProcessState) (config : HloModuleConfig) (debug_build : Bool)
    (hlo_module : HloModule) :
    (∃ v, (OptimizeHloModule Read Run Conv env state config debug_build hlo_module).1 =
      .ok v) ∨
    ((OptimizeHloModule Read Run Conv env state config debug_build hlo_module).1 = .abort ∧
      RequireDeterminism Read env state = .abort) := by
  rw [OptimizeHloModule_eq_runStages]
  unfold optimizeStages
  rcases runStages_cons_cases Stage.optimization
      (runStage Run (optimizationPipeline config.debug_options debug_build)) _
      (hlo_module, state) _ _ rfl with h | h
  · exact Or.inl h
  rw [h]
  rcases runStages_cons_cases Stage.convolution_canonicalization
      (fun s : HloModule × ProcessState => Outcome.ok ((Conv s.1).1, (Conv s.1).2, s.2)) _
      ((Run (optimizationPipeline config.debug_options debug_build) hlo_module).2, state)
      _ _ rfl with h | h
  · exact Or.inl h
  rw [h]
  rcases runStages_cons_cases Stage.layout_assignment
      (runStage Run layoutAssignmentPipeline) _
      ((Conv (Run (optimizationPipeline config.debug_options debug_build)
        hlo_module).2).2, state) _ _ rfl with h | h
  · exact Or.inl h
  rw [h]
  obtain ⟨hne, hab⟩ := OptimizeHloPostLayoutAssignment_returns Read Run env state config
    debug_build (Run layoutAssignmentPipeline
      (Conv (Run (optimizationPipeline config.debug_options debug_build)
        hlo_module).2).2).2
  cases hp : OptimizeHloPostLayoutAssignment Read Run env state config debug_build
      (Run layoutAssignmentPipeline
        (Conv (Run (optimizationPipeline config.debug_options debug_build)
          hlo_module).2).2).2 with
  | error e => exact absurd hp (hne e)
  | abort =>
    refine Or.inr ⟨?_, hab hp⟩
    simp only [runStages, hp]
  | ok v =>
    obtain ⟨status, m4, next⟩ := v
    rcases runStages_cons_cases Stage.post_layout_assignment
        (fun s : HloModule × ProcessState =>
          OptimizeHloPostLayoutAssignment Read Run env s.2 config debug_build s.1) _
        ((Run layoutAssignmentPipeline
          (Conv (Run (optimizationPipeline config.debug_options debug_build)
            hlo_module).2).2).2, state) _ _ hp with h | h
    · exact Or.inl h
    rw [h]
    refine Or.inl (runStages_total _ _ ?_)
    intro x hx s0
    simp only [List.mem_cons, List.mem_singleton, List.not_mem_nil, or_false] at hx
    rcases hx with hx | hx | hx | hx <;> subst hx <;> exact ⟨_, rfl⟩

end StageLemmas

/-! ## Claims on the stages of `OptimizeHloModule` -/

section StageClaims

/-- Claim C21: `OptimizeHloModule` runs the stages optimization, convolution
canonicalization, layout assignment, post-layout-assignment, fusion,
horizontal fusion, all-reduce combiner and final algebraic simplifier one
after the other, each on the module the stage before it left: the stages that
were run are the first ones of this order; a stage that returned a status that
is not OK is the last stage that was run and its status is the status
returned; the status returned is OK exactly when all eight stages were run and
each returned OK; and a status is returned unless the process stops in
`RequireDeterminism`. -/
theorem OptimizeHloModule_stage_order {Env HloModule : Type}
    (Read : String → Bool → Env → Bool → Status × Bool)
    (Run : HloPassPipeline → HloModule → StatusOr Bool × HloModule)
    (Conv : HloModule → Status × HloModule)
    (env : Env) (state : ProcessState) (config : HloModuleConfig) (debug_build : Bool)
    (hlo_module : HloModule) :
    OptimizeHloModule Read Run Conv env state config debug_build hlo_module =
      runStages (optimizeStages Read Run Conv env config debug_build) (hlo_module, state) ∧
    (optimizeStages Read Run Conv env config debug_build).map Prod.fst = stageOrder ∧
    (OptimizeHloModule Read Run Conv env state config debug_build hlo_module).2.map Prod.fst
      <+: stageOrder ∧
    (∀ (i : Nat) (e : Stage × Status),
      (OptimizeHloModule Read Run Conv env state config debug_build hlo_module).2[i]? =
        some e →
      e.2.ok = false →
      (∃ m st, (OptimizeHloModule Read Run Conv env state config debug_build hlo_module).1 =
        .ok (e.2, m, st)) ∧
      (OptimizeHloModule Read Run Conv env state config debug_build hlo_module).2.length =
        i + 1) ∧
    ((∃ status m st,
        (OptimizeHloModule Read Run Conv env state config debug_build hlo_module).1 =
          .ok (status, m, st) ∧ status.ok = true) ↔
      ((OptimizeHloModule Read Run Conv env state config debug_build hlo_module).2.map
          Prod.fst = stageOrder ∧
        ∀ e ∈ (OptimizeHloModule Read Run Conv env state config debug_build hlo_module).2,
          e.2.ok = true)) ∧
    ((∃ v, (OptimizeHloModule Read Run Conv env state config debug_build hlo_module).1 =
        .ok v) ∨
      ((OptimizeHloModule Read Run Conv env state config debug_build hlo_module).1 =
          .abort ∧
        RequireDeterminism Read env state = .abort)) := by
  have heq := OptimizeHloModule_eq_runStages Read Run Conv env state config debug_build
    hlo_module
  have hnames : (optimizeStages Read Run Conv env config debug_build).map Prod.fst =
      stageOrder := rfl
  refine ⟨heq, hnames, ?_, ?_, ?_,
    OptimizeHloModule_returns Read Run Conv env state config debug_build hlo_module⟩
  · rw [heq, ← hnames]
    exact runStages_order _ _
  · intro i e hi hne
    rw [heq] at hi ⊢
    obtain ⟨⟨s1, h1⟩, h2⟩ := runStages_error _ _ i e hi hne
    exact ⟨⟨s1.1, s1.2, h1⟩, h2⟩
  · rw [heq, ← hnames]
    constructor
    · rintro ⟨status, m, st, h⟩
      exact (runStages_ok_iff _ _).1 ⟨status, (m, st), h⟩
    · intro h
      obtain ⟨status, s1, h1⟩ := (runStages_ok_iff _ _).2 h
      exact ⟨status, s1.1, s1.2, h1⟩

theorem OptimizeHloModule_stage_order_witness :
    (OptimizeHloModule toyReadBool toyRun toyCanonicalization [] {} (configWith 0) false
        []).2.map Prod.fst <+: stageOrder ∧
    OptimizeHloModule toyReadBool toyRun toyCanonicalization [] {} (configWith 0) false [] =
      (.ok (InvalidArgument "no fixed point",
          ["optimization", "convolution canonicalization", "layout assignment",
           "post-layout_assignment", "fusion"],
          { require_determinism := some false }),
       [(Stage.optimization, { code := Code.OK, message := "" }),
        (Stage.convolution_canonicalization, { code := Code.OK, message := "" }),
        (Stage.layout_assignment, { code := Code.OK, message := "" }),
        (Stage.post_layout_assignment, { code := Code.OK, message := "" }),
        (Stage.fusion, InvalidArgument "no fixed point")]) :=
  ⟨(OptimizeHloModule_stage_order toyReadBool toyRun toyCanonicalization [] {}
      (configWith 0) false []).2.2.1, by decide⟩

end StageClaims

/-! ## Claims on the fixed-point phases -/

section FixedPointLemmas

end FixedPointLemmas

section FixedPointClaims

end FixedPointClaims

end gpu
end xla
